import Mathlib

/-!
Verification of the `table` Go package (rapidfort/table): a shallow embedding
of its data model and rendering pipeline over byte strings (`List Nat`,
one entry per byte, UTF-8 encoded), together with theorems about the
claims of the specification.

Go strings are byte strings; all measurement in the source goes through
`utf8.RuneCountInString` and the ANSI-stripping regexp, so the embedding
models bytes faithfully, including Go's treatment of invalid UTF-8.
-/

set_option maxHeartbeats 4000000

namespace table

/-- A Go string: a list of bytes (each `< 256`, not enforced by the type). -/
abbrev GoStr := List Nat

/-- Go `utf8.RuneError` (U+FFFD). -/
def runeError : Nat := 0xFFFD

/-- Continuation byte test: `0x80 ≤ b ≤ 0xBF`. -/
def isCont (b : Nat) : Bool := 0x80 ≤ b && b ≤ 0xBF

/-- Second-byte accept range for a 3-byte lead, as in Go's `utf8.acceptRanges`. -/
def accept3 (b b1 : Nat) : Bool :=
  if b = 0xE0 then 0xA0 ≤ b1 && b1 ≤ 0xBF
  else if b ≤ 0xEC then isCont b1
  else if b = 0xED then 0x80 ≤ b1 && b1 ≤ 0x9F
  else isCont b1

/-- Second-byte accept range for a 4-byte lead, as in Go's `utf8.acceptRanges`. -/
def accept4 (b b1 : Nat) : Bool :=
  if b = 0xF0 then 0x90 ≤ b1 && b1 ≤ 0xBF
  else if b ≤ 0xF3 then isCont b1
  else 0x80 ≤ b1 && b1 ≤ 0x8F

/-- Go `utf8.DecodeRuneInString`: returns (rune value, number of bytes
consumed).  Invalid input decodes to `(runeError, 1)`; the empty string to
`(runeError, 0)`. -/
def decodeRune : GoStr → Nat × Nat
  | [] => (runeError, 0)
  | b :: rest =>
    if b < 0x80 then (b, 1)
    else if b < 0xC2 then (runeError, 1)
    else if b < 0xE0 then
      match rest with
      | b1 :: _ =>
        if isCont b1 then ((b - 0xC0) * 64 + (b1 - 0x80), 2) else (runeError, 1)
      | [] => (runeError, 1)
    else if b < 0xF0 then
      match rest with
      | b1 :: b2 :: _ =>
        if accept3 b b1 && isCont b2 then
          ((b - 0xE0) * 4096 + (b1 - 0x80) * 64 + (b2 - 0x80), 3)
        else (runeError, 1)
      | _ => (runeError, 1)
    else if b < 0xF5 then
      match rest with
      | b1 :: b2 :: b3 :: _ =>
        if accept4 b b1 && isCont b2 && isCont b3 then
          ((b - 0xF0) * 262144 + (b1 - 0x80) * 4096 + (b2 - 0x80) * 64 + (b3 - 0x80), 4)
        else (runeError, 1)
      | _ => (runeError, 1)
    else (runeError, 1)

theorem decodeRune_size_pos (s : GoStr) (h : s ≠ []) : 1 ≤ (decodeRune s).2 := by
  match s with
  | [] => exact absurd rfl h
  | b :: rest =>
    simp only [decodeRune]
    repeat' split
    all_goals simp

theorem decodeRune_size_le (s : GoStr) : (decodeRune s).2 ≤ s.length := by
  match s with
  | [] => simp [decodeRune]
  | b :: rest =>
    simp only [decodeRune]
    repeat' split
    all_goals simp_all [List.length_cons]

/-- Go `utf8.RuneCountInString`, as a structural recursion on a fuel
bound by the byte length (each decode consumes at least one byte, so the
fuel never runs out on the real entry point below). -/
def utf8CountAux : Nat → GoStr → Nat
  | _, [] => 0
  | 0, _ => 0
  | fuel + 1, b :: rest => 1 + utf8CountAux fuel ((b :: rest).drop (decodeRune (b :: rest)).2)

/-- Go `utf8.RuneCountInString`. -/
def utf8RuneCount (s : GoStr) : Nat := utf8CountAux s.length s

theorem utf8CountAux_congr (fuel : Nat) : ∀ (fuel' : Nat) (s : GoStr),
    s.length ≤ fuel → s.length ≤ fuel' → utf8CountAux fuel s = utf8CountAux fuel' s := by
  induction fuel with
  | zero =>
    intro fuel' s h h'
    have : s = [] := List.eq_nil_of_length_eq_zero (by omega)
    subst this
    cases fuel' <;> rfl
  | succ fuel ih =>
    intro fuel' s h h'
    match s with
    | [] => cases fuel' <;> rfl
    | b :: rest =>
      match fuel' with
      | 0 => simp at h'
      | fuel' + 1 =>
        simp only [utf8CountAux]
        congr 1
        apply ih
        · have h1 := decodeRune_size_pos (b :: rest) (by simp)
          simp only [List.length_drop, List.length_cons] at h ⊢
          omega
        · have h1 := decodeRune_size_pos (b :: rest) (by simp)
          simp only [List.length_drop, List.length_cons] at h' ⊢
          omega

/-- The recursion equation of `utf8RuneCount` on nonempty strings. -/
theorem utf8RuneCount_cons (s : GoStr) (h : s ≠ []) :
    utf8RuneCount s = 1 + utf8RuneCount (s.drop (decodeRune s).2) := by
  match s with
  | b :: rest =>
    show utf8CountAux (rest.length + 1) (b :: rest) = _
    simp only [utf8CountAux]
    congr 1
    apply utf8CountAux_congr
    · have h1 := decodeRune_size_pos (b :: rest) (by simp)
      simp only [List.length_drop, List.length_cons]
      omega
    · simp

/-- Go `unicode.IsSpace` (the `White_Space` table). -/
def isSpaceRune (r : Nat) : Bool :=
  (9 ≤ r && r ≤ 13) || r = 32 || r = 0x85 || r = 0xA0 || r = 0x1680 ||
  (0x2000 ≤ r && r ≤ 0x200A) || r = 0x2028 || r = 0x2029 || r = 0x202F ||
  r = 0x205F || r = 0x3000

/-- A byte on which a UTF-8 rune can start (not a continuation byte),
Go `utf8.RuneStart`. -/
def runeStart (b : Nat) : Bool := !(0x80 ≤ b && b ≤ 0xBF)

/-- Scan backwards from position `p` down to `lim` for a rune-start byte,
as in the loop of Go `utf8.DecodeLastRuneInString`.  Returns the position
found, or Go's fallback (`lim - 1` clamped to `0`). -/
def lastRuneStartPos (s : GoStr) (p lim : Nat) : Nat :=
  if p < lim then (if lim = 0 then 0 else lim - 1)
  else if runeStart (s.getD p 0) then p
  else
    match p with
    | 0 => 0
    | p' + 1 => lastRuneStartPos s p' lim

theorem lastRuneStartPos_le (s : GoStr) (p lim : Nat) :
    lastRuneStartPos s p lim ≤ max p lim := by
  induction p with
  | zero =>
    rw [lastRuneStartPos]
    split
    · split <;> omega
    · split
      · omega
      · exact Nat.zero_le _
  | succ p' ih =>
    rw [lastRuneStartPos]
    split
    · split <;> omega
    · split
      · omega
      · show lastRuneStartPos s p' lim ≤ _
        omega

/-- Go `utf8.DecodeLastRuneInString`.  `start` is where the backwards scan
for a rune-start byte lands (Go clamps its fallback to `0`). -/
def decodeLastRune (s : GoStr) : Nat × Nat :=
  if s.length = 0 then (runeError, 0)
  else
    let n := s.length - 1
    let lastB := s.getD n 0
    if lastB < 0x80 then (lastB, 1)
    else
      let lim := s.length - 4
      let start := if n = 0 then 0 else lastRuneStartPos s (n - 1) lim
      let dr := decodeRune (s.drop start)
      if start + dr.2 = s.length then dr else (runeError, 1)

theorem decodeLastRune_size_pos (s : GoStr) (h : s ≠ []) :
    1 ≤ (decodeLastRune s).2 := by
  have hlen : s.length ≠ 0 := by simpa using h
  unfold decodeLastRune
  simp only [if_neg hlen]
  split
  · simp
  · have hle := lastRuneStartPos_le s (s.length - 1 - 1) (s.length - 4)
    split
    · split
      · rename_i heq; omega
      · simp
    · split
      · rename_i heq; omega
      · simp

theorem decodeLastRune_size_le (s : GoStr) : (decodeLastRune s).2 ≤ s.length := by
  by_cases hlen : s.length = 0
  · unfold decodeLastRune; simp [hlen]
  · unfold decodeLastRune
    simp only [if_neg hlen]
    split
    · simp only; omega
    · have hle := lastRuneStartPos_le s (s.length - 1 - 1) (s.length - 4)
      split
      · split
        · rename_i heq; omega
        · simp only; omega
      · split
        · rename_i heq; omega
        · simp only; omega

/-- Go `strings.TrimLeftFunc(s, unicode.IsSpace)` (forward decoding),
fueled by the byte length. -/
def trimLeftAux : Nat → GoStr → GoStr
  | _, [] => []
  | 0, s => s
  | fuel + 1, b :: rest =>
    let dr := decodeRune (b :: rest)
    if isSpaceRune dr.1 then trimLeftAux fuel ((b :: rest).drop dr.2) else b :: rest

def trimLeftSpace (s : GoStr) : GoStr := trimLeftAux s.length s

/-- Go `strings.TrimRightFunc(s, unicode.IsSpace)` (backward decoding),
fueled by the byte length. -/
def trimRightAux : Nat → GoStr → GoStr
  | _, [] => []
  | 0, s => s
  | fuel + 1, b :: rest =>
    let dr := decodeLastRune (b :: rest)
    if isSpaceRune dr.1 then
      trimRightAux fuel ((b :: rest).take ((b :: rest).length - dr.2))
    else b :: rest

def trimRightSpace (s : GoStr) : GoStr := trimRightAux s.length s

/-- Go `strings.TrimSpace` (leading then trailing whitespace runes). -/
def goTrimSpace (s : GoStr) : GoStr := trimRightSpace (trimLeftSpace s)

/-- Go `strings.Fields(s)`: maximal runs of non-whitespace runes.
`cur` is the word currently being collected; the fuel is bounded by the
byte length. -/
def fieldsAux : Nat → GoStr → GoStr → List GoStr
  | _, [], cur => if cur = [] then [] else [cur]
  | 0, _, cur => if cur = [] then [] else [cur]
  | fuel + 1, b :: rest, cur =>
    let dr := decodeRune (b :: rest)
    if isSpaceRune dr.1 then
      if cur = [] then fieldsAux fuel ((b :: rest).drop dr.2) []
      else cur :: fieldsAux fuel ((b :: rest).drop dr.2) []
    else fieldsAux fuel ((b :: rest).drop dr.2) (cur ++ (b :: rest).take dr.2)

/-- Go `strings.Fields`. -/
def goFields (s : GoStr) : List GoStr := fieldsAux s.length s []

/-- Go `strings.Split(s, sep)` for a one-byte separator (the source only
splits on `","`, `"/"` and `"\n"`). -/
def splitOnByte (b : Nat) (s : GoStr) : List GoStr :=
  match s with
  | [] => [[]]
  | c :: rest =>
    if c = b then [] :: splitOnByte b rest
    else
      match splitOnByte b rest with
      | [] => [[c]]
      | w :: ws => (c :: w) :: ws

/-- Go `strings.Contains(s, sub)` for a one-byte substring. -/
def containsByte (b : Nat) (s : GoStr) : Bool := s.contains b

/-- Go `strings.Repeat(u, n)` for a string `u` (used with `" "` and `"─"`);
negative counts never occur on the paths we model. -/
def goRepeat (u : GoStr) (n : Int) : GoStr := (List.replicate n.toNat u).flatten

/-- `n` spaces. -/
def spaces (n : Int) : GoStr := goRepeat [32] n

/-- Whether `s` begins with `pre0`. -/
def goHasPre (pre0 s : GoStr) : Bool := s.take pre0.length = pre0

/-! ### ANSI escape sequences

The source strips with the regexp `\x1b\[[0-9;]*[a-zA-Z]`.  The classes are
disjoint, so matching at a position is deterministic: `ESC`, `[`, a maximal
run of digits/semicolons, one letter. -/

def isDigitSemi (b : Nat) : Bool := (48 ≤ b && b ≤ 57) || b = 59

def isAsciiLetter (b : Nat) : Bool := (65 ≤ b && b ≤ 90) || (97 ≤ b && b ≤ 122)

/-- Length of the leading run of digits/semicolons. -/
def digitSemiRun : GoStr → Nat
  | [] => 0
  | b :: rest => if isDigitSemi b then digitSemiRun rest + 1 else 0

/-- If the regexp `\x1b\[[0-9;]*[a-zA-Z]` matches at the start of `s`,
the length of the match. -/
def ansiMatchLen (s : GoStr) : Option Nat :=
  match s with
  | b0 :: b1 :: rest =>
    if b0 = 27 then
      if b1 = 91 then
        let k := digitSemiRun rest
        match (rest.drop k).head? with
        | some c => if isAsciiLetter c then some (k + 3) else none
        | none => none
      else none
    else none
  | _ => none

theorem digitSemiRun_le (rest : GoStr) : digitSemiRun rest ≤ rest.length := by
  induction rest with
  | nil => simp [digitSemiRun]
  | cons c cs ih =>
    simp only [digitSemiRun]
    split <;> simp <;> omega

theorem ansiMatchLen_ge (s : GoStr) (k : Nat) (h : ansiMatchLen s = some k) :
    3 ≤ k ∧ k ≤ s.length := by
  match s with
  | [] => simp [ansiMatchLen] at h
  | [b] => simp [ansiMatchLen] at h
  | b0 :: b1 :: rest =>
    simp only [ansiMatchLen] at h
    split at h
    · split at h
      · split at h
        · rename_i c heq
          split at h
          · have hk : digitSemiRun rest + 3 = k := by
              exact (Option.some.injEq _ _).mp h
            have hne : rest.drop (digitSemiRun rest) ≠ [] := by
              intro hnil; rw [hnil] at heq; simp at heq
            have hlt : digitSemiRun rest < rest.length := by
              by_contra hge
              push_neg at hge
              exact hne (List.drop_eq_nil_of_le hge)
            simp only [List.length_cons]
            omega
          · exact absurd h (by simp)
        · exact absurd h (by simp)
      · exact absurd h (by simp)
    · exact absurd h (by simp)

/-- `stripANSI` removes every match of the regexp from `s`
(`ansiRegexp.ReplaceAllString(s, "")`, a single left-to-right pass),
fueled by the byte length (a match consumes at least 3 bytes). -/
def stripAux : Nat → GoStr → GoStr
  | _, [] => []
  | 0, s => s
  | fuel + 1, b :: rest =>
    match ansiMatchLen (b :: rest) with
    | some k => stripAux fuel ((b :: rest).drop k)
    | none => b :: stripAux fuel rest

def stripANSI (s : GoStr) : GoStr := stripAux s.length s

/-- All matches of the regexp in `s`, as (start, end) byte offsets relative
to `pos` (Go `FindAllStringIndex`), fueled by the byte length. -/
def ansiFindAllAux : Nat → GoStr → Nat → List (Nat × Nat)
  | _, [], _ => []
  | 0, _, _ => []
  | fuel + 1, b :: rest, pos =>
    match ansiMatchLen (b :: rest) with
    | some k => (pos, pos + k) :: ansiFindAllAux fuel ((b :: rest).drop k) (pos + k)
    | none => ansiFindAllAux fuel rest (pos + 1)

def ansiFindAll (s : GoStr) (pos : Nat) : List (Nat × Nat) := ansiFindAllAux s.length s pos

/-- The leading-run peel of `extractWrappingANSI`: repeatedly take a match
anchored at the very start.  Returns (peeled run, remainder);
fueled by the byte length. -/
def peelLeadingAux : Nat → GoStr → GoStr × GoStr
  | 0, s => ([], s)
  | fuel + 1, s =>
    match ansiMatchLen s with
    | some k =>
      let pr := peelLeadingAux fuel (s.drop k)
      (s.take k ++ pr.1, pr.2)
    | none => ([], s)

def peelLeading (s : GoStr) : GoStr × GoStr := peelLeadingAux s.length s

/-- The trailing-run peel of `extractWrappingANSI`: while the last match of
`rest[:coreEnd]` ends exactly at `coreEnd`, move it into the suffix.  When
the core empties Go returns early with an empty core.  Fueled by
`coreEnd` (each peel strictly lowers it). -/
def peelTrailingAux : Nat → GoStr → Nat → GoStr → GoStr × GoStr
  | 0, rest, coreEnd, suf => (rest.take coreEnd, suf)
  | fuel + 1, rest, coreEnd, suf =>
    let ms := ansiFindAll (rest.take coreEnd) 0
    match ms.getLast? with
    | some ab =>
      if ab.2 = coreEnd then
        if ab.1 < coreEnd then
          if ab.1 = 0 then ([], (rest.take coreEnd).drop ab.1 ++ suf)
          else peelTrailingAux fuel rest ab.1 ((rest.take coreEnd).drop ab.1 ++ suf)
        else (rest.take coreEnd, suf)
      else (rest.take coreEnd, suf)
    | none => (rest.take coreEnd, suf)

def peelTrailing (rest : GoStr) (coreEnd : Nat) (suf : GoStr) : GoStr × GoStr :=
  peelTrailingAux coreEnd rest coreEnd suf

/-- `extractWrappingANSI` splits `s` into a leading run of escape sequences,
a trailing run, and the printable core between them. -/
def extractWrappingANSI (s : GoStr) : GoStr × GoStr × GoStr :=
  let pr := peelLeading s
  if pr.2 = [] then (pr.1, [], [])
  else
    let cs := peelTrailing pr.2 pr.2.length []
    (pr.1, cs.2, cs.1)

/-- The visible length used throughout the source:
`utf8.RuneCountInString(stripANSI(s))`. -/
def visLen (s : GoStr) : Nat := utf8RuneCount (stripANSI s)

/-! ### Constants (box-drawing characters and styles), byte for byte. -/

def TopLeft : GoStr := [0xE2, 0x94, 0x8C]
def TopRight : GoStr := [0xE2, 0x94, 0x90]
def BottomLeft : GoStr := [0xE2, 0x94, 0x94]
def BottomRight : GoStr := [0xE2, 0x94, 0x98]
def HLine : GoStr := [0xE2, 0x94, 0x80]
def VLine : GoStr := [0xE2, 0x94, 0x82]
def LeftT : GoStr := [0xE2, 0x94, 0x9C]
def RightT : GoStr := [0xE2, 0x94, 0xA4]
def TopT : GoStr := [0xE2, 0x94, 0xAC]
def BottomT : GoStr := [0xE2, 0x94, 0xB4]
def Cross : GoStr := [0xE2, 0x94, 0xBC]

/-- `"\x1b[2m\x1b[38;5;240m"`. -/
def DimStyleStart : GoStr :=
  [27, 91, 50, 109, 27, 91, 51, 56, 59, 53, 59, 50, 52, 48, 109]
/-- `"\x1b[0m"`. -/
def DimStyleEnd : GoStr := [27, 91, 48, 109]
/-- `"\x1b[1m"`. -/
def BoldStyleStart : GoStr := [27, 91, 49, 109]
/-- `"\x1b[0m"`. -/
def BoldStyleEnd : GoStr := [27, 91, 48, 109]

def minTerminalWidth : Int := 80
def maxColumnWidth : Int := 50

/-- Alignment strings. -/
def strLeft : GoStr := [108, 101, 102, 116]
def strRight : GoStr := [114, 105, 103, 104, 116]
def strCenter : GoStr := [99, 101, 110, 116, 101, 114]

/-! ### The data model -/

/-- The `Table` struct.  The Go maps `Descriptions`, `DescriptionTitles`
(`map[int][]string`) and `maxWidths` (`map[int]int`) are modelled as
functions to `Option`; `group` only records membership (`*TableGroup`
back-pointer used solely for the `t.group == nil` test in `Render`). -/
structure Table where
  Headers : List GoStr
  Rows : List (List GoStr)
  Descriptions : Int → Option (List GoStr)
  DescriptionTitles : Int → Option (List GoStr)
  columnWidths : List Int
  alignments : List GoStr
  consoleWidth : Int
  fillWidth : Bool
  maxWidths : Int → Option Int
  dimBorder : Bool
  supportANSI : Bool
  borderless : Bool
  highlightHeaders : Bool
  highlightedHeaders : List Int
  rowCountEnabled : Bool
  group : Option Unit

/-- A `TableGroup`. -/
structure TableGroup where
  tables : List Table
  columnWidths : List Int

/-- Update of an integer-keyed map. -/
def mapUpdate {α : Type} (m : Int → Option α) (k : Int) (v : α) : Int → Option α :=
  fun i => if i = k then some v else m i

/-- `NewTable`, with the two environment queries (`detectTerminalWidth`,
`term.IsTerminal`) passed in as parameters. -/
def NewTable (headers : List GoStr) (termWidth : Int) (isTerminal : Bool) : Table :=
  let t : Table :=
    { Headers := headers
      Rows := []
      Descriptions := fun _ => none
      DescriptionTitles := fun _ => none
      columnWidths := List.replicate headers.length 0
      alignments := List.replicate headers.length strLeft
      consoleWidth := termWidth
      fillWidth := false
      borderless := false
      dimBorder := true
      supportANSI := isTerminal
      maxWidths := fun _ => none
      highlightHeaders := true
      highlightedHeaders := []
      rowCountEnabled := false
      group := none }
  if !t.supportANSI then { t with dimBorder := false, highlightHeaders := false } else t

/-- `NewGroup`. -/
def NewGroup : TableGroup := { tables := [], columnWidths := [] }

/-- `TableGroup.Add`: appends the table and sets its back-pointer. -/
def TableGroup.Add (g : TableGroup) (t : Table) : TableGroup :=
  { g with tables := g.tables ++ [{ t with group := some () }] }

def Table.EnableRowCount (t : Table) (enabled : Bool) : Table :=
  { t with rowCountEnabled := enabled }

def Table.SetBorderless (t : Table) (enabled : Bool) : Table := { t with borderless := enabled }

def Table.SetDimBorder (t : Table) (enabled : Bool) : Table := { t with dimBorder := enabled }

def Table.SetHeaderHighlighting (t : Table) (enabled : Bool) : Table :=
  { t with highlightHeaders := enabled }

def Table.SetFillWidth (t : Table) (enabled : Bool) : Table := { t with fillWidth := enabled }

def Table.SetConsoleWidth (t : Table) (width : Int) : Table := { t with consoleWidth := width }

def Table.SetAlignment (t : Table) (columnIndex : Int) (alignment : GoStr) : Table :=
  if 0 ≤ columnIndex ∧ columnIndex < t.alignments.length then
    { t with alignments := t.alignments.set columnIndex.toNat alignment }
  else t

def Table.SetMaxWidth (t : Table) (columnIndex : Int) (maxWidth : Int) : Table :=
  if 0 ≤ columnIndex ∧ columnIndex < t.Headers.length then
    { t with maxWidths := mapUpdate t.maxWidths columnIndex maxWidth }
  else t

/-- `AddRow`: pads short rows with empty strings up to the header count. -/
def Table.AddRow (t : Table) (row : List GoStr) : Table :=
  { t with Rows := t.Rows ++ [row ++ List.replicate (t.Headers.length - row.length) []] }

/-- `AddDescription`.  An absent key initializes both maps first. -/
def Table.AddDescription (t : Table) (rowIndex : Int) (description : GoStr) : Table :=
  if 0 ≤ rowIndex ∧ rowIndex < (t.Rows.length : Int) then
    match t.Descriptions rowIndex with
    | some ds =>
      { t with
        Descriptions := mapUpdate t.Descriptions rowIndex (ds ++ [description])
        DescriptionTitles :=
          mapUpdate t.DescriptionTitles rowIndex
            (((t.DescriptionTitles rowIndex).getD []) ++ [[]]) }
    | none =>
      { t with
        Descriptions := mapUpdate t.Descriptions rowIndex [description]
        DescriptionTitles := mapUpdate t.DescriptionTitles rowIndex [[]] }
  else t

/-- `AddDescriptionWithTitle`. -/
def Table.AddDescriptionWithTitle (t : Table) (rowIndex : Int) (title description : GoStr) :
    Table :=
  if 0 ≤ rowIndex ∧ rowIndex < (t.Rows.length : Int) then
    match t.Descriptions rowIndex with
    | some ds =>
      { t with
        Descriptions := mapUpdate t.Descriptions rowIndex (ds ++ [description])
        DescriptionTitles :=
          mapUpdate t.DescriptionTitles rowIndex
            (((t.DescriptionTitles rowIndex).getD []) ++ [title]) }
    | none =>
      { t with
        Descriptions := mapUpdate t.Descriptions rowIndex [description]
        DescriptionTitles := mapUpdate t.DescriptionTitles rowIndex [title] }
  else t

/-! ### Width allocation -/

/-- `calculateInitialColumnWidths`: reset to zero, take the max visible
length over header and cells per column, then apply the global and
per-column caps. -/
def Table.calculateInitialColumnWidths (t : Table) : Table :=
  let cw0 : List Int :=
    if t.columnWidths.length ≠ t.Headers.length then List.replicate t.Headers.length 0
    else t.columnWidths
  let cw1 := cw0.map (fun _ => (0 : Int))
  let cw2 := t.Headers.enum.foldl
    (fun cw p =>
      let l : Int := visLen p.2
      if l > cw.getD p.1 0 then cw.set p.1 l else cw) cw1
  let cw3 := t.Rows.foldl
    (fun cw row =>
      row.enum.foldl
        (fun cw p =>
          if p.1 ≥ cw.length then cw
          else
            let l : Int := visLen p.2
            if l > cw.getD p.1 0 then cw.set p.1 l else cw) cw) cw2
  let cw4 := (List.range cw3.length).foldl
    (fun (cw : List Int) (i : Nat) =>
      let width := cw.getD i 0
      let cw := if width > maxColumnWidth then cw.set i maxColumnWidth else cw
      match t.maxWidths (Int.ofNat i) with
      | some mw => if cw.getD i 0 > mw then cw.set i mw else cw
      | none => cw) cw3
  { t with columnWidths := cw4 }

/-- `1 + Σ (w + 2 + 1)`: the full table width (borders, padding,
separators) used by both fit passes. -/
def totalWidth (cw : List Int) : Int := cw.foldl (fun acc w => acc + (w + 2 + 1)) 1

/-- Find the first widest column of width `> 3` (returns `(maxW, idx)`,
`idx = -1` if none), as in both shrink loops. -/
def pickWidest (cw : List Int) : Int × Int :=
  cw.enum.foldl
    (fun mi p => if p.2 > mi.1 ∧ p.2 > 3 then (p.2, (p.1 : Int)) else mi) (0, -1)

/-- The loop of `adjustColumnWidthsToFit`: decrement the widest column
(width `> 3`) once per unit of excess.  The fuel `excess.toNat` is exact:
each iteration lowers the excess by one. -/
def adjustLoopAux : Nat → List Int → Int → List Int
  | 0, cw, _ => cw
  | fuel + 1, cw, excess =>
    if 0 < excess then
      let p := pickWidest cw
      if p.2 < 0 then cw
      else adjustLoopAux fuel (cw.set p.2.toNat (cw.getD p.2.toNat 0 - 1)) (excess - 1)
    else cw

def adjustLoop (cw : List Int) (excess : Int) : List Int :=
  adjustLoopAux excess.toNat cw excess

/-- `adjustColumnWidthsToFit`. -/
def Table.adjustColumnWidthsToFit (t : Table) : Table :=
  let total := totalWidth t.columnWidths
  if total > t.consoleWidth then
    { t with columnWidths := adjustLoop t.columnWidths (total - t.consoleWidth) }
  else t

/-- The `reduceBy` computation of `shrinkColumnsToFit`: `1`, or
`excess / 5` capped at `w - 3` for large excesses on wide columns. -/
def shrinkStep (excess w : Int) : Int :=
  if excess > 5 ∧ w > 10 then
    (if excess / 5 > w - 3 then w - 3 else excess / 5)
  else 1

theorem shrinkStep_pos (excess w : Int) (h : 0 < excess) : 1 ≤ shrinkStep excess w := by
  unfold shrinkStep
  split
  · split
    · omega
    · rename_i hc _
      have : (1 : Int) ≤ excess / 5 := by omega
      omega
  · omega

/-- The loop of `shrinkColumnsToFit`.  The fuel `excess.toNat` suffices:
each iteration lowers the excess by `reduceBy ≥ 1`. -/
def shrinkLoopAux : Nat → List Int → Int → List Int
  | 0, cw, _ => cw
  | fuel + 1, cw, excess =>
    if 0 < excess then
      let p := pickWidest cw
      if p.2 < 0 then cw
      else
        let idx := p.2.toNat
        let reduceBy := shrinkStep excess (cw.getD idx 0)
        shrinkLoopAux fuel (cw.set idx (cw.getD idx 0 - reduceBy)) (excess - reduceBy)
    else cw

def shrinkLoop (cw : List Int) (excess : Int) : List Int :=
  shrinkLoopAux excess.toNat cw excess

/-- `shrinkColumnsToFit`. -/
def Table.shrinkColumnsToFit (t : Table) (excessWidth : Int) : Table :=
  { t with columnWidths := shrinkLoop t.columnWidths excessWidth }

/-- `expandColumnsToFit`: distribute extra space among columns that have
not reached their per-column cap. -/
def Table.expandColumnsToFit (t : Table) (extraWidth : Int) : Table :=
  let expandableCols : Int := (List.range t.columnWidths.length).foldl
    (fun (n : Int) (i : Nat) =>
      match t.maxWidths (Int.ofNat i) with
      | some mw => if t.columnWidths.getD i 0 < mw then n + 1 else n
      | none => n + 1) 0
  if expandableCols > 0 then
    let perColumn := extraWidth / expandableCols
    let remainder := extraWidth % expandableCols
    let res := (List.range t.columnWidths.length).foldl
      (fun (st : List Int × Int) (i : Nat) =>
        let cw := st.1
        let expandedCount := st.2
        match t.maxWidths (Int.ofNat i) with
        | some mw =>
          if cw.getD i 0 ≥ mw then st
          else
            let cw := cw.set i (cw.getD i 0 + perColumn)
            let st2 : List Int × Int :=
              if expandedCount < remainder then (cw.set i (cw.getD i 0 + 1), expandedCount + 1)
              else (cw, expandedCount)
            let cw2 := st2.1
            (if cw2.getD i 0 > mw then cw2.set i mw else cw2, st2.2)
        | none =>
          let cw := cw.set i (cw.getD i 0 + perColumn)
          if expandedCount < remainder then (cw.set i (cw.getD i 0 + 1), expandedCount + 1)
          else (cw, expandedCount))
      (t.columnWidths, (0 : Int))
    { t with columnWidths := res.1 }
  else t

/-- `calculateOptimalColumnWidths`. -/
def Table.calculateOptimalColumnWidths (t : Table) (maxWidth : Int) : Table :=
  let t1 := t.calculateInitialColumnWidths
  let totalRequiredWidth := totalWidth t1.columnWidths
  if totalRequiredWidth > maxWidth then
    t1.shrinkColumnsToFit (totalRequiredWidth - maxWidth)
  else if t1.fillWidth then
    t1.expandColumnsToFit (maxWidth - totalRequiredWidth)
  else t1

/-! ### Cell wrapping

The inner hard-cut loops of `splitByWords` and `smartSplitByWords` do not
terminate in Go when the wrap width is `0` and text remains (slicing zero
bytes makes no progress), so they are modelled with explicit fuel:
a `none` result for every fuel means the Go loop diverges. -/

/-- The inner loop of `splitByWords`: while the current line is longer than
`maxWidth` runes, cut off `maxWidth` *bytes* (`line[:maxWidth]`). -/
def chunkLoop (fuel : Nat) (res : List GoStr) (line : GoStr) (maxWidth : Int) :
    Option (List GoStr × GoStr) :=
  if (utf8RuneCount line : Int) > maxWidth then
    match fuel with
    | 0 => none
    | fuel + 1 =>
      chunkLoop fuel (res ++ [line.take maxWidth.toNat]) (line.drop maxWidth.toNat) maxWidth
  else some (res, line)

/-- `splitByWords`: greedy word packing with a byte-level hard cut for
overlong words (all measuring by `utf8.RuneCountInString`, no ANSI
stripping here). -/
def splitByWords (fuel : Nat) (content : GoStr) (maxWidth : Int) : Option (List GoStr) := do
  let words := goFields content
  let st ← words.foldlM
    (fun (st : List GoStr × GoStr) w => do
      let res := st.1
      let line := st.2
      let test := if line ≠ [] then line ++ [32] ++ w else w
      let rl :=
        if (utf8RuneCount test : Int) ≤ maxWidth then (res, test)
        else (if line ≠ [] then res ++ [line] else res, w)
      chunkLoop fuel rl.1 rl.2 maxWidth)
    ([], [])
  return (if st.2 ≠ [] then st.1 ++ [st.2] else st.1)

/-- `splitCommaSeparatedList`:  split on commas, trim each item, greedily
reassemble with `", "` continuation markers that are trimmed again if the
item starts a fresh line. -/
def splitCommaSeparatedList (content : GoStr) (maxWidth : Int) : List GoStr :=
  let parts := splitOnByte 44 content
  let st := parts.enum.foldl
    (fun (st : List GoStr × GoStr) (p : Nat × GoStr) =>
      let res := st.1
      let line := st.2
      let part := goTrimSpace p.2
      let part := if p.1 > 0 then [44, 32] ++ part else part
      if line ≠ [] ∧ (utf8RuneCount (line ++ part) : Int) > maxWidth then
        (res ++ [line], if goHasPre [44, 32] part then part.drop 2 else part)
      else (res, line ++ part))
    ([], [])
  if st.2 ≠ [] then st.1 ++ [st.2] else st.1

/-- `splitLongString`: split on `/`, reassemble greedily, word-wrapping any
line that still exceeds `maxWidth`. -/
def splitLongString (fuel : Nat) (content : GoStr) (maxWidth : Int) : Option (List GoStr) := do
  let parts := splitOnByte 47 content
  let st ← parts.enum.foldlM
    (fun (st : List GoStr × GoStr) (p : Nat × GoStr) => do
      let res := st.1
      let line := st.2
      let part := if p.1 > 0 then [47] ++ p.2 else p.2
      let rl :=
        if line ≠ [] ∧ (utf8RuneCount (line ++ part) : Int) > maxWidth then (res ++ [line], part)
        else (res, line ++ part)
      if (utf8RuneCount rl.2 : Int) > maxWidth then do
        let chunks ← splitByWords fuel rl.2 maxWidth
        pure (rl.1 ++ chunks, ([] : GoStr))
      else pure rl)
    ([], [])
  return (if st.2 ≠ [] then st.1 ++ [st.2] else st.1)

/-- `smartSplitCellContent`: peel the ANSI wrapper, choose the comma, the
slash/dot or the word strategy on the plain core, re-attach the wrapper to
every produced line. -/
def Table.smartSplitCellContent (t : Table) (fuel : Nat) (content : GoStr) (colIndex : Nat) :
    Option (List GoStr) :=
  let e := extractWrappingANSI content
  let maxW := t.columnWidths.getD colIndex 0
  let visible := stripANSI e.2.2
  if (utf8RuneCount visible : Int) ≤ maxW then some [e.1 ++ e.2.2 ++ e.2.1]
  else do
    let parts ←
      if containsByte 44 e.2.2 then pure (splitCommaSeparatedList e.2.2 maxW)
      else if containsByte 47 e.2.2 || containsByte 46 e.2.2 then splitLongString fuel e.2.2 maxW
      else splitByWords fuel e.2.2 maxW
    return parts.map (fun line => e.1 ++ line ++ e.2.1)

/-- The chunking loop of `smartSplitByWords` (byte-level cuts again). -/
def smartChunks (fuel : Nat) (chunks : List GoStr) (remaining : GoStr) (maxWidth : Int) :
    Option (List GoStr) :=
  if 0 < utf8RuneCount remaining then
    if (utf8RuneCount remaining : Int) ≤ maxWidth then some (chunks ++ [remaining])
    else
      match fuel with
      | 0 => none
      | fuel + 1 =>
        smartChunks fuel (chunks ++ [remaining.take maxWidth.toNat])
          (remaining.drop maxWidth.toNat) maxWidth
  else some chunks

/-- `smartSplitByWords` (used for description bullets): ANSI-aware greedy
word wrap with per-word wrapper extraction and a hard cut for overlong
words. -/
def smartSplitByWords (fuel : Nat) (text : GoStr) (maxWidth : Int) : Option (List GoStr) :=
  let textVisible := stripANSI text
  if (utf8RuneCount textVisible : Int) ≤ maxWidth then some [text]
  else
    let e := extractWrappingANSI text
    let words := goFields e.2.2
    if words = [] then some [text]
    else do
      let st ← words.foldlM
        (fun (st : List GoStr × GoStr × GoStr) word => do
          let result := st.1
          let currentLine := st.2.1
          let currentLineVisible := st.2.2
          let we := extractWrappingANSI word
          let testLineVisible :=
            (if currentLineVisible ≠ [] then currentLineVisible ++ [32] else currentLineVisible)
              ++ we.2.2
          if (utf8RuneCount testLineVisible : Int) ≤ maxWidth then
            pure (result,
              (if currentLine ≠ [] then currentLine ++ [32] else currentLine)
                ++ (we.1 ++ we.2.2 ++ we.2.1),
              testLineVisible)
          else do
            let result :=
              if currentLine ≠ [] then result ++ [e.1 ++ currentLine ++ e.2.1] else result
            if (utf8RuneCount we.2.2 : Int) > maxWidth then do
              let chunks ← smartChunks fuel [] we.2.2 maxWidth
              let result := result ++ chunks.enum.map
                (fun p =>
                  if p.1 = 0 then e.1 ++ we.1 ++ p.2 ++ we.2.1 ++ e.2.1
                  else e.1 ++ p.2 ++ e.2.1)
              pure (result, ([] : GoStr), ([] : GoStr))
            else
              pure (result, we.1 ++ we.2.2 ++ we.2.1, we.2.2))
        ([], [], [])
      return (if st.2.1 ≠ [] then st.1 ++ [e.1 ++ st.2.1 ++ e.2.1] else st.1)

/-! ### Cell formatting and borders -/

/-- `formatCellContent`: one space of padding each side, content padded to
the column width according to the column's alignment. -/
def Table.formatCellContent (t : Table) (content : GoStr) (colIndex : Nat) : GoStr :=
  let w := t.columnWidths.getD colIndex 0
  let contentLength : Int := utf8RuneCount (stripANSI content)
  let align := t.alignments.getD colIndex []
  if align = strRight then
    let padAmount := w - contentLength
    let padAmount := if padAmount < 0 then 0 else padAmount
    [32] ++ spaces padAmount ++ content ++ [32]
  else if align = strCenter then
    let totalPad := w - contentLength
    let totalPad := if totalPad < 0 then 0 else totalPad
    let left := totalPad / 2
    [32] ++ spaces left ++ content ++ spaces (totalPad - left) ++ [32]
  else
    let padAmount := w - contentLength
    let padAmount := if padAmount < 0 then 0 else padAmount
    [32] ++ content ++ spaces padAmount ++ [32]

/-- `isHighlightedHeader`. -/
def Table.isHighlightedHeader (t : Table) (index : Int) : Bool :=
  if t.highlightHeaders then true else t.highlightedHeaders.contains index

/-- `getStyledChar`. -/
def Table.getStyledChar (t : Table) (c : GoStr) : GoStr :=
  if t.borderless then [32]
  else if t.dimBorder && t.supportANSI then DimStyleStart ++ c ++ DimStyleEnd
  else c

/-- `getStyledHLine`. -/
def Table.getStyledHLine (t : Table) (width : Int) : GoStr :=
  if t.borderless then spaces width
  else if t.dimBorder && t.supportANSI then DimStyleStart ++ goRepeat HLine width ++ DimStyleEnd
  else goRepeat HLine width

/-- `getHighlightedText`. -/
def Table.getHighlightedText (t : Table) (text : GoStr) (headerIndex : Int) : GoStr :=
  if !t.supportANSI then text
  else if t.isHighlightedHeader headerIndex then BoldStyleStart ++ text ++ BoldStyleEnd
  else text

/-- The body of `renderTopBorder` (one line, no trailing newline). -/
def Table.topBorderLine (t : Table) : GoStr :=
  t.getStyledChar TopLeft ++
  (t.columnWidths.enum.map
    (fun p =>
      t.getStyledHLine (p.2 + 2) ++
      (if p.1 < t.columnWidths.length - 1 then t.getStyledChar TopT else []))).flatten ++
  t.getStyledChar TopRight

/-- The body of `renderMiddleBorder`. -/
def Table.middleBorderLine (t : Table) : GoStr :=
  t.getStyledChar LeftT ++
  (t.columnWidths.enum.map
    (fun p =>
      t.getStyledHLine (p.2 + 2) ++
      (if p.1 < t.columnWidths.length - 1 then t.getStyledChar Cross else []))).flatten ++
  t.getStyledChar RightT

/-- The body of `renderBottomBorder`. -/
def Table.bottomBorderLine (t : Table) : GoStr :=
  t.getStyledChar BottomLeft ++
  (t.columnWidths.enum.map
    (fun p =>
      t.getStyledHLine (p.2 + 2) ++
      (if p.1 < t.columnWidths.length - 1 then t.getStyledChar BottomT else []))).flatten ++
  t.getStyledChar BottomRight

/-- The body of `renderDescToDataBorder`. -/
def Table.descToDataLine (t : Table) : GoStr :=
  t.getStyledChar LeftT ++ t.getStyledHLine (t.columnWidths.getD 0 0 + 2) ++
  t.getStyledChar Cross ++
  ((List.range' 1 (t.columnWidths.length - 1)).map
    (fun i =>
      t.getStyledHLine (t.columnWidths.getD i 0 + 2) ++
      (if i < t.columnWidths.length - 1 then t.getStyledChar TopT else []))).flatten ++
  t.getStyledChar RightT

/-- The `mergedWidth` computation of the description block: the width of
columns `2..n` merged, including their padding and interior separators. -/
def Table.mergedWidth (t : Table) : Int :=
  (List.range' 1 (t.columnWidths.length - 1)).foldl
    (fun acc i =>
      acc + (t.columnWidths.getD i 0 + 2) +
      (if i < t.columnWidths.length - 1 then 1 else 0)) 0

/-! ### Render

`Render` is modelled as producing the post-render table state together
with the list of emitted lines (each `sb.WriteString` group in the source
ends a line with `"\n"`; the final string is the newline-join of the
list).  The fuel threads into the two hard-cut loops; `none` models the
divergence of the Go loops at wrap width `0`. -/

/-- One header text line (`VLine` then per column content + `VLine`). -/
def Table.headerRowLine (t : Table) (headerLines : List (List GoStr)) (line : Nat) : GoStr :=
  t.getStyledChar VLine ++
  ((List.range t.Headers.length).map
    (fun ci =>
      let txt := (headerLines.getD ci []).getD line []
      t.formatCellContent (t.getHighlightedText txt (Int.ofNat ci)) ci ++
      t.getStyledChar VLine)).flatten

/-- One data text line of a row. -/
def Table.dataRowLine (t : Table) (rowLines : List (List GoStr)) (line : Nat) : GoStr :=
  t.getStyledChar VLine ++
  ((List.range rowLines.length).map
    (fun ci =>
      let txt := (rowLines.getD ci []).getD line []
      t.formatCellContent txt ci ++ t.getStyledChar VLine)).flatten

/-- The top border of the first description block of a row (columns 2..n
merge: interior junctions are `BottomT`). -/
def Table.descFirstBorderLine (t : Table) : GoStr :=
  t.getStyledChar VLine ++ t.formatCellContent [] 0 ++ t.getStyledChar LeftT ++
  ((List.range' 1 (t.columnWidths.length - 1)).map
    (fun i =>
      t.getStyledHLine (t.columnWidths.getD i 0 + 2) ++
      (if i < t.columnWidths.length - 1 then t.getStyledChar BottomT else []))).flatten ++
  t.getStyledChar RightT

/-- The separator between two description blocks of the same row (one
merged region, no interior junction). -/
def Table.descSepBorderLine (t : Table) : GoStr :=
  t.getStyledChar VLine ++ t.formatCellContent [] 0 ++ t.getStyledChar LeftT ++
  t.getStyledHLine t.mergedWidth ++ t.getStyledChar RightT

/-- A description title line: `" [ "` + bold title + `" ]"`, padded to the
merged width. -/
def Table.titleLine (t : Table) (title : GoStr) : GoStr :=
  let headerText := [32, 91, 32] ++ BoldStyleStart ++ title ++ BoldStyleEnd ++ [32, 93]
  let pad := t.mergedWidth - (utf8RuneCount (stripANSI headerText) : Int)
  let pad := if pad < 0 then 0 else pad
  t.getStyledChar VLine ++ t.formatCellContent [] 0 ++ t.getStyledChar VLine ++
  headerText ++ spaces pad ++ t.getStyledChar VLine

/-- The wrapped lines of one bullet point of a description. -/
def Table.bulletLines (t : Table) (fuel : Nat) (bp : GoStr) : Option (List GoStr) := do
  let pfx : GoStr := [32]
  let textWidth := t.mergedWidth - (utf8RuneCount pfx : Int) - 2
  let textWidth := if textWidth < 0 then 0 else textWidth
  let wrapped ← smartSplitByWords fuel bp textWidth
  return wrapped.enum.map
    (fun p =>
      let disp :=
        if p.1 = 0 then pfx ++ p.2
        else goRepeat [32] (utf8RuneCount pfx : Int) ++ p.2
      let pad := t.mergedWidth - (utf8RuneCount (stripANSI disp) : Int)
      let pad := if pad < 0 then 0 else pad
      t.getStyledChar VLine ++ t.formatCellContent [] 0 ++ t.getStyledChar VLine ++
      disp ++ spaces pad ++ t.getStyledChar VLine)

/-- The lines of the `di`-th description block of row `ri`. -/
def Table.descBlockLines (t : Table) (fuel : Nat) (ri di : Nat) (desc : GoStr) :
    Option (List GoStr) := do
  let border := if di = 0 then t.descFirstBorderLine else t.descSepBorderLine
  let titleL : List GoStr :=
    match t.DescriptionTitles (Int.ofNat ri) with
    | some titles =>
      if di < titles.length ∧ titles.getD di [] ≠ [] then [t.titleLine (titles.getD di [])]
      else []
    | none => []
  let bps := splitOnByte 10 desc
  let bulletsL ← bps.foldlM
    (fun (acc : List GoStr) bp => do
      let bp := goTrimSpace bp
      if bp = [] then pure acc
      else do
        let ls ← t.bulletLines fuel bp
        pure (acc ++ ls))
    []
  return [border] ++ titleL ++ bulletsL

/-- The merged bottom border drawn when the last row has descriptions. -/
def Table.mergedBottomLine (t : Table) : GoStr :=
  t.getStyledChar BottomLeft ++ t.getStyledHLine (t.columnWidths.getD 0 0 + 2) ++
  t.getStyledChar BottomT ++ t.getStyledHLine t.mergedWidth ++ t.getStyledChar BottomRight

/-- The separator from a description block into a plain next data row
(columns reappear: `Cross` under column 1, `TopT` junctions). -/
def Table.descNextRowSepLine (t : Table) : GoStr :=
  t.getStyledChar LeftT ++ t.getStyledHLine (t.columnWidths.getD 0 0 + 2) ++
  t.getStyledChar Cross ++
  ((List.range' 1 (t.columnWidths.length - 1)).map
    (fun i =>
      t.getStyledHLine (t.columnWidths.getD i 0 + 2) ++
      (if i < t.columnWidths.length - 1 then t.getStyledChar TopT else []))).flatten ++
  t.getStyledChar RightT

/-- The lines of one data row (wrapped cells, description blocks and the
following transition border). -/
def Table.rowBlockLines (t : Table) (fuel : Nat) (ri : Nat) (row : List GoStr) :
    Option (List GoStr) := do
  let rowLines ← row.enum.mapM (fun p => t.smartSplitCellContent fuel p.2 p.1)
  let maxR := rowLines.foldl (fun m ls => max m ls.length) 0
  let dataLines := (List.range maxR).map (fun line => t.dataRowLine rowLines line)
  match t.Descriptions (Int.ofNat ri) with
  | some descs =>
    if descs.length > 0 then do
      let descLines ← descs.enum.foldlM
        (fun (acc : List GoStr) (p : Nat × GoStr) => do
          let ls ← t.descBlockLines fuel ri p.1 p.2
          pure (acc ++ ls))
        []
      let isLast : Bool := ri == t.Rows.length - 1
      let nextHasDesc : Bool := !isLast &&
        (match t.Descriptions (Int.ofNat (ri + 1)) with
         | some ds2 => ds2.length > 0
         | none => false)
      let borderL :=
        if isLast then [t.mergedBottomLine]
        else if nextHasDesc then [t.descToDataLine]
        else [t.descNextRowSepLine]
      pure (dataLines ++ descLines ++ borderL)
    else pure (dataLines ++ (if ri < t.Rows.length - 1 then [t.middleBorderLine] else []))
  | none => pure (dataLines ++ (if ri < t.Rows.length - 1 then [t.middleBorderLine] else []))

/-- The mutation phase at the head of `Render`: in non-ANSI mode strip all
stored text destructively and recompute minimal widths; in ANSI mode
compute optimal widths (solo tables) or only re-fit (grouped tables). -/
def Table.renderPrepare (t : Table) : Table :=
  if !t.supportANSI then
    let t1 : Table :=
      { t with
        dimBorder := false
        highlightHeaders := false
        Headers := t.Headers.map stripANSI
        Rows := t.Rows.map (fun row => row.map stripANSI)
        Descriptions := fun ri => (t.Descriptions ri).map (fun ds => ds.map stripANSI)
        DescriptionTitles := fun ri =>
          match t.Descriptions ri with
          | some _ => (t.DescriptionTitles ri).map (fun ts => ts.map stripANSI)
          | none => t.DescriptionTitles ri }
    t1.calculateInitialColumnWidths
  else if t.group = none then t.calculateOptimalColumnWidths t.consoleWidth
  else t.adjustColumnWidthsToFit

/-- The emission of `Render` (after `prepareWithRowCount` dispatch):
post-state plus the emitted lines in order. -/
def Table.renderBodyLines (t0 : Table) (fuel : Nat) : Option (Table × List GoStr) := do
  let t := t0.renderPrepare
  let headerLines ← t.Headers.enum.mapM (fun p => t.smartSplitCellContent fuel p.2 p.1)
  let maxH := headerLines.foldl (fun m ls => max m ls.length) 0
  let headerBlock := (List.range maxH).map (fun line => t.headerRowLine headerLines line)
  let rowBlocks ← t.Rows.enum.foldlM
    (fun (acc : List GoStr) (p : Nat × List GoStr) => do
      let ls ← t.rowBlockLines fuel p.1 p.2
      pure (acc ++ ls))
    []
  let bottom :=
    match t.Descriptions ((t.Rows.length : Int) - 1) with
    | some descs => if descs.isEmpty then [t.bottomBorderLine] else []
    | none => [t.bottomBorderLine]
  return (t, [t.topBorderLine] ++ headerBlock ++ [t.middleBorderLine] ++ rowBlocks ++ bottom)

/-- Decimal digits of `n` (`fmt.Sprintf("%d", n)` for positive `n`),
fueled by `n` itself (`n / 10 < n` for `n ≥ 10`). -/
def natDigitsAux : Nat → Nat → GoStr
  | 0, n => [48 + n]
  | fuel + 1, n =>
    if n < 10 then [48 + n]
    else natDigitsAux fuel (n / 10) ++ [48 + n % 10]

def natDigits (n : Nat) : GoStr := natDigitsAux n n

/-- `prepareWithRowCount`: build the derived table with a `#` column.
(The source builds it via `NewTable` and then overwrites every
environment-dependent field, so the environment does not matter here.
Go aliases the description maps between the two tables; a pure model
copies them instead.) -/
def Table.prepareWithRowCount (t : Table) : Table :=
  if !t.rowCountEnabled then t
  else
    let newHeaders := [[35]] ++ t.Headers
    let a0 := (List.replicate newHeaders.length ([] : GoStr)).set 0 strRight
    let base : Table :=
      { Headers := newHeaders
        Rows := []
        Descriptions := t.Descriptions
        DescriptionTitles := t.DescriptionTitles
        columnWidths := List.replicate newHeaders.length 0
        alignments := t.alignments.enum.foldl (fun a p => a.set (p.1 + 1) p.2) a0
        consoleWidth := t.consoleWidth
        fillWidth := t.fillWidth
        maxWidths := fun i => t.maxWidths (i - 1)
        dimBorder := t.dimBorder
        supportANSI := t.supportANSI
        borderless := t.borderless
        highlightHeaders := t.highlightHeaders
        highlightedHeaders := t.highlightedHeaders
        rowCountEnabled := false
        group := t.group }
    t.Rows.enum.foldl (fun nt p => nt.AddRow ([natDigits (p.1 + 1)] ++ p.2)) base

/-- Newline-join of the emitted lines. -/
def joinNL (lines : List GoStr) : GoStr := (lines.map (fun l => l ++ [10])).flatten

/-- `Render`: returns the post-render table state and the output string,
`none` when a Go wrapping loop diverges.  In row-count mode the derived
copy is rendered and the receiver itself is unchanged. -/
def Table.Render (t : Table) (fuel : Nat) : Option (Table × GoStr) :=
  if t.rowCountEnabled then
    (t.prepareWithRowCount.renderBodyLines fuel).map (fun r => (t, joinNL r.2))
  else
    (t.renderBodyLines fuel).map (fun r => (r.1, joinNL r.2))

/-- `SyncColumnWidths`: recompute each member's minimal widths, fold them
into the group vector (capping each member's contribution by its own
declared per-column cap and the global cap), broadcast, then re-fit each
member to its own console width. -/
def TableGroup.SyncColumnWidths (g : TableGroup) : TableGroup :=
  if g.tables.isEmpty then g
  else
    let firstTable := g.tables.getD 0 (NewTable [] minTerminalWidth false)
    let colCount := firstTable.Headers.length
    let tables1 := g.tables.map
      (fun tb =>
        let tb := if tb.columnWidths.length ≠ colCount then
            { tb with columnWidths := List.replicate colCount 0 } else tb
        tb.calculateInitialColumnWidths)
    let gw := tables1.foldl
      (fun (gw : List Int) tb =>
        (List.range colCount).foldl
          (fun gw i =>
            if i < tb.columnWidths.length then
              let width := tb.columnWidths.getD i 0
              let width := if width > maxColumnWidth then maxColumnWidth else width
              if width > gw.getD i 0 then
                match tb.maxWidths (Int.ofNat i) with
                | some mw => if width > mw then gw.set i mw else gw.set i width
                | none => gw.set i width
              else gw
            else gw)
          gw)
      (List.replicate colCount (0 : Int))
    let tables2 := tables1.map
      (fun tb =>
        let tb := { tb with
          columnWidths := tb.columnWidths.enum.map
            (fun (p : Nat × Int) => if p.1 < colCount then gw.getD p.1 0 else p.2) }
        tb.adjustColumnWidthsToFit)
    { tables := tables2, columnWidths := gw }

/-! ### Supporting lemmas -/

theorem getD_set_ne (l : List Int) (i j : Nat) (v : Int) (h : i ≠ j) :
    (l.set i v).getD j 0 = l.getD j 0 := by
  simp [List.getD_eq_getElem?_getD, List.getElem?_set_ne h]

theorem getD_set_self (l : List Int) (i : Nat) (v : Int) (h : i < l.length) :
    (l.set i v).getD i 0 = v := by
  simp [List.getD_eq_getElem?_getD, List.getElem?_set_self', List.getElem?_eq_getElem h]

/-- What `pickWidest` returns: either `-1`, or the index of an
in-range element of value `> 3`. -/
theorem pickWidest_spec (cw : List Int) :
    (pickWidest cw).2 = -1 ∨
      (0 ≤ (pickWidest cw).2 ∧ (pickWidest cw).2.toNat < cw.length ∧
        cw.getD (pickWidest cw).2.toNat 0 = (pickWidest cw).1 ∧ 3 < (pickWidest cw).1) := by
  unfold pickWidest
  have main : ∀ (L : List (Nat × Int)) (init : Int × Int),
      (∀ p ∈ L, p.1 < cw.length ∧ cw.getD p.1 0 = p.2) →
      (init.2 = -1 ∨ (0 ≤ init.2 ∧ init.2.toNat < cw.length ∧
        cw.getD init.2.toNat 0 = init.1 ∧ 3 < init.1)) →
      ((L.foldl (fun mi p => if p.2 > mi.1 ∧ p.2 > 3 then (p.2, (p.1 : Int)) else mi) init).2 = -1 ∨
        (0 ≤ (L.foldl (fun mi p => if p.2 > mi.1 ∧ p.2 > 3 then (p.2, (p.1 : Int)) else mi) init).2 ∧
          (L.foldl (fun mi p => if p.2 > mi.1 ∧ p.2 > 3 then (p.2, (p.1 : Int)) else mi) init).2.toNat < cw.length ∧
          cw.getD (L.foldl (fun mi p => if p.2 > mi.1 ∧ p.2 > 3 then (p.2, (p.1 : Int)) else mi) init).2.toNat 0 =
            (L.foldl (fun mi p => if p.2 > mi.1 ∧ p.2 > 3 then (p.2, (p.1 : Int)) else mi) init).1 ∧
          3 < (L.foldl (fun mi p => if p.2 > mi.1 ∧ p.2 > 3 then (p.2, (p.1 : Int)) else mi) init).1)) := by
    intro L
    induction L with
    | nil => intro init _ hinit; simpa using hinit
    | cons hd tl ih =>
      intro init hmem hinit
      simp only [List.foldl_cons]
      apply ih
      · intro p hp; exact hmem p (List.mem_cons_of_mem _ hp)
      · have hhd := hmem hd (List.mem_cons_self _ _)
        split
        · rename_i hc
          right
          refine ⟨by positivity, ?_, ?_, hc.2⟩
          · simpa [Int.toNat_ofNat] using hhd.1
          · simpa [Int.toNat_ofNat] using hhd.2
        · exact hinit
  apply main
  · intro p hp
    rw [List.mem_enum_iff_getElem?] at hp
    have h1 : p.1 < cw.length := by
      by_contra hge
      push_neg at hge
      rw [List.getElem?_eq_none hge] at hp
      simp at hp
    refine ⟨h1, ?_⟩
    rw [List.getElem?_eq_getElem h1] at hp
    simp only [Option.some.injEq] at hp
    simp [List.getD_eq_getElem?_getD, List.getElem?_eq_getElem h1, hp]
  · left; rfl

/-- `shrinkStep` never cuts a column below 3 when it was above 3. -/
theorem shrinkStep_floor (excess w : Int) (hw : 3 < w) : 3 ≤ w - shrinkStep excess w := by
  unfold shrinkStep
  split
  · split
    · omega
    · rename_i hc hcap
      omega
  · omega

/-- The shrink loop preserves the floor of 3 columnwise. -/
theorem shrinkLoopAux_floor (fuel : Nat) : ∀ (cw : List Int) (excess : Int) (i : Nat),
    3 ≤ cw.getD i 0 → 3 ≤ (shrinkLoopAux fuel cw excess).getD i 0 := by
  induction fuel with
  | zero => intro cw excess i h; exact h
  | succ fuel ih =>
    intro cw excess i h
    simp only [shrinkLoopAux]
    split
    · rename_i hex
      split
      · exact h
      · rename_i hpick
        rcases pickWidest_spec cw with hneg | ⟨hge, hlt, hval, hgt3⟩
        · omega
        · apply ih
          by_cases hij : (pickWidest cw).2.toNat = i
          · rw [← hij, getD_set_self _ _ _ hlt]
            exact shrinkStep_floor excess _ (by omega)
          · rw [getD_set_ne _ _ _ _ hij]
            exact h
    · exact h

theorem shrinkLoop_floor (excess : Int) (cw : List Int) (i : Nat)
    (h : 3 ≤ cw.getD i 0) : 3 ≤ (shrinkLoop cw excess).getD i 0 :=
  shrinkLoopAux_floor excess.toNat cw excess i h

/-- The adjust loop (unit decrements) preserves the floor of 3. -/
theorem adjustLoopAux_floor (fuel : Nat) : ∀ (cw : List Int) (excess : Int) (i : Nat),
    3 ≤ cw.getD i 0 → 3 ≤ (adjustLoopAux fuel cw excess).getD i 0 := by
  induction fuel with
  | zero => intro cw excess i h; exact h
  | succ fuel ih =>
    intro cw excess i h
    simp only [adjustLoopAux]
    split
    · rename_i hex
      split
      · exact h
      · rename_i hpick
        rcases pickWidest_spec cw with hneg | ⟨hge, hlt, hval, hgt3⟩
        · omega
        · apply ih
          by_cases hij : (pickWidest cw).2.toNat = i
          · rw [← hij, getD_set_self _ _ _ hlt]
            omega
          · rw [getD_set_ne _ _ _ _ hij]
            exact h
    · exact h

theorem adjustLoop_floor (excess : Int) (cw : List Int) (i : Nat)
    (h : 3 ≤ cw.getD i 0) : 3 ≤ (adjustLoop cw excess).getD i 0 :=
  adjustLoopAux_floor excess.toNat cw excess i h

/-! ### Claims -/

/-- C9: no shrink pass ever reduces a column's width below 3: after
`shrinkColumnsToFit` or `adjustColumnWidthsToFit`, every column that had
width at least 3 before the pass still has width at least 3; shrinking
stops (accepting overflow) rather than violate this floor. -/
theorem claim_shrink_floor :
    (∀ (t : Table) (excessWidth : Int) (i : Nat),
        3 ≤ t.columnWidths.getD i 0 →
        3 ≤ (t.shrinkColumnsToFit excessWidth).columnWidths.getD i 0) ∧
    (∀ (t : Table) (i : Nat),
        3 ≤ t.columnWidths.getD i 0 →
        3 ≤ t.adjustColumnWidthsToFit.columnWidths.getD i 0) := by
  constructor
  · intro t excessWidth i h
    unfold Table.shrinkColumnsToFit
    exact shrinkLoop_floor excessWidth t.columnWidths i h
  · intro t i h
    unfold Table.adjustColumnWidthsToFit
    simp only
    split
    · exact adjustLoop_floor _ t.columnWidths i h
    · exact h

/-- Witness for C9 at a concrete table. -/
theorem claim_shrink_floor_witness :
    3 ≤ (({ NewTable [[72], [73]] 80 false with columnWidths := [10, 4] } :
      Table).shrinkColumnsToFit 20).columnWidths.getD 1 0 ∧
    3 ≤ ({ NewTable [[72], [73]] 6 false with columnWidths := [10, 4] } :
      Table).adjustColumnWidthsToFit.columnWidths.getD 1 0 :=
  ⟨claim_shrink_floor.1 _ 20 1 (by decide),
   claim_shrink_floor.2 _ 1 (by decide)⟩

/-- C10: `AddDescription` and `AddDescriptionWithTitle` on a row index
outside `[0, len(rows))` are complete no-ops: no error, and the table
(in particular both description maps) is unchanged. -/
theorem claim_addDescription_invalid_noop :
    ∀ (t : Table) (rowIndex : Int) (title description : GoStr),
      (rowIndex < 0 ∨ (t.Rows.length : Int) ≤ rowIndex) →
      t.AddDescription rowIndex description = t ∧
      t.AddDescriptionWithTitle rowIndex title description = t := by
  intro t rowIndex title description h
  unfold Table.AddDescription Table.AddDescriptionWithTitle
  rw [if_neg (by omega), if_neg (by omega)]
  exact ⟨rfl, rfl⟩

/-- Witness for C10 at a concrete table and indices `-1` and `1`. -/
theorem claim_addDescription_invalid_noop_witness :
    (((NewTable [[72]] 80 false).AddRow [[97]]).AddDescription (-1) [100] =
        (NewTable [[72]] 80 false).AddRow [[97]] ∧
      ((NewTable [[72]] 80 false).AddRow [[97]]).AddDescriptionWithTitle (-1) [116] [100] =
        (NewTable [[72]] 80 false).AddRow [[97]]) ∧
    (((NewTable [[72]] 80 false).AddRow [[97]]).AddDescription 1 [100] =
        (NewTable [[72]] 80 false).AddRow [[97]] ∧
      ((NewTable [[72]] 80 false).AddRow [[97]]).AddDescriptionWithTitle 1 [116] [100] =
        (NewTable [[72]] 80 false).AddRow [[97]]) :=
  ⟨claim_addDescription_invalid_noop _ (-1) [116] [100] (by left; decide),
   claim_addDescription_invalid_noop _ 1 [116] [100] (by right; decide)⟩

/-! ### ASCII facts used by several claims -/

theorem decodeRune_lt128 (b : Nat) (rest : GoStr) (h : b < 128) :
    decodeRune (b :: rest) = (b, 1) := by
  simp only [decodeRune]
  rw [if_pos h]

theorem utf8RuneCount_nil : utf8RuneCount [] = 0 := rfl

theorem utf8RuneCount_cons_ascii (b : Nat) (rest : GoStr) (h : b < 128) :
    utf8RuneCount (b :: rest) = 1 + utf8RuneCount rest := by
  rw [utf8RuneCount_cons _ (by simp)]
  simp [decodeRune_lt128 b rest h]

theorem utf8RuneCount_ascii (s : GoStr) (h : ∀ b ∈ s, b < 128) :
    utf8RuneCount s = s.length := by
  induction s with
  | nil => simp [utf8RuneCount_nil]
  | cons b rest ih =>
    rw [utf8RuneCount_cons_ascii b rest (h b (List.mem_cons_self _ _))]
    rw [ih (fun x hx => h x (List.mem_cons_of_mem _ hx))]
    simp [Nat.add_comm]

theorem ansiMatchLen_not27 (s : GoStr) (h : ∀ b, s.head? = some b → b ≠ 27) :
    ansiMatchLen s = none := by
  match s with
  | [] => rfl
  | [b] => rfl
  | b0 :: b1 :: rest =>
    have hb := h b0 rfl
    simp only [ansiMatchLen]
    rw [if_neg hb]

theorem stripAux_congr (fuel : Nat) : ∀ (fuel' : Nat) (s : GoStr),
    s.length ≤ fuel → s.length ≤ fuel' → stripAux fuel s = stripAux fuel' s := by
  induction fuel with
  | zero =>
    intro fuel' s h h'
    have : s = [] := List.eq_nil_of_length_eq_zero (by omega)
    subst this
    cases fuel' <;> rfl
  | succ fuel ih =>
    intro fuel' s h h'
    match s with
    | [] => cases fuel' <;> rfl
    | b :: rest =>
      match fuel' with
      | 0 => simp at h'
      | fuel' + 1 =>
        simp only [stripAux]
        match hm : ansiMatchLen (b :: rest) with
        | some k =>
          have hge := ansiMatchLen_ge _ k hm
          apply ih
          · simp only [List.length_drop, List.length_cons] at h ⊢
            omega
          · simp only [List.length_drop, List.length_cons] at h' ⊢
            omega
        | none =>
          show b :: stripAux fuel rest = b :: stripAux fuel' rest
          congr 1
          apply ih
          · simp only [List.length_cons] at h; omega
          · simp only [List.length_cons] at h'; omega

theorem stripANSI_nil : stripANSI [] = [] := rfl

theorem stripANSI_of_match (s : GoStr) (k : Nat) (h : ansiMatchLen s = some k) :
    stripANSI s = stripANSI (s.drop k) := by
  match s with
  | [] => rw [ansiMatchLen_not27 [] (by simp)] at h; cases h
  | b :: rest =>
    have hge := ansiMatchLen_ge _ k h
    show stripAux (rest.length + 1) (b :: rest) = _
    simp only [stripAux]
    rw [h]
    apply stripAux_congr
    · simp only [List.length_drop, List.length_cons]
      omega
    · simp

theorem stripANSI_cons_none (b : Nat) (rest : GoStr)
    (h : ansiMatchLen (b :: rest) = none) :
    stripANSI (b :: rest) = b :: stripANSI rest := by
  show stripAux (rest.length + 1) (b :: rest) = _
  simp only [stripAux]
  rw [h]
  rfl

theorem stripANSI_no_esc (s : GoStr) (h : 27 ∉ s) : stripANSI s = s := by
  induction s with
  | nil => exact stripANSI_nil
  | cons b rest ih =>
    have hm : ansiMatchLen (b :: rest) = none := by
      apply ansiMatchLen_not27
      intro c hc
      simp only [List.head?_cons, Option.some.injEq] at hc
      subst hc
      intro hb; exact h (hb ▸ List.mem_cons_self _ _)
    rw [stripANSI_cons_none b rest hm]
    rw [ih (fun hmem => h (List.mem_cons_of_mem _ hmem))]

theorem visLen_ascii (s : GoStr) (h : ∀ b ∈ s, b < 128 ∧ b ≠ 27) :
    visLen s = s.length := by
  unfold visLen
  rw [stripANSI_no_esc s (fun hmem => (h 27 hmem).2 rfl)]
  exact utf8RuneCount_ascii s (fun b hb => (h b hb).1)

theorem isSpaceRune_printable (b : Nat) (h1 : 32 < b) (h2 : b < 127) :
    isSpaceRune b = false := by
  simp only [isSpaceRune]
  simp only [Bool.or_eq_false_iff, decide_eq_false_iff_not, Bool.and_eq_false_iff]
  omega

/-- `strings.Fields` of an all-printable-non-space string is the single
word itself. -/
theorem fieldsAux_printable (fuel : Nat) : ∀ (s cur : GoStr), s.length ≤ fuel →
    (∀ b ∈ s, 32 < b ∧ b < 127) →
    fieldsAux fuel s cur = if cur ++ s = [] then [] else [cur ++ s] := by
  induction fuel with
  | zero =>
    intro s cur h _
    have : s = [] := List.eq_nil_of_length_eq_zero (by omega)
    subst this
    simp [fieldsAux]
  | succ fuel ih =>
    intro s cur hlen h
    match s with
    | [] => simp [fieldsAux]
    | b :: rest =>
      have hb := h b (List.mem_cons_self _ _)
      simp only [fieldsAux]
      simp only [decodeRune_lt128 b rest (by omega)]
      rw [if_neg (by simp [isSpaceRune_printable b hb.1 hb.2])]
      simp only [List.drop_succ_cons, List.drop_zero, List.take_succ_cons, List.take_zero]
      rw [ih rest (cur ++ [b]) (by simp at hlen ⊢; omega)
        (fun x hx => h x (List.mem_cons_of_mem _ hx))]
      simp

theorem goFields_printable (s : GoStr) (hne : s ≠ [])
    (h : ∀ b ∈ s, 32 < b ∧ b < 127) : goFields s = [s] := by
  unfold goFields
  rw [fieldsAux_printable s.length s [] (le_refl _) h]
  simp [hne]

/-- `splitByWords` on a single-word input reduces to the hard-cut loop. -/
theorem splitByWords_single (fuel : Nat) (word : GoStr) (w : Int) (hne : word ≠ [])
    (hfields : goFields word = [word]) :
    splitByWords fuel word w = (chunkLoop fuel [] word w).map
      (fun st => if st.2 ≠ [] then st.1 ++ [st.2] else st.1) := by
  unfold splitByWords
  rw [hfields]
  simp only [List.foldlM, ne_eq, not_true_eq_false, Bool.false_eq_true, if_false, ite_self]
  cases hcl : chunkLoop fuel [] word w with
  | none => simp [Option.bind, hcl, ite_self]
  | some st => simp [Option.bind, hcl, ite_self]

/-- What the hard-cut loop produces on printable ASCII text: chunks of
exactly `w` bytes plus a final line of at most `w` bytes. -/
theorem chunkLoop_printable (fuel : Nat) (res : List GoStr) (line : GoStr) (w : Int)
    (hw : 1 ≤ w) (hascii : ∀ b ∈ line, 32 < b ∧ b < 127)
    (res' : List GoStr) (line' : GoStr)
    (h : chunkLoop fuel res line w = some (res', line')) :
    (∃ ch, res' = res ++ ch ∧ ∀ c ∈ ch, c.length = w.toNat ∧ ∀ b ∈ c, 32 < b ∧ b < 127) ∧
      (line'.length : Int) ≤ w ∧ (∀ b ∈ line', 32 < b ∧ b < 127) ∧
      (line ≠ [] → line' ≠ []) := by
  induction fuel generalizing res line with
  | zero =>
    rw [chunkLoop] at h
    split at h
    · exact absurd h (by simp)
    · rename_i hle
      have hcount : utf8RuneCount line = line.length :=
        utf8RuneCount_ascii line (fun b hb => by have := hascii b hb; omega)
      simp only [Option.some.injEq, Prod.mk.injEq] at h
      obtain ⟨h1, h2⟩ := h
      subst h1; subst h2
      refine ⟨⟨[], by simp⟩, by omega, hascii, fun hne => hne⟩
  | succ fuel ih =>
    rw [chunkLoop] at h
    split at h
    · rename_i hgt
      have hcount : utf8RuneCount line = line.length :=
        utf8RuneCount_ascii line (fun b hb => by have := hascii b hb; omega)
      have hlen : w.toNat < line.length := by omega
      have htail := ih (res ++ [line.take w.toNat]) (line.drop w.toNat)
        (fun b hb => hascii b (List.mem_of_mem_drop hb)) h
      obtain ⟨⟨ch, hch, hchprop⟩, hline, hlineascii, hne⟩ := htail
      refine ⟨⟨line.take w.toNat :: ch, ?_, ?_⟩, hline, hlineascii, ?_⟩
      · rw [hch]; simp
      · intro c hc
        rcases List.mem_cons.mp hc with hc | hc
        · subst hc
          refine ⟨by simp [List.length_take]; omega, ?_⟩
          intro b hb; exact hascii b (List.mem_of_mem_take hb)
        · exact hchprop c hc
      · intro _
        apply hne
        intro hdrop
        have := congrArg List.length hdrop
        simp only [List.length_drop, List.length_nil] at this
        omega
    · rename_i hle
      have hcount : utf8RuneCount line = line.length :=
        utf8RuneCount_ascii line (fun b hb => by have := hascii b hb; omega)
      simp only [Option.some.injEq, Prod.mk.injEq] at h
      obtain ⟨h1, h2⟩ := h
      subst h1; subst h2
      refine ⟨⟨[], by simp⟩, by omega, hascii, fun hne => hne⟩

/-- C4 (amended): for an overlong single *ASCII* word, `splitByWords`
cuts it into chunks of exactly `w` visible characters except a shorter
final chunk; for non-ASCII words the cuts are `w` *bytes*, not `w`
visible characters (see the counterexample). -/
theorem claim_word_chunks_amended (fuel : Nat) (word : GoStr) (w : Int)
    (chunks : List GoStr)
    (hascii : ∀ b ∈ word, 32 < b ∧ b < 127) (hw : 1 ≤ w)
    (hlong : (w : Int) < utf8RuneCount word)
    (h : splitByWords fuel word w = some chunks) :
    chunks ≠ [] ∧ (∀ c ∈ chunks.dropLast, (visLen c : Int) = w) ∧
      (visLen (chunks.getLastD []) : Int) ≤ w ∧ chunks.getLastD [] ≠ [] := by
  have hne : word ≠ [] := by
    intro hnil
    rw [hnil, utf8RuneCount_nil] at hlong
    omega
  have hvis : ∀ (c : GoStr), (∀ b ∈ c, 32 < b ∧ b < 127) → visLen c = c.length := by
    intro c hc
    exact visLen_ascii c (fun b hb => by have := hc b hb; omega)
  rw [splitByWords_single fuel word w hne (goFields_printable word hne hascii)] at h
  cases hcl : chunkLoop fuel [] word w with
  | none => rw [hcl] at h; exact absurd h (by simp)
  | some st =>
    rw [hcl] at h
    obtain ⟨⟨ch, hch, hchprop⟩, hlast, hlastascii, hlastne⟩ :=
      chunkLoop_printable fuel [] word w hw hascii st.1 st.2 (by rw [hcl])
    have hstne : st.2 ≠ [] := hlastne hne
    simp only [Option.map, ne_eq, hstne, not_false_eq_true, if_true, Option.some.injEq] at h
    rw [List.nil_append] at hch
    subst h
    rw [hch]
    refine ⟨by simp, ?_, ?_, ?_⟩
    · intro c hc
      rw [List.dropLast_concat] at hc
      have := hchprop c hc
      rw [hvis c this.2, this.1]
      omega
    · rw [List.getLastD_concat, hvis st.2 hlastascii]
      exact hlast
    · rw [List.getLastD_concat]
      exact hstne

/-- Witness for the amended C4: the ASCII word `"abcdefg"` at width 3. -/
theorem claim_word_chunks_amended_witness :
    ([[97, 98, 99], [100, 101, 102], [103]] : List GoStr) ≠ [] ∧
    (∀ c ∈ ([[97, 98, 99], [100, 101, 102], [103]] : List GoStr).dropLast,
      (visLen c : Int) = 3) ∧
    (visLen (([[97, 98, 99], [100, 101, 102], [103]] : List GoStr).getLastD []) : Int) ≤ 3 ∧
    ([[97, 98, 99], [100, 101, 102], [103]] : List GoStr).getLastD [] ≠ [] :=
  claim_word_chunks_amended 10 [97, 98, 99, 100, 101, 102, 103] 3
    [[97, 98, 99], [100, 101, 102], [103]]
    (by decide) (by decide) (by decide) (by decide)

/-- C4 (counterexample): the claim as stated is false for multi-byte
words: cutting `"ééééé"` (five 2-byte runes) at width 2 produces a first
chunk of 2 bytes = 1 visible character, not 2. -/
theorem claim_word_chunks_counterexample :
    (2 : Int) < utf8RuneCount [195, 169, 195, 169, 195, 169, 195, 169, 195, 169] ∧
    splitByWords 100 [195, 169, 195, 169, 195, 169, 195, 169, 195, 169] 2 =
      some [[195, 169], [195, 169], [195, 169], [195, 169, 195, 169]] ∧
    ¬ ((([[195, 169], [195, 169], [195, 169],
        [195, 169, 195, 169]] : List GoStr).dropLast).all
      (fun c => visLen c = 2)) := by
  refine ⟨by decide, by decide, by decide⟩

/-! ### Indexed-fold characterizations (for the width and sync passes) -/

theorem foldl_length_invariant {α : Type} (L : List α) (f : List Int → α → List Int)
    (init : List Int) (h : ∀ acc x, (f acc x).length = acc.length) :
    (L.foldl f init).length = init.length := by
  induction L generalizing init with
  | nil => rfl
  | cons hd tl ih => rw [List.foldl_cons, ih (f init hd)]; exact h init hd

theorem rangeFold_untouched (n : Nat) (f : List Int → Nat → List Int) (init : List Int)
    (htouch : ∀ gw j k, k ≠ j → (f gw j).getD k 0 = gw.getD k 0)
    (i : Nat) (hi : n ≤ i) :
    ((List.range n).foldl f init).getD i 0 = init.getD i 0 := by
  revert hi
  induction n generalizing init with
  | zero => intro _; rfl
  | succ n ih =>
    intro hi
    rw [List.range_succ, List.foldl_append, List.foldl_cons, List.foldl_nil]
    rw [htouch _ n i (by omega)]
    exact ih init (by omega)

/-- Folding an index-local update over `List.range n`: position `i < n`
ends as `G i` of its initial value. -/
theorem rangeFold_getD (n : Nat) (f : List Int → Nat → List Int) (init : List Int)
    (G : Nat → Int → Int)
    (htouch : ∀ gw j k, k ≠ j → (f gw j).getD k 0 = gw.getD k 0)
    (hlen : ∀ gw j, (f gw j).length = gw.length)
    (hstep : ∀ gw j, j < gw.length → gw.length = init.length →
      (f gw j).getD j 0 = G j (gw.getD j 0))
    (i : Nat) (hi : i < n) (hn : n ≤ init.length) :
    ((List.range n).foldl f init).getD i 0 = G i (init.getD i 0) := by
  revert hi
  induction n with
  | zero => intro hi; omega
  | succ n ih =>
    intro hi
    rw [List.range_succ, List.foldl_append, List.foldl_cons, List.foldl_nil]
    by_cases hin : i < n
    · rw [htouch _ n i (by omega)]
      exact ih (by omega) hin
    · have hieq : i = n := by omega
      subst hieq
      have hflen := foldl_length_invariant (List.range i) f init (fun acc x => hlen acc x)
      rw [hstep _ i (by omega) hflen]
      rw [rangeFold_untouched i f init htouch i (by omega)]

/-! ### `calculateInitialColumnWidths` facts -/

theorem ite_set_length (cw : List Int) (c : Prop) [Decidable c] (j : Nat) (v : Int) :
    (if c then cw.set j v else cw).length = cw.length := by
  split <;> simp

theorem calcInit_map_zero (t : Table) (cw : List Int) :
    (if cw.length ≠ t.Headers.length then List.replicate t.Headers.length (0 : Int)
      else cw).map (fun _ => (0 : Int)) = List.replicate t.Headers.length 0 := by
  split
  · simp [List.map_replicate]
  · rename_i h
    push_neg at h
    rw [List.map_const', h]

/-- `calculateInitialColumnWidths` ignores the incoming `columnWidths`
(it is reset to zeros first). -/
theorem calcInit_columnWidths_independent (t : Table) (X : List Int) :
    ({ t with columnWidths := X } : Table).calculateInitialColumnWidths.columnWidths =
      t.calculateInitialColumnWidths.columnWidths := by
  unfold Table.calculateInitialColumnWidths
  simp only
  rw [calcInit_map_zero t X, calcInit_map_zero t t.columnWidths]

theorem calcInit_length (t : Table) :
    t.calculateInitialColumnWidths.columnWidths.length = t.Headers.length := by
  unfold Table.calculateInitialColumnWidths
  simp only
  rw [foldl_length_invariant]
  · rw [foldl_length_invariant]
    · rw [foldl_length_invariant]
      · rw [calcInit_map_zero t t.columnWidths, List.length_replicate]
      · intro acc x
        split <;> simp
    · intro acc row
      rw [foldl_length_invariant]
      intro acc2 p
      split
      · rfl
      · split <;> simp
  · intro acc i
    repeat' split
    all_goals simp [List.length_set]

/-- The cap pass of `calculateInitialColumnWidths`, characterized per
index. -/
theorem calcInit_cap_pass (t : Table) (cw3 : List Int) (i : Nat) (hi : i < cw3.length) :
    ((List.range cw3.length).foldl
      (fun (cw : List Int) (i : Nat) =>
        let width := cw.getD i 0
        let cw := if width > maxColumnWidth then cw.set i maxColumnWidth else cw
        match t.maxWidths (Int.ofNat i) with
        | some mw => if cw.getD i 0 > mw then cw.set i mw else cw
        | none => cw) cw3).getD i 0 =
      (let width := cw3.getD i 0
       let x1 := if width > maxColumnWidth then maxColumnWidth else width
       match t.maxWidths (Int.ofNat i) with
       | some mw => if x1 > mw then mw else x1
       | none => x1) := by
  rw [rangeFold_getD _ _ _
    (fun j x =>
      let x1 := if x > maxColumnWidth then maxColumnWidth else x
      match t.maxWidths (Int.ofNat j) with
      | some mw => if x1 > mw then mw else x1
      | none => x1)]
  · intro gw j k hkj
    have hne := Ne.symm hkj
    simp only
    split <;> rename_i hmw
    · split <;> split <;> simp only [getD_set_ne _ _ _ _ hne]
    · split <;> simp only [getD_set_ne _ _ _ _ hne]
  · intro gw j
    simp only
    repeat' split
    all_goals simp [List.length_set]
  · intro gw j hj _
    have hx1 : (if gw.getD j 0 > maxColumnWidth then gw.set j maxColumnWidth else gw).getD j 0
        = (if gw.getD j 0 > maxColumnWidth then maxColumnWidth else gw.getD j 0) := by
      split
      · exact getD_set_self _ _ _ hj
      · rfl
    have hlen2 : (if gw.getD j 0 > maxColumnWidth then gw.set j maxColumnWidth
        else gw).length = gw.length := ite_set_length _ _ _ _
    simp only
    cases hmw : t.maxWidths (Int.ofNat j) with
    | none => simp only [hmw]; exact hx1
    | some mw =>
      simp only [hmw]
      rw [hx1]
      by_cases hc : (if gw.getD j 0 > maxColumnWidth then maxColumnWidth else gw.getD j 0) > mw
      · rw [if_pos hc, if_pos hc]
        exact getD_set_self _ _ _ (by rw [ite_set_length]; exact hj)
      · rw [if_neg hc, if_neg hc]
        exact hx1
  · exact hi
  · omega

/-- After `calculateInitialColumnWidths`, every in-range column respects
its per-column cap (when declared) and the global cap of 50. -/
theorem calcInit_getD_le (t : Table) (i : Nat) (hi : i < t.Headers.length) :
    (∀ mw, t.maxWidths (Int.ofNat i) = some mw →
      t.calculateInitialColumnWidths.columnWidths.getD i 0 ≤ mw) ∧
    t.calculateInitialColumnWidths.columnWidths.getD i 0 ≤ maxColumnWidth := by
  unfold Table.calculateInitialColumnWidths
  simp only
  rw [calcInit_cap_pass]
  · constructor
    · intro mw hmw
      simp only [hmw, maxColumnWidth]
      repeat' split
      all_goals omega
    · cases hmw : t.maxWidths (Int.ofNat i) with
      | none =>
        simp only [hmw, maxColumnWidth]
        repeat' split
        all_goals omega
      | some mw =>
        simp only [hmw, maxColumnWidth]
        repeat' split
        all_goals omega
  · rw [foldl_length_invariant]
    · rw [foldl_length_invariant]
      · rw [calcInit_map_zero t t.columnWidths, List.length_replicate]
        exact hi
      · intro acc x
        split <;> simp
    · intro acc row
      rw [foldl_length_invariant]
      intro acc2 p
      split
      · rfl
      · split <;> simp

/-! ### `SyncColumnWidths` characterization -/

/-- One member's pass over the group vector, at an in-range column whose
value respects the member's own cap: the group entry becomes the max of
the old entry and the member's (globally capped) width.  The member's
per-column cap branch is dead because `calculateInitialColumnWidths`
already clamped the member's width to it. -/
theorem sync_member_fold_getD (tb : Table) (gw : List Int) (colCount i : Nat)
    (hi : i < colCount) (hgw : gw.length = colCount)
    (htb : tb.columnWidths.length = colCount)
    (hcap : ∀ mw, tb.maxWidths (Int.ofNat i) = some mw → tb.columnWidths.getD i 0 ≤ mw) :
    ((List.range colCount).foldl
      (fun gw i =>
        if i < tb.columnWidths.length then
          let width := tb.columnWidths.getD i 0
          let width := if width > maxColumnWidth then maxColumnWidth else width
          if width > gw.getD i 0 then
            match tb.maxWidths (Int.ofNat i) with
            | some mw => if width > mw then gw.set i mw else gw.set i width
            | none => gw.set i width
          else gw
        else gw) gw).getD i 0 =
      max (gw.getD i 0) (min (tb.columnWidths.getD i 0) maxColumnWidth) := by
  rw [rangeFold_getD _ _ _
    (fun j x =>
      if j < tb.columnWidths.length then
        let width := tb.columnWidths.getD j 0
        let width := if width > maxColumnWidth then maxColumnWidth else width
        if width > x then
          match tb.maxWidths (Int.ofNat j) with
          | some mw => if width > mw then mw else width
          | none => width
        else x
      else x)]
  · simp only [htb, hi, if_true]
    cases hmw : tb.maxWidths (Int.ofNat i) with
    | none =>
      simp only [hmw]
      repeat' split
      all_goals omega
    | some mw =>
      have hle := hcap mw hmw
      simp only [hmw]
      repeat' split
      all_goals omega
  · intro gw' j k hkj
    have hne := Ne.symm hkj
    simp only
    repeat' split
    all_goals first | rfl | simp only [getD_set_ne _ _ _ _ hne]
  · intro gw' j
    simp only
    repeat' split
    all_goals simp [List.length_set]
  · intro gw' j hj _
    simp only
    repeat' split
    all_goals first | rfl | exact getD_set_self _ _ _ hj
  · exact hi
  · omega

theorem sync_member_fold_length (tb : Table) (gw : List Int) (colCount : Nat) :
    ((List.range colCount).foldl
      (fun gw i =>
        if i < tb.columnWidths.length then
          let width := tb.columnWidths.getD i 0
          let width := if width > maxColumnWidth then maxColumnWidth else width
          if width > gw.getD i 0 then
            match tb.maxWidths (Int.ofNat i) with
            | some mw => if width > mw then gw.set i mw else gw.set i width
            | none => gw.set i width
          else gw
        else gw) gw).length = gw.length := by
  apply foldl_length_invariant
  intro acc j
  repeat' split
  all_goals simp [apply_ite List.length, List.length_set, ite_self]

/-- The outer fold of `SyncColumnWidths` over the members. -/
theorem sync_gw_getD (tables1 : List Table) (colCount i : Nat) (hi : i < colCount)
    (hlen : ∀ tb ∈ tables1, tb.columnWidths.length = colCount)
    (hcap : ∀ tb ∈ tables1, ∀ mw, tb.maxWidths (Int.ofNat i) = some mw →
      tb.columnWidths.getD i 0 ≤ mw) :
    ∀ (gw : List Int), gw.length = colCount →
    ((tables1.foldl
      (fun gw tb =>
        (List.range colCount).foldl
          (fun gw i =>
            if i < tb.columnWidths.length then
              let width := tb.columnWidths.getD i 0
              let width := if width > maxColumnWidth then maxColumnWidth else width
              if width > gw.getD i 0 then
                match tb.maxWidths (Int.ofNat i) with
                | some mw => if width > mw then gw.set i mw else gw.set i width
                | none => gw.set i width
              else gw
            else gw) gw) gw).getD i 0 =
      tables1.foldl
        (fun acc tb => max acc (min (tb.columnWidths.getD i 0) maxColumnWidth))
        (gw.getD i 0)) := by
  induction tables1 with
  | nil => intro gw _; rfl
  | cons hd tl ih =>
    intro gw hgw
    rw [List.foldl_cons, List.foldl_cons]
    rw [ih (fun tb h => hlen tb (List.mem_cons_of_mem _ h))
      (fun tb h => hcap tb (List.mem_cons_of_mem _ h)) _
      (by rw [sync_member_fold_length]; exact hgw)]
    rw [sync_member_fold_getD hd gw colCount i hi hgw
      (hlen hd (List.mem_cons_self _ _)) (hcap hd (List.mem_cons_self _ _))]

theorem foldl_congr_mem {α β : Type} (l : List α) (f g : β → α → β) (init : β)
    (h : ∀ acc, ∀ x ∈ l, f acc x = g acc x) : l.foldl f init = l.foldl g init := by
  induction l generalizing init with
  | nil => rfl
  | cons hd tl ih =>
    rw [List.foldl_cons, List.foldl_cons, h init hd (List.mem_cons_self _ _)]
    exact ih _ (fun acc x hx => h acc x (List.mem_cons_of_mem _ hx))

/-- The member-normalization step of `SyncColumnWidths` only recomputes
`columnWidths`; the result is that of `calculateInitialColumnWidths`. -/
theorem sync_normalize_columnWidths (tb : Table) (colCount : Nat) :
    ((if tb.columnWidths.length ≠ colCount then
        { tb with columnWidths := List.replicate colCount 0 }
      else tb).calculateInitialColumnWidths).columnWidths =
      tb.calculateInitialColumnWidths.columnWidths := by
  split
  · exact calcInit_columnWidths_independent tb _
  · rfl

theorem sync_normalize_Headers (tb : Table) (colCount : Nat) :
    ((if tb.columnWidths.length ≠ colCount then
        { tb with columnWidths := List.replicate colCount 0 }
      else tb) : Table).Headers = tb.Headers := by
  split <;> rfl

theorem sync_normalize_maxWidths (tb : Table) (colCount : Nat) :
    ((if tb.columnWidths.length ≠ colCount then
        { tb with columnWidths := List.replicate colCount 0 }
      else tb) : Table).maxWidths = tb.maxWidths := by
  split <;> rfl

/-- C6 (amended): `SyncColumnWidths` sets each shared column of the group
vector to the *maximum over members* of that member's own capped minimum
width (the member's per-column cap and the global cap of 50 clamp only
that member's contribution).  A cap declared by one member does *not*
bound another member's contribution, so the group width can exceed it
(see the counterexample). -/
theorem claim_sync_caps_amended (g : TableGroup) (t0 : Table) (rest : List Table)
    (hg : g.tables = t0 :: rest) (i : Nat) (hi : i < t0.Headers.length)
    (hcols : ∀ tb ∈ g.tables, tb.Headers.length = t0.Headers.length) :
    g.SyncColumnWidths.columnWidths.getD i 0 =
      g.tables.foldl
        (fun acc tb => max acc
          (min (tb.calculateInitialColumnWidths.columnWidths.getD i 0) maxColumnWidth)) 0 := by
  unfold TableGroup.SyncColumnWidths
  rw [hg]
  rw [if_neg (by simp)]
  simp only [List.getD_cons_zero]
  rw [sync_gw_getD _ t0.Headers.length i hi]
  · rw [List.foldl_map]
    have hrepl : (List.replicate t0.Headers.length (0 : Int)).getD i 0 = 0 := by
      rw [List.getD_eq_getElem?_getD, List.getElem?_replicate]
      simp [hi]
    rw [hrepl]
    apply foldl_congr_mem
    intro acc x hx
    rw [sync_normalize_columnWidths]
  · intro tb htb
    rw [List.mem_map] at htb
    obtain ⟨x, hx, hfx⟩ := htb
    rw [← hfx]
    rw [sync_normalize_columnWidths]
    rw [calcInit_length]
    exact hcols x (hg ▸ hx)
  · intro tb htb mw hmw
    rw [List.mem_map] at htb
    obtain ⟨x, hx, hfx⟩ := htb
    subst hfx
    rw [sync_normalize_columnWidths]
    have hx' : x.Headers.length = t0.Headers.length := hcols x (hg ▸ hx)
    have hproj : ∀ (u : Table), u.calculateInitialColumnWidths.maxWidths = u.maxWidths :=
      fun u => rfl
    have hcapx : x.maxWidths (Int.ofNat i) = some mw := by
      rw [hproj, sync_normalize_maxWidths] at hmw
      exact hmw
    exact (calcInit_getD_le x i (by omega)).1 mw hcapx
  · simp [List.length_replicate]

/-- Tables for the group-synchronization counterexamples. -/
def syncDemoT1 : Table := ((NewTable [[65]] 80 false).SetMaxWidth 0 5).AddRow [[97, 98]]

def syncDemoT2 : Table :=
  (NewTable [[65]] 80 false).AddRow [[97, 98, 99, 100, 101, 102, 103, 104]]

def syncDemoGroup : TableGroup := (NewGroup.Add syncDemoT1).Add syncDemoT2

/-- C6 (counterexample): member 1 declares cap 5 on column 0, member 2
(8-character content, no cap) supplies the maximum: the synced group
width is 8, exceeding the declared cap 5 — the claim as stated is false. -/
theorem claim_sync_caps_counterexample :
    syncDemoT1.maxWidths 0 = some 5 ∧
    syncDemoGroup.SyncColumnWidths.columnWidths.getD 0 0 = 8 ∧
    ¬ syncDemoGroup.SyncColumnWidths.columnWidths.getD 0 0 ≤ 5 := by
  refine ⟨by decide, by decide, by decide⟩

/-- Witness for the amended C6 at the concrete demo group. -/
theorem claim_sync_caps_amended_witness :
    syncDemoGroup.SyncColumnWidths.columnWidths.getD 0 0 =
      syncDemoGroup.tables.foldl
        (fun acc tb => max acc
          (min (tb.calculateInitialColumnWidths.columnWidths.getD 0 0) maxColumnWidth)) 0 :=
  claim_sync_caps_amended syncDemoGroup _ _ rfl 0 (by decide)
    (by
      intro tb htb
      have hts : syncDemoGroup.tables =
          [{ syncDemoT1 with group := some () }, { syncDemoT2 with group := some () }] := rfl
      rw [hts] at htb
      rcases List.mem_cons.mp htb with rfl | htb2
      · rfl
      · rcases List.mem_cons.mp htb2 with rfl | htb3
        · rfl
        · cases htb3)

/-- `adjustColumnWidthsToFit` only reads `columnWidths` and
`consoleWidth`. -/
theorem adjust_columnWidths (t : Table) :
    t.adjustColumnWidthsToFit.columnWidths =
      if totalWidth t.columnWidths > t.consoleWidth then
        adjustLoop t.columnWidths (totalWidth t.columnWidths - t.consoleWidth)
      else t.columnWidths := by
  unfold Table.adjustColumnWidthsToFit
  simp only
  split <;> rfl

/-- The broadcast step writes the group vector into every position below
`colCount`; for a member with exactly `colCount` columns the result is
the group vector itself (as a `range` map). -/
theorem broadcast_eq_rangeMap (l : List Int) (n : Nat) (h : l.length = n)
    (gv : List Int) :
    l.enum.map (fun (p : Nat × Int) => if p.1 < n then gv.getD p.1 0 else p.2) =
      (List.range n).map (fun j => gv.getD j 0) := by
  apply List.ext_getElem
  · simp [h]
  · intro i h1 h2
    simp only [List.getElem_map, List.getElem_enum, List.getElem_range]
    rw [if_pos]
    simp only [List.length_map, List.enum_length] at h1
    omega

/-- The vector that `SyncColumnWidths` ends up assigning to a member whose
column count equals the group's and whose console width is `W`: the group
vector re-fit to that console width.  (Derived form used to state that
members with equal console widths agree.) -/
def syncFinalVec (tables : List Table) (colCount : Nat) (W : Int) : List Int :=
  let gw := (tables.map
    (fun tb =>
      ((if tb.columnWidths.length ≠ colCount then
          { tb with columnWidths := List.replicate colCount 0 }
        else tb).calculateInitialColumnWidths))).foldl
    (fun gw tb =>
      (List.range colCount).foldl
        (fun gw i =>
          if i < tb.columnWidths.length then
            let width := tb.columnWidths.getD i 0
            let width := if width > maxColumnWidth then maxColumnWidth else width
            if width > gw.getD i 0 then
              match tb.maxWidths (Int.ofNat i) with
              | some mw => if width > mw then gw.set i mw else gw.set i width
              | none => gw.set i width
            else gw
          else gw) gw)
    (List.replicate colCount 0)
  let B := (List.range colCount).map (fun j => gw.getD j 0)
  if totalWidth B > W then adjustLoop B (totalWidth B - W) else B

/-- C3 (amended): after `SyncColumnWidths` on a nonempty group whose
members all have the first member's column count *and the same console
width*, all members report identical `columnWidths`.  (With different
console widths the final per-member `fitToConsole` pass can shrink one
member and not another — see the counterexample.) -/
theorem claim_sync_equal_widths_amended (g : TableGroup) (t0 : Table) (rest : List Table)
    (hg : g.tables = t0 :: rest) (W : Int)
    (hcols : ∀ tb ∈ g.tables, tb.Headers.length = t0.Headers.length)
    (hconsole : ∀ tb ∈ g.tables, tb.consoleWidth = W) :
    ∀ ta ∈ g.SyncColumnWidths.tables, ∀ tb ∈ g.SyncColumnWidths.tables,
      ta.columnWidths = tb.columnWidths := by
  have hmain : ∀ tc ∈ g.SyncColumnWidths.tables,
      tc.columnWidths = syncFinalVec g.tables t0.Headers.length W := by
    intro tc htc
    unfold TableGroup.SyncColumnWidths at htc
    rw [hg] at htc
    rw [if_neg (by simp)] at htc
    simp only [List.getD_cons_zero, List.mem_map] at htc
    obtain ⟨x1, hx1, hfx⟩ := htc
    obtain ⟨y, hy, hfy⟩ := hx1
    subst hfx
    rw [adjust_columnWidths]
    have hylen : x1.columnWidths.length = t0.Headers.length := by
      rw [← hfy, sync_normalize_columnWidths, calcInit_length]
      exact hcols y (hg ▸ hy)
    have hcw : ∀ (u : Table) (v : List Int),
        ({ u with columnWidths := v } : Table).columnWidths = v := fun u v => rfl
    have hcon : ∀ (u : Table) (v : List Int),
        ({ u with columnWidths := v } : Table).consoleWidth = u.consoleWidth := fun u v => rfl
    rw [hcw, hcon]
    have hconx : x1.consoleWidth = W := by
      rw [← hfy]
      have hproj : ∀ (u : Table), u.calculateInitialColumnWidths.consoleWidth = u.consoleWidth :=
        fun u => rfl
      rw [hproj]
      have hite : ((if y.columnWidths.length ≠ t0.Headers.length then
          { y with columnWidths := List.replicate t0.Headers.length 0 }
        else y) : Table).consoleWidth = y.consoleWidth := by split <;> rfl
      rw [hite]
      exact hconsole y (hg ▸ hy)
    rw [broadcast_eq_rangeMap x1.columnWidths t0.Headers.length hylen]
    rw [hconx]
    unfold syncFinalVec
    rw [hg]
  intro ta hta tb htb
  rw [hmain ta hta, hmain tb htb]

theorem getD_mem_of_lt {α : Type} (l : List α) (i : Nat) (d : α) (h : i < l.length) :
    l.getD i d ∈ l := by
  rw [List.getD_eq_getElem?_getD, List.getElem?_eq_getElem h]
  exact List.getElem_mem h

/-- Witness for the amended C3 at the concrete demo group (both members
have console width 80). -/
theorem claim_sync_equal_widths_amended_witness :
    (syncDemoGroup.SyncColumnWidths.tables.getD 0 (NewTable [] 80 false)).columnWidths =
      (syncDemoGroup.SyncColumnWidths.tables.getD 1 (NewTable [] 80 false)).columnWidths := by
  apply claim_sync_equal_widths_amended syncDemoGroup
    { syncDemoT1 with group := some () } [{ syncDemoT2 with group := some () }] rfl 80
  · intro tb htb
    rcases List.mem_cons.mp htb with rfl | htb2
    · rfl
    · rcases List.mem_cons.mp htb2 with rfl | htb3
      · rfl
      · cases htb3
  · intro tb htb
    rcases List.mem_cons.mp htb with rfl | htb2
    · rfl
    · rcases List.mem_cons.mp htb2 with rfl | htb3
      · rfl
      · cases htb3
  · exact getD_mem_of_lt _ 0 _ (by decide)
  · exact getD_mem_of_lt _ 1 _ (by decide)

/-- Tables for the C3 counterexample: same schema, different console
widths. -/
def consoleDemoT1 : Table :=
  ((NewTable [[65]] 80 false).AddRow [[97, 98, 99, 100, 101, 102, 103, 104]])

def consoleDemoT2 : Table := ((NewTable [[65]] 10 false).AddRow [[97, 98]])

def consoleDemoGroup : TableGroup := (NewGroup.Add consoleDemoT1).Add consoleDemoT2

/-- C3 (counterexample): with member console widths 80 and 10, after
`SyncColumnWidths` the first member reports width 8 and the second
(re-fit to its narrow console) reports 6 — the members disagree. -/
theorem claim_sync_equal_widths_counterexample :
    ((consoleDemoGroup.SyncColumnWidths.tables.getD 0
        (NewTable [] 80 false)).columnWidths.getD 0 0 = 8) ∧
    ((consoleDemoGroup.SyncColumnWidths.tables.getD 1
        (NewTable [] 80 false)).columnWidths.getD 0 0 = 6) ∧
    ¬ ((consoleDemoGroup.SyncColumnWidths.tables.getD 0
        (NewTable [] 80 false)).columnWidths.getD 0 0 =
      (consoleDemoGroup.SyncColumnWidths.tables.getD 1
        (NewTable [] 80 false)).columnWidths.getD 0 0) := by
  refine ⟨by decide, by decide, by decide⟩

/-! ### Claim: Render on a grouped table preserves synced column widths -/

/-- The post-state table returned by `renderBodyLines` is always the
prepared table, whatever the emitted lines are. -/
theorem renderBodyLines_fst (t0 : Table) (fuel : Nat) (r : Table × List GoStr)
    (h : t0.renderBodyLines fuel = some r) : r.1 = t0.renderPrepare := by
  unfold Table.renderBodyLines at h
  simp only [bind, Option.bind_eq_some, pure, Option.some_inj] at h
  obtain ⟨hl, _, rb, _, h⟩ := h
  rw [← h]

/-- In ANSI mode a grouped table whose widths already fit its console is
left untouched by the width phase of `Render`. -/
theorem renderPrepare_grouped_fit (t : Table) (ha : t.supportANSI = true)
    (hg : t.group = some ()) (hfit : totalWidth t.columnWidths ≤ t.consoleWidth) :
    t.renderPrepare = t := by
  unfold Table.renderPrepare
  rw [ha]
  simp only [Bool.not_true, Bool.false_eq_true, if_false, hg]
  rw [if_neg (by simp)]
  unfold Table.adjustColumnWidthsToFit
  rw [if_neg (by omega)]

/-- A grouped table rendered in ANSI mode: widths `[10]` were (say) synced
by the group and fit the console. -/
def groupedAnsiDemo : Table :=
  { ((NewTable [[65]] 80 true).AddRow [[97, 98]]) with group := some (), columnWidths := [10] }

/-- The same grouped table rendered without ANSI support. -/
def groupedPlainDemo : Table :=
  { ((NewTable [[65]] 80 false).AddRow [[97, 98]]) with group := some (), columnWidths := [10] }

/-- C1 (amended): in ANSI mode (`supportANSI`), with row counting off and
the stored (group-synced) widths fitting the console, `Render` on a
grouped table preserves `columnWidths`: the grouped branch only re-fits
to the console and never recomputes solo widths.  Without `supportANSI`
the claim fails (see the counterexample): the non-ANSI branch of `Render`
runs `calculateInitialColumnWidths` unconditionally, grouped or not. -/
theorem claim_grouped_render_preserves_widths_amended (t : Table) (fuel : Nat)
    (ha : t.supportANSI = true) (hg : t.group = some ())
    (hrc : t.rowCountEnabled = false)
    (hfit : totalWidth t.columnWidths ≤ t.consoleWidth) :
    ∀ r ∈ t.Render fuel, r.1.columnWidths = t.columnWidths := by
  intro r hr
  unfold Table.Render at hr
  rw [hrc] at hr
  simp only [Bool.false_eq_true, if_false, Option.mem_def, Option.map_eq_some'] at hr
  obtain ⟨r0, hm, hr⟩ := hr
  have h1 := renderBodyLines_fst t fuel r0 hm
  rw [renderPrepare_grouped_fit t ha hg hfit] at h1
  rw [← hr]
  exact congrArg Table.columnWidths h1

/-- Witness for the amended C1 on a concrete grouped ANSI table. -/
theorem claim_grouped_render_preserves_widths_amended_witness :
    groupedAnsiDemo.supportANSI = true ∧ groupedAnsiDemo.group = some () ∧
    groupedAnsiDemo.rowCountEnabled = false ∧
    totalWidth groupedAnsiDemo.columnWidths ≤ groupedAnsiDemo.consoleWidth ∧
    ∀ r ∈ groupedAnsiDemo.Render 100, r.1.columnWidths = groupedAnsiDemo.columnWidths :=
  ⟨rfl, rfl, rfl, by decide,
   claim_grouped_render_preserves_widths_amended groupedAnsiDemo 100 rfl rfl rfl (by decide)⟩

/-- C1 (counterexample): the same grouped table without ANSI support.
`Render` overwrites the synced widths `[10]` with the solo-computed
minimal widths `[2]`, so the claim's "regardless of whether styling/ANSI
output is supported" is false. -/
theorem claim_grouped_render_preserves_widths_counterexample :
    (groupedPlainDemo.Render 100).map (fun r => r.1.columnWidths) = some [2] ∧
    groupedPlainDemo.columnWidths = [10] :=
  ⟨by decide, rfl⟩



/-! ### Claim: a non-ANSI render permanently strips stored text -/

/-- With row counting off, the post-state of a successful `Render` is the
prepared table. -/
theorem Render_fst (t : Table) (fuel : Nat) (hrc : t.rowCountEnabled = false)
    (r : Table × GoStr) (hr : t.Render fuel = some r) : r.1 = t.renderPrepare := by
  unfold Table.Render at hr
  rw [hrc] at hr
  simp only [Bool.false_eq_true, if_false, Option.map_eq_some'] at hr
  obtain ⟨r0, hm, hr⟩ := hr
  rw [← hr]
  exact renderBodyLines_fst t fuel r0 hm

/-- Field equations of the destructive non-ANSI branch of the width
phase: every stored string becomes `stripANSI` of its prior value
(titles only for rows that have descriptions), and the mode flags are
preserved. -/
theorem renderPrepare_nonansi (t : Table) (ha : t.supportANSI = false) :
    t.renderPrepare.Headers = t.Headers.map stripANSI ∧
    t.renderPrepare.Rows = t.Rows.map (fun row => row.map stripANSI) ∧
    (∀ ri, t.renderPrepare.Descriptions ri =
      (t.Descriptions ri).map (fun ds => ds.map stripANSI)) ∧
    (∀ ri, t.renderPrepare.DescriptionTitles ri =
      match t.Descriptions ri with
      | some _ => (t.DescriptionTitles ri).map (fun ts => ts.map stripANSI)
      | none => t.DescriptionTitles ri) ∧
    t.renderPrepare.supportANSI = false ∧
    t.renderPrepare.rowCountEnabled = t.rowCountEnabled := by
  unfold Table.renderPrepare
  rw [ha]
  exact ⟨rfl, rfl, fun ri => rfl, fun ri => rfl, rfl, rfl⟩

/-- C8 (amended): when styling is not supported a `Render` call
permanently replaces the stored headers, row cells, descriptions and
description titles by `stripANSI` of their prior values — that part of
the claim is unconditional.  The idempotence part only holds under the
extra hypotheses that no ESC byte (27) survives the first strip in any
stored string: `stripANSI` removes one layer of escapes per call, so
text such as `"\x1b\x1b[0m[0m"` keeps changing on a second render (see
the counterexample). -/
theorem claim_nonansi_strip_amended (t : Table) (fuel fuel2 : Nat)
    (ha : t.supportANSI = false) (hrc : t.rowCountEnabled = false)
    (hH : ∀ s ∈ t.Headers, 27 ∉ stripANSI s)
    (hR : ∀ row ∈ t.Rows, ∀ s ∈ row, 27 ∉ stripANSI s)
    (hD : ∀ ri ds, t.Descriptions ri = some ds → ∀ s ∈ ds, 27 ∉ stripANSI s)
    (hT : ∀ ri ts, t.DescriptionTitles ri = some ts → ∀ s ∈ ts, 27 ∉ stripANSI s) :
    ∀ r ∈ t.Render fuel,
      (r.1.Headers = t.Headers.map stripANSI ∧
       r.1.Rows = t.Rows.map (fun row => row.map stripANSI) ∧
       (∀ ri, r.1.Descriptions ri = (t.Descriptions ri).map (fun ds => ds.map stripANSI)) ∧
       (∀ ri ds, t.Descriptions ri = some ds →
          r.1.DescriptionTitles ri =
            (t.DescriptionTitles ri).map (fun ts => ts.map stripANSI))) ∧
      (∀ r2 ∈ r.1.Render fuel2,
        r2.1.Headers = r.1.Headers ∧
        r2.1.Rows = r.1.Rows ∧
        (∀ ri, r2.1.Descriptions ri = r.1.Descriptions ri) ∧
        (∀ ri, r2.1.DescriptionTitles ri = r.1.DescriptionTitles ri)) := by
  intro r hr
  rw [Option.mem_def] at hr
  have hfst := Render_fst t fuel hrc r hr
  obtain ⟨eH, eR, eD, eT, eA, eRC⟩ := renderPrepare_nonansi t ha
  constructor
  · refine ⟨by rw [hfst, eH], by rw [hfst, eR], ?_, ?_⟩
    · intro ri; rw [hfst, eD ri]
    · intro ri ds hds; rw [hfst, eT ri]; simp only [hds]
  · intro r2 hr2
    rw [Option.mem_def] at hr2
    have hrc2 : r.1.rowCountEnabled = false := by rw [hfst, eRC, hrc]
    have ha2 : r.1.supportANSI = false := by rw [hfst, eA]
    have hfst2 := Render_fst r.1 fuel2 hrc2 r2 hr2
    obtain ⟨eH2, eR2, eD2, eT2, _, _⟩ := renderPrepare_nonansi r.1 ha2
    refine ⟨?_, ?_, ?_, ?_⟩
    · rw [hfst2, eH2, hfst, eH, List.map_map]
      exact List.map_congr_left (fun s hs => stripANSI_no_esc _ (hH s hs))
    · rw [hfst2, eR2, hfst, eR, List.map_map]
      refine List.map_congr_left (fun row hrow => ?_)
      show (row.map stripANSI).map stripANSI = row.map stripANSI
      rw [List.map_map]
      exact List.map_congr_left (fun s hs => stripANSI_no_esc _ (hR row hrow s hs))
    · intro ri
      rw [hfst2, eD2 ri, hfst, eD ri]
      cases hdd : t.Descriptions ri with
      | none => rfl
      | some ds =>
        simp only [Option.map_some']
        congr 1
        rw [List.map_map]
        exact List.map_congr_left (fun s hs => stripANSI_no_esc _ (hD ri ds hdd s hs))
    · intro ri
      rw [hfst2, eT2 ri, hfst, eD ri, eT ri]
      cases hdd : t.Descriptions ri with
      | none => simp only [Option.map_none']
      | some ds =>
        simp only [Option.map_some']
        cases htt : t.DescriptionTitles ri with
        | none => simp only [Option.map_none']
        | some ts =>
          simp only [Option.map_some']
          congr 1
          rw [List.map_map]
          exact List.map_congr_left (fun s hs => stripANSI_no_esc _ (hT ri ts htt s hs))

/-- A non-terminal table with a bold header `"\x1b[1mH\x1b[0m"` and a red
cell `"\x1b[31ma\x1b[0m"`: one strip removes every escape. -/
def nonAnsiDemo : Table :=
  (NewTable [[27, 91, 49, 109, 72, 27, 91, 48, 109]] 80 false).AddRow
    [[27, 91, 51, 49, 109, 97, 27, 91, 48, 109]]

/-- Witness for the amended C8 on `nonAnsiDemo`. -/
theorem claim_nonansi_strip_amended_witness :
    (∀ s ∈ nonAnsiDemo.Headers, 27 ∉ stripANSI s) ∧
    ∀ r ∈ nonAnsiDemo.Render 100, r.1.Headers = nonAnsiDemo.Headers.map stripANSI :=
  ⟨by decide, fun r hr =>
    ((claim_nonansi_strip_amended nonAnsiDemo 100 100 rfl rfl (by decide) (by decide)
      (fun ri ds h => nomatch h) (fun ri ts h => nomatch h) r hr).1).1⟩

/-- A header `"\x1b\x1b[0m[0m"` on which `stripANSI` is not idempotent. -/
def trickyHeaderDemo : Table :=
  (NewTable [[27, 27, 91, 48, 109, 91, 48, 109]] 80 false).AddRow [[97]]

/-- C8 (counterexample): the first non-ANSI render stores the header
`"\x1b[0m"`; a second render strips it again, to the empty string — the
operation is destructive but NOT idempotent. -/
theorem claim_nonansi_strip_counterexample :
    (trickyHeaderDemo.Render 100).map (fun r => r.1.Headers) = some [[27, 91, 48, 109]] ∧
    ((trickyHeaderDemo.Render 100).bind (fun r => r.1.Render 100)).map
      (fun r2 => r2.1.Headers) = some [([] : GoStr)] :=
  ⟨by decide, by decide⟩

/-! ### Claim: Render always terminates -/

/-- A table constructed through the public API whose only column gets a
per-column cap of `0`: `NewTable` then `SetMaxWidth(0, 0)`. -/
def badTable : Table := (NewTable [[65, 66]] 80 false).SetMaxWidth 0 0

/-- At wrap width `0` the hard-cut loop of `splitByWords` makes no
progress (`line[:0]` is empty and the remainder is the whole line): no
amount of fuel finishes it. -/
theorem chunkLoop_zero_none (fuel : Nat) (res : List GoStr) (line : GoStr)
    (h : 0 < utf8RuneCount line) : chunkLoop fuel res line 0 = none := by
  induction fuel generalizing res with
  | zero =>
    unfold chunkLoop
    rw [if_pos (by exact_mod_cast h)]
  | succ fuel ih =>
    unfold chunkLoop
    rw [if_pos (by exact_mod_cast h)]
    simpa using ih (res ++ [line.take (0 : Int).toNat])

/-- `splitByWords "AB" 0` diverges for every fuel. -/
theorem splitByWords_AB_zero (fuel : Nat) : splitByWords fuel [65, 66] 0 = none := by
  have h := chunkLoop_zero_none fuel [] [65, 66] (by decide)
  unfold splitByWords
  have hw : goFields [65, 66] = [[65, 66]] := by decide
  rw [hw]
  simp +decide [List.foldlM, h, bind, Option.bind]

/-- Wrapping the plain word `"AB"` in a column of width `0` falls through
to the word strategy and diverges. -/
theorem smartSplit_AB_zero (t : Table) (fuel : Nat) (ci : Nat)
    (h0 : t.columnWidths.getD ci 0 = 0) :
    t.smartSplitCellContent fuel [65, 66] ci = none := by
  unfold Table.smartSplitCellContent
  rw [h0]
  have he : extractWrappingANSI [65, 66] = ([], [], [65, 66]) := by decide
  simp +decide [he, splitByWords_AB_zero fuel, bind, Option.bind]

theorem badTable_renderBody_none (fuel : Nat) : badTable.renderBodyLines fuel = none := by
  unfold Table.renderBodyLines
  have hh : badTable.renderPrepare.Headers = [[65, 66]] := by decide
  have h0 : badTable.renderPrepare.columnWidths.getD 0 0 = 0 := by decide
  simp only [hh]
  rw [show ([[65, 66]] : List GoStr).enum = [(0, [65, 66])] from by decide]
  have hm : List.mapM.loop
      (fun p : Nat × GoStr => badTable.renderPrepare.smartSplitCellContent fuel p.2 p.1)
      [(0, [65, 66])] [] = none := by
    unfold List.mapM.loop
    rw [smartSplit_AB_zero _ fuel 0 h0]
    rfl
  simp [List.mapM, hm, bind, Option.bind]

/-- C5 (code bug): `Render` does NOT terminate on every table reachable
through the public API.  On `badTable` — `NewTable` with header `"AB"`
followed by `SetMaxWidth(0, 0)` — the width pass caps the column at `0`
and the hard-cut loop of `splitByWords` then slices zero bytes per
iteration without consuming input, so the Go call `Render()` loops
forever; in the fueled model the render is `none` for every fuel. -/
theorem claim_render_termination_codebug : ∀ fuel, badTable.Render fuel = none := by
  intro fuel
  unfold Table.Render
  rw [if_neg (by decide)]
  rw [badTable_renderBody_none fuel]
  rfl

/-! ### Claim: wrapping is lossless modulo whitespace -/

theorem fieldsAux_congr (fuel : Nat) : ∀ (fuel' : Nat) (s cur : GoStr),
    s.length ≤ fuel → s.length ≤ fuel' →
    fieldsAux fuel s cur = fieldsAux fuel' s cur := by
  induction fuel with
  | zero =>
    intro fuel' s cur h h'
    have : s = [] := List.eq_nil_of_length_eq_zero (by omega)
    subst this
    cases fuel' <;> rfl
  | succ fuel ih =>
    intro fuel' s cur h h'
    match s with
    | [] => cases fuel' <;> rfl
    | b :: rest =>
      match fuel' with
      | 0 => simp at h'
      | fuel' + 1 =>
        have h1 := decodeRune_size_pos (b :: rest) (by simp)
        have h2 := decodeRune_size_le (b :: rest)
        simp only [fieldsAux]
        have hdrop : ((b :: rest).drop (decodeRune (b :: rest)).2).length ≤ fuel ∧
            ((b :: rest).drop (decodeRune (b :: rest)).2).length ≤ fuel' := by
          simp only [List.length_drop, List.length_cons] at h h' ⊢
          omega
        repeat' split
        all_goals first
          | rfl
          | (rw [ih fuel' _ _ hdrop.1 hdrop.2])

theorem goFields_nil : goFields [] = [] := rfl

/-- One printable-ASCII step of `fieldsAux`. -/
theorem fieldsAux_cons_ascii (fuel : Nat) (b : Nat) (rest cur : GoStr)
    (hb : 32 ≤ b ∧ b < 127) :
    fieldsAux (fuel + 1) (b :: rest) cur =
      if b = 32 then
        (if cur = [] then fieldsAux fuel rest [] else cur :: fieldsAux fuel rest [])
      else fieldsAux fuel rest (cur ++ [b]) := by
  simp only [fieldsAux]
  rw [decodeRune_lt128 b rest (by omega)]
  simp only [List.drop_succ_cons, List.drop_zero, List.take_succ_cons, List.take_zero]
  by_cases hsp : b = 32
  · subst hsp
    rw [if_pos (by decide), if_pos rfl]
  · rw [if_neg (by simp [isSpaceRune_printable b (by omega) (by omega)]), if_neg hsp]

/-- `strings.Fields` splits cleanly at any explicit ASCII space inside
printable-ASCII text: the text before the space and the text after are
fielded independently. -/
theorem fieldsAux_space_split (fuel : Nat) : ∀ (x t cur : GoStr),
    (∀ b ∈ x, 32 ≤ b ∧ b < 127) →
    x.length + 1 + t.length ≤ fuel →
    fieldsAux fuel (x ++ 32 :: t) cur =
      fieldsAux x.length x cur ++ fieldsAux t.length t [] := by
  induction fuel with
  | zero => intro x t cur _ h; omega
  | succ fuel ih =>
    intro x t cur hx hlen
    match x with
    | [] =>
      simp only [List.nil_append, List.length_nil]
      rw [fieldsAux_cons_ascii fuel 32 t cur ⟨le_refl _, by omega⟩]
      rw [if_pos rfl]
      have ht : fieldsAux fuel t [] = fieldsAux t.length t [] :=
        fieldsAux_congr fuel t.length t [] (by simp at hlen; omega) (le_refl _)
      show _ = (if cur = [] then [] else [cur]) ++ fieldsAux t.length t []
      split <;> simp [ht]
    | b :: x' =>
      have hb := hx b (List.mem_cons_self _ _)
      simp only [List.cons_append, List.length_cons]
      rw [fieldsAux_cons_ascii fuel b (x' ++ 32 :: t) cur hb]
      rw [fieldsAux_cons_ascii x'.length b x' cur hb]
      by_cases hsp : b = 32
      · rw [if_pos hsp, if_pos hsp]
        rw [ih x' t [] (fun c hc => hx c (List.mem_cons_of_mem _ hc))
          (by simp at hlen ⊢; omega)]
        by_cases hcur : cur = []
        · rw [if_pos hcur, if_pos hcur]
        · rw [if_neg hcur, if_neg hcur]; rfl
      · rw [if_neg hsp, if_neg hsp]
        exact ih x' t (cur ++ [b]) (fun c hc => hx c (List.mem_cons_of_mem _ hc))
          (by simp at hlen ⊢; omega)

theorem goFields_append_space (x t : GoStr) (hx : ∀ b ∈ x, 32 ≤ b ∧ b < 127) :
    goFields (x ++ 32 :: t) = goFields x ++ goFields t := by
  unfold goFields
  rw [← fieldsAux_space_split (x ++ 32 :: t).length x t [] hx (by simp; omega)]

/-- Every field of printable-ASCII text is a nonempty all-printable
non-space word. -/
theorem fieldsAux_words (fuel : Nat) : ∀ (s cur : GoStr),
    s.length ≤ fuel →
    (∀ b ∈ s, 32 ≤ b ∧ b < 127) →
    (∀ b ∈ cur, 32 < b ∧ b < 127) →
    ∀ wd ∈ fieldsAux fuel s cur, wd ≠ [] ∧ ∀ b ∈ wd, 32 < b ∧ b < 127 := by
  induction fuel with
  | zero =>
    intro s cur h hs hcur
    have : s = [] := List.eq_nil_of_length_eq_zero (by omega)
    subst this
    simp only [fieldsAux]
    split
    · simp
    · rename_i hc
      intro wd hwd
      simp only [List.mem_singleton] at hwd
      subst hwd
      exact ⟨hc, hcur⟩
  | succ fuel ih =>
    intro s cur hlen hs hcur
    match s with
    | [] =>
      simp only [fieldsAux]
      split
      · simp
      · rename_i hc
        intro wd hwd
        simp only [List.mem_singleton] at hwd
        subst hwd
        exact ⟨hc, hcur⟩
    | b :: rest =>
      have hb := hs b (List.mem_cons_self _ _)
      rw [fieldsAux_cons_ascii fuel b rest cur hb]
      have hrest : ∀ c ∈ rest, 32 ≤ c ∧ c < 127 :=
        fun c hc => hs c (List.mem_cons_of_mem _ hc)
      have hlen' : rest.length ≤ fuel := by simp at hlen; omega
      by_cases hsp : b = 32
      · rw [if_pos hsp]
        split
        · exact ih rest [] hlen' hrest (by simp)
        · rename_i hc
          intro wd hwd
          rcases List.mem_cons.mp hwd with hwd | hwd
          · subst hwd; exact ⟨hc, hcur⟩
          · exact ih rest [] hlen' hrest (by simp) wd hwd
      · rw [if_neg hsp]
        refine ih rest (cur ++ [b]) hlen' hrest ?_
        intro c hc
        rcases List.mem_append.mp hc with hc | hc
        · exact hcur c hc
        · simp only [List.mem_singleton] at hc; subst hc; omega

theorem goFields_words (s : GoStr) (hs : ∀ b ∈ s, 32 ≤ b ∧ b < 127) :
    ∀ wd ∈ goFields s, wd ≠ [] ∧ ∀ b ∈ wd, 32 < b ∧ b < 127 :=
  fieldsAux_words s.length s [] (le_refl _) hs (by simp)

/-- A line already within the width passes the hard-cut loop unchanged. -/
theorem chunkLoop_le (fuel : Nat) (res : List GoStr) (line : GoStr) (w : Int)
    (h : (utf8RuneCount line : Int) ≤ w) : chunkLoop fuel res line w = some (res, line) := by
  unfold chunkLoop
  rw [if_neg (by omega)]

theorem ansiFindAllAux_no_esc (fuel : Nat) : ∀ (s : GoStr) (pos : Nat), 27 ∉ s →
    ansiFindAllAux fuel s pos = [] := by
  induction fuel with
  | zero => intro s pos _; cases s <;> rfl
  | succ fuel ih =>
    intro s pos h
    match s with
    | [] => rfl
    | b :: rest =>
      simp only [ansiFindAllAux]
      rw [ansiMatchLen_not27 (b :: rest)
        (fun c hc => by simp at hc; subst hc; exact fun h27 => h (h27 ▸ List.mem_cons_self _ _))]
      exact ih rest (pos + 1) (fun hm => h (List.mem_cons_of_mem _ hm))

/-- Text without an ESC byte has no ANSI wrapper: the peel returns the
whole string as the core. -/
theorem extractWrappingANSI_no_esc (s : GoStr) (h : 27 ∉ s) :
    extractWrappingANSI s = ([], [], s) := by
  match s with
  | [] => rfl
  | b :: rest =>
    have hpl : peelLeading (b :: rest) = ([], b :: rest) := by
      unfold peelLeading
      simp only [List.length_cons]
      unfold peelLeadingAux
      rw [ansiMatchLen_not27 (b :: rest)
        (fun c hc => by simp at hc; subst hc; exact fun h27 => h (h27 ▸ List.mem_cons_self _ _))]
    unfold extractWrappingANSI
    rw [hpl]
    rw [if_neg (by simp)]
    have htake : List.take (rest.length + 1) (b :: rest) = b :: rest :=
      List.take_of_length_le (by simp)
    have hpt : peelTrailing (b :: rest) (b :: rest).length [] = (b :: rest, []) := by
      unfold peelTrailing
      simp only [List.length_cons]
      unfold peelTrailingAux
      unfold ansiFindAll
      rw [htake]
      rw [ansiFindAllAux_no_esc (b :: rest).length (b :: rest) 0 h]
      simp
    rw [hpt]

/-- Joining lines with single spaces (the normal form used to state
losslessness of wrapping). -/
def spaceJoin : List GoStr → GoStr
  | [] => []
  | [l] => l
  | l :: ls => l ++ 32 :: spaceJoin ls

theorem goFields_spaceJoin (lines : List GoStr)
    (h : ∀ l ∈ lines, ∀ b ∈ l, 32 ≤ b ∧ b < 127) :
    goFields (spaceJoin lines) = (lines.map goFields).flatten := by
  induction lines with
  | nil => rfl
  | cons l ls ih =>
    match ls with
    | [] => simp [spaceJoin]
    | l2 :: rest =>
      show goFields (l ++ 32 :: spaceJoin (l2 :: rest)) = _
      rw [goFields_append_space l _ (h l (List.mem_cons_self _ _))]
      rw [ih (fun x hx => h x (List.mem_cons_of_mem _ hx))]
      simp

/-- The greedy packing step of `splitByWords`, named for the proofs. -/
def splitStep (fuel : Nat) (maxWidth : Int) (st : List GoStr × GoStr) (w : GoStr) :
    Option (List GoStr × GoStr) :=
  let res := st.1
  let line := st.2
  let test := if line ≠ [] then line ++ [32] ++ w else w
  let rl :=
    if (utf8RuneCount test : Int) ≤ maxWidth then (res, test)
    else (if line ≠ [] then res ++ [line] else res, w)
  chunkLoop fuel rl.1 rl.2 maxWidth

theorem splitByWords_as_steps (fuel : Nat) (content : GoStr) (maxWidth : Int) :
    splitByWords fuel content maxWidth =
      (goFields content).foldlM (splitStep fuel maxWidth) ([], []) >>=
        fun st => pure (if st.2 ≠ [] then st.1 ++ [st.2] else st.1) := rfl

theorem splitStep_nil_line (fuel : Nat) (maxWidth : Int) (res : List GoStr) (wd : GoStr)
    (hfit : (utf8RuneCount wd : Int) ≤ maxWidth) :
    splitStep fuel maxWidth (res, []) wd = some (res, wd) := by
  have h := chunkLoop_le fuel res wd maxWidth hfit
  simp [splitStep, hfit, h]

theorem splitStep_fits (fuel : Nat) (maxWidth : Int) (res : List GoStr) (line wd : GoStr)
    (hlne : line ≠ [])
    (hfit : (utf8RuneCount (line ++ [32] ++ wd) : Int) ≤ maxWidth) :
    splitStep fuel maxWidth (res, line) wd = some (res, line ++ [32] ++ wd) := by
  have hfit' : (utf8RuneCount (line ++ 32 :: wd) : Int) ≤ maxWidth := by
    rw [show line ++ 32 :: wd = line ++ [32] ++ wd by simp]
    exact hfit
  have h := chunkLoop_le fuel res (line ++ 32 :: wd) maxWidth hfit'
  simp [splitStep, hlne, hfit', h]

theorem splitStep_overflow (fuel : Nat) (maxWidth : Int) (res : List GoStr) (line wd : GoStr)
    (hlne : line ≠ [])
    (hbig : ¬ (utf8RuneCount (line ++ [32] ++ wd) : Int) ≤ maxWidth)
    (hfit : (utf8RuneCount wd : Int) ≤ maxWidth) :
    splitStep fuel maxWidth (res, line) wd = some (res ++ [line], wd) := by
  have hbig' : ¬ (utf8RuneCount (line ++ 32 :: wd) : Int) ≤ maxWidth := by
    rw [show line ++ 32 :: wd = line ++ [32] ++ wd by simp]
    exact hbig
  have h := chunkLoop_le fuel (res ++ [line]) wd maxWidth hfit
  simp [splitStep, hlne, hbig', h]

/-- The invariant of the greedy fold of `splitByWords`: with every word
nonempty, printable and within the width, the fold succeeds, keeps every
accumulated line printable, and the concatenation of the fields of the
accumulated lines is exactly the words consumed so far. -/
theorem splitFold_inv (fuel : Nat) (maxWidth : Int) :
    ∀ (ws : List GoStr) (res : List GoStr) (line : GoStr),
    (∀ wd ∈ ws, wd ≠ [] ∧ (∀ b ∈ wd, 32 < b ∧ b < 127) ∧
      (utf8RuneCount wd : Int) ≤ maxWidth) →
    (∀ b ∈ line, 32 ≤ b ∧ b < 127) →
    (∀ l ∈ res, ∀ b ∈ l, 32 ≤ b ∧ b < 127) →
    ∃ st' : List GoStr × GoStr,
      List.foldlM (splitStep fuel maxWidth) (res, line) ws = some st' ∧
      (∀ b ∈ st'.2, 32 ≤ b ∧ b < 127) ∧
      (∀ l ∈ st'.1, ∀ b ∈ l, 32 ≤ b ∧ b < 127) ∧
      (st'.1.map goFields).flatten ++ goFields st'.2 =
        ((res.map goFields).flatten ++ goFields line) ++ ws := by
  intro ws
  induction ws with
  | nil =>
    intro res line _ hline hres
    exact ⟨(res, line), rfl, hline, hres, by simp⟩
  | cons wd ws ih =>
    intro res line hws hline hres
    obtain ⟨hwdne, hwdp, hwdfit⟩ := hws wd (List.mem_cons_self _ _)
    have hws' := fun x hx => hws x (List.mem_cons_of_mem _ hx)
    have hwd32 : ∀ b ∈ wd, 32 ≤ b ∧ b < 127 :=
      fun b hb => ⟨by have := hwdp b hb; omega, (hwdp b hb).2⟩
    have hgwd : goFields wd = [wd] := goFields_printable wd hwdne hwdp
    by_cases hlne : line = []
    · subst hlne
      rw [List.foldlM_cons, splitStep_nil_line fuel maxWidth res wd hwdfit]
      obtain ⟨st', hfold, h1, h2, h3⟩ := ih res wd hws' hwd32 hres
      refine ⟨st', hfold, h1, h2, ?_⟩
      rw [h3, hgwd]
      simp [goFields_nil]
    · by_cases hfit : (utf8RuneCount (line ++ [32] ++ wd) : Int) ≤ maxWidth
      · rw [List.foldlM_cons, splitStep_fits fuel maxWidth res line wd hlne hfit]
        have hline' : ∀ b ∈ line ++ [32] ++ wd, 32 ≤ b ∧ b < 127 := by
          intro b hb
          rcases List.mem_append.mp hb with hb | hb
          · rcases List.mem_append.mp hb with hb | hb
            · exact hline b hb
            · simp only [List.mem_singleton] at hb; subst hb; omega
          · exact hwd32 b hb
        obtain ⟨st', hfold, h1, h2, h3⟩ := ih res (line ++ [32] ++ wd) hws' hline' hres
        refine ⟨st', hfold, h1, h2, ?_⟩
        rw [h3]
        have hga : goFields (line ++ [32] ++ wd) = goFields line ++ [wd] := by
          rw [show line ++ [32] ++ wd = line ++ 32 :: wd by simp]
          rw [goFields_append_space line wd hline, hgwd]
        rw [hga]
        simp
      · rw [List.foldlM_cons, splitStep_overflow fuel maxWidth res line wd hlne hfit hwdfit]
        have hres' : ∀ l ∈ res ++ [line], ∀ b ∈ l, 32 ≤ b ∧ b < 127 := by
          intro l hl
          rcases List.mem_append.mp hl with hl | hl
          · exact hres l hl
          · simp only [List.mem_singleton] at hl; subst hl; exact hline
        obtain ⟨st', hfold, h1, h2, h3⟩ := ih (res ++ [line]) wd hws' hwd32 hres'
        refine ⟨st', hfold, h1, h2, ?_⟩
        rw [h3, hgwd]
        simp

/-- Wrapping plain printable comma-free text: the produced lines are
printable and their fields concatenate to the fields of the input. -/
theorem smartSplit_plain_fields (t : Table) (fuel : Nat) (ci : Nat) (content : GoStr)
    (lines : List GoStr)
    (hprint : ∀ b ∈ content, 32 ≤ b ∧ b < 127)
    (hnc : containsByte 44 content = false)
    (hns : containsByte 47 content = false)
    (hnd : containsByte 46 content = false)
    (hfit : ∀ wd ∈ goFields content, (utf8RuneCount wd : Int) ≤ t.columnWidths.getD ci 0)
    (h : t.smartSplitCellContent fuel content ci = some lines) :
    (∀ l ∈ lines, ∀ b ∈ l, 32 ≤ b ∧ b < 127) ∧
    (lines.map goFields).flatten = goFields content := by
  have hesc : 27 ∉ content := fun hm => by have := hprint 27 hm; omega
  unfold Table.smartSplitCellContent at h
  simp only [extractWrappingANSI_no_esc content hesc, stripANSI_no_esc content hesc,
    hnc, hns, hnd, Bool.false_eq_true, if_false, Bool.or_self, List.nil_append,
    List.append_nil, List.map_id'] at h
  split at h
  · rename_i hle
    simp only [Option.some_inj] at h
    subst h
    refine ⟨?_, by simp⟩
    intro l hl
    simp only [List.mem_singleton] at hl
    subst hl
    exact hprint
  · rename_i hgt
    obtain ⟨st', hfold, h1, h2, h3⟩ := splitFold_inv fuel (t.columnWidths.getD ci 0)
      (goFields content) [] []
      (fun wd hwd => ⟨(goFields_words content hprint wd hwd).1,
        (goFields_words content hprint wd hwd).2, hfit wd hwd⟩)
      (by simp) (by simp)
    rw [splitByWords_as_steps, hfold] at h
    have h' : (if st'.2 ≠ [] then st'.1 ++ [st'.2] else st'.1) = lines := by
      simpa using h
    simp only [goFields_nil, List.map_nil, List.flatten_nil, List.nil_append] at h3
    by_cases hne : st'.2 = []
    · rw [if_neg (by simp [hne])] at h'
      subst h'
      rw [hne, goFields_nil, List.append_nil] at h3
      exact ⟨h2, h3⟩
    · rw [if_pos hne] at h'
      subst h'
      constructor
      · intro l hl
        rcases List.mem_append.mp hl with hl | hl
        · exact h2 l hl
        · simp only [List.mem_singleton] at hl; subst hl; exact h1
      · simpa using h3

/-- C7 (amended): for plain printable-ASCII content without commas,
slashes or dots, whose words all fit the column width, wrapping is
lossless under ANSI stripping: joining the stripped wrapped lines with
single spaces reproduces the stripped content modulo whitespace
normalization (equal `strings.Fields`).  The comma strategy violates the
claim (see the counterexample): `TrimPrefix(", ")` silently drops a
comma at every wrap point. -/
theorem claim_wrap_lossless_amended (t : Table) (fuel : Nat) (ci : Nat) (content : GoStr)
    (lines : List GoStr)
    (hprint : ∀ b ∈ content, 32 ≤ b ∧ b < 127)
    (hnc : containsByte 44 content = false)
    (hns : containsByte 47 content = false)
    (hnd : containsByte 46 content = false)
    (hfit : ∀ wd ∈ goFields content, (utf8RuneCount wd : Int) ≤ t.columnWidths.getD ci 0)
    (h : t.smartSplitCellContent fuel content ci = some lines) :
    goFields (spaceJoin (lines.map stripANSI)) = goFields (stripANSI content) := by
  have hesc : 27 ∉ content := fun hm => by have := hprint 27 hm; omega
  obtain ⟨hp, hflat⟩ := smartSplit_plain_fields t fuel ci content lines
    hprint hnc hns hnd hfit h
  have hmap : lines.map stripANSI = lines := by
    have h1 : lines.map stripANSI = lines.map id :=
      List.map_congr_left (fun l hl =>
        stripANSI_no_esc l (fun hm => by have := hp l hl 27 hm; omega))
    simpa using h1
  rw [hmap, stripANSI_no_esc content hesc, goFields_spaceJoin lines hp, hflat]

/-- A table whose only column has width 4 (only `columnWidths` matters to
the wrapper). -/
def commaDemo : Table := { NewTable [[72]] 80 false with columnWidths := [4] }

/-- Witness for the amended C7: `"ab cd"` wrapped at width 4. -/
theorem claim_wrap_lossless_amended_witness :
    commaDemo.smartSplitCellContent 100 [97, 98, 32, 99, 100] 0 =
      some [[97, 98], [99, 100]] ∧
    goFields (spaceJoin (([[97, 98], [99, 100]] : List GoStr).map stripANSI)) =
      goFields (stripANSI [97, 98, 32, 99, 100]) :=
  ⟨by decide,
   claim_wrap_lossless_amended commaDemo 100 0 [97, 98, 32, 99, 100] [[97, 98], [99, 100]]
     (by decide) (by decide) (by decide) (by decide) (by decide) (by decide)⟩

/-- C7 (counterexample): `"aaaa,bbbb"` wrapped at width 4 goes through
`splitCommaSeparatedList`, which drops the comma of a segment moved to a
fresh line: the stripped rejoined text `"aaaa bbbb"` does not reproduce
the original `"aaaa,bbbb"` even modulo whitespace normalization. -/
theorem claim_wrap_lossless_counterexample :
    commaDemo.smartSplitCellContent 100 [97, 97, 97, 97, 44, 98, 98, 98, 98] 0 =
      some [[97, 97, 97, 97], [98, 98, 98, 98]] ∧
    goFields (spaceJoin (([[97, 97, 97, 97], [98, 98, 98, 98]] : List GoStr).map stripANSI)) ≠
      goFields (stripANSI [97, 97, 97, 97, 44, 98, 98, 98, 98]) :=
  ⟨by decide, by decide⟩


/-! ### Claim: every rendered line has the same visible width -/
theorem decodeRune_e294_size (x : Nat) (rest : GoStr) (hx : 128 ≤ x ∧ x ≤ 191) :
    (decodeRune (226 :: 148 :: x :: rest)).2 = 3 := by
  simp only [decodeRune]
  rw [if_neg (by omega), if_neg (by omega), if_neg (by omega), if_pos (by omega)]
  rw [if_pos]
  have hacc : accept3 226 148 = true := by decide
  have hic : isCont x = true := by simp [isCont]; omega
  rw [hacc, hic]
  rfl

theorem count_box_cons (x : Nat) (rest : GoStr) (hx : 128 ≤ x ∧ x ≤ 191) :
    utf8RuneCount (226 :: 148 :: x :: rest) = 1 + utf8RuneCount rest := by
  rw [utf8RuneCount_cons _ (by simp)]
  rw [decodeRune_e294_size x rest hx]
  rfl

theorem count_ascii_append (a y : GoStr) (h : ∀ b ∈ a, b < 128) :
    utf8RuneCount (a ++ y) = a.length + utf8RuneCount y := by
  induction a with
  | nil => simp
  | cons b rest ih =>
    have hb := h b (List.mem_cons_self _ _)
    rw [List.cons_append, utf8RuneCount_cons _ (by simp)]
    rw [decodeRune_lt128 b _ hb]
    simp only [List.drop_succ_cons, List.drop_zero, List.length_cons]
    rw [ih (fun c hc => h c (List.mem_cons_of_mem _ hc))]
    omega

theorem count_hline_repeat (n : Nat) (y : GoStr) :
    utf8RuneCount ((List.replicate n HLine).flatten ++ y) = n + utf8RuneCount y := by
  induction n with
  | zero => simp
  | succ n ih =>
    rw [List.replicate_succ, List.flatten_cons]
    show utf8RuneCount (226 :: 148 :: 128 :: ((List.replicate n HLine).flatten ++ y)) = _
    rw [count_box_cons _ _ (by omega), ih]
    omega

theorem count_goRepeat_hline (w : Int) (y : GoStr) :
    utf8RuneCount (goRepeat HLine w ++ y) = w.toNat + utf8RuneCount y := by
  unfold goRepeat
  exact count_hline_repeat w.toNat y

theorem spaces_props (k : Int) : (∀ b ∈ spaces k, b = 32) ∧ (spaces k).length = k.toNat := by
  unfold spaces goRepeat
  constructor
  · intro b hb
    simp only [List.mem_flatten, List.mem_replicate] at hb
    obtain ⟨l, ⟨_, hl⟩, hbl⟩ := hb
    subst hl
    simpa using hbl
  · simp



theorem set_oob (l : List Int) (j : Nat) (v : Int) (h : l.length ≤ j) : l.set j v = l :=
  List.set_eq_of_length_le h

/-- Generic facts about folding a single-index max-update. -/
theorem idxFold_mono {α : Type} (f : List Int → α → List Int) (idx : α → Nat)
    (P1 : ∀ cw a k, k ≠ idx a → (f cw a).getD k 0 = cw.getD k 0)
    (P3 : ∀ cw a, cw.getD (idx a) 0 ≤ (f cw a).getD (idx a) 0) :
    ∀ (l : List α) (init : List Int) (i : Nat),
      init.getD i 0 ≤ (l.foldl f init).getD i 0 := by
  intro l
  induction l with
  | nil => intro init i; exact le_refl _
  | cons a l ih =>
    intro init i
    rw [List.foldl_cons]
    refine le_trans ?_ (ih (f init a) i)
    by_cases hk : i = idx a
    · subst hk; exact P3 init a
    · rw [P1 init a i hk]

theorem idxFold_ge {α : Type} (f : List Int → α → List Int) (idx : α → Nat) (v : α → Int)
    (P1 : ∀ cw a k, k ≠ idx a → (f cw a).getD k 0 = cw.getD k 0)
    (P3 : ∀ cw a, cw.getD (idx a) 0 ≤ (f cw a).getD (idx a) 0)
    (P4 : ∀ cw a, idx a < cw.length → v a ≤ (f cw a).getD (idx a) 0) :
    ∀ (l : List α) (init : List Int) (a : α),
      a ∈ l → idx a < init.length →
      (∀ cw x, (f cw x).length = cw.length) →
      v a ≤ (l.foldl f init).getD (idx a) 0 := by
  intro l
  induction l with
  | nil => intro init a ha; exact absurd ha (List.not_mem_nil a)
  | cons b l ih =>
    intro init a ha hlen P2
    rw [List.foldl_cons]
    rcases List.mem_cons.mp ha with ha | ha
    · subst ha
      exact le_trans (P4 init a hlen) (idxFold_mono f idx P1 P3 l (f init a) (idx a))
    · exact ih (f init b) a ha (by rw [P2]; exact hlen) P2

theorem idxFold_le {α : Type} (f : List Int → α → List Int) (v : α → Int) (M : Int)
    (P5 : ∀ cw a, (∀ i, cw.getD i 0 ≤ M) → v a ≤ M → ∀ i, (f cw a).getD i 0 ≤ M) :
    ∀ (l : List α) (init : List Int),
      (∀ i, init.getD i 0 ≤ M) → (∀ a ∈ l, v a ≤ M) →
      ∀ i, (l.foldl f init).getD i 0 ≤ M := by
  intro l
  induction l with
  | nil => intro init h _ i; exact h i
  | cons a l ih =>
    intro init hinit hl i
    rw [List.foldl_cons]
    exact ih (f init a) (P5 init a hinit (hl a (List.mem_cons_self _ _)))
      (fun x hx => hl x (List.mem_cons_of_mem _ hx)) i

/-- The header pass of `calculateInitialColumnWidths`, properties of one
step. -/
theorem hstep_untouched (cw : List Int) (p : Nat × GoStr) (k : Nat) (hk : k ≠ p.1) :
    ((fun (cw : List Int) (p : Nat × GoStr) =>
      let l : Int := visLen p.2
      if l > cw.getD p.1 0 then cw.set p.1 l else cw) cw p).getD k 0 = cw.getD k 0 := by
  simp only
  split
  · exact getD_set_ne _ _ _ _ (Ne.symm hk)
  · rfl

theorem hstep_mono (cw : List Int) (p : Nat × GoStr) :
    cw.getD p.1 0 ≤ ((fun (cw : List Int) (p : Nat × GoStr) =>
      let l : Int := visLen p.2
      if l > cw.getD p.1 0 then cw.set p.1 l else cw) cw p).getD p.1 0 := by
  simp only
  split
  · rename_i hgt
    by_cases hlen : p.1 < cw.length
    · rw [getD_set_self _ _ _ hlen]; omega
    · rw [set_oob _ _ _ (by omega)]
  · exact le_refl _

theorem hstep_ge (cw : List Int) (p : Nat × GoStr) (hlen : p.1 < cw.length) :
    (visLen p.2 : Int) ≤ ((fun (cw : List Int) (p : Nat × GoStr) =>
      let l : Int := visLen p.2
      if l > cw.getD p.1 0 then cw.set p.1 l else cw) cw p).getD p.1 0 := by
  simp only
  split
  · rename_i hgt
    rw [getD_set_self _ _ _ hlen]
  · rename_i hle
    omega

theorem hstep_le (cw : List Int) (p : Nat × GoStr) (M : Int)
    (hcw : ∀ i, cw.getD i 0 ≤ M) (hv : (visLen p.2 : Int) ≤ M) :
    ∀ i, ((fun (cw : List Int) (p : Nat × GoStr) =>
      let l : Int := visLen p.2
      if l > cw.getD p.1 0 then cw.set p.1 l else cw) cw p).getD i 0 ≤ M := by
  intro i
  simp only
  split
  · by_cases hk : i = p.1
    · subst hk
      by_cases hlen : p.1 < cw.length
      · rw [getD_set_self _ _ _ hlen]; exact hv
      · rw [set_oob _ _ _ (by omega)]; exact hcw p.1
    · rw [getD_set_ne _ _ _ _ (Ne.symm hk)]; exact hcw i
  · exact hcw i

theorem hstep_len (cw : List Int) (p : Nat × GoStr) :
    ((fun (cw : List Int) (p : Nat × GoStr) =>
      let l : Int := visLen p.2
      if l > cw.getD p.1 0 then cw.set p.1 l else cw) cw p).length = cw.length := by
  simp only
  split <;> simp

/-- The guarded per-cell step of the row pass. -/
theorem rstep_untouched (cw : List Int) (p : Nat × GoStr) (k : Nat) (hk : k ≠ p.1) :
    ((fun (cw : List Int) (p : Nat × GoStr) =>
      if p.1 ≥ cw.length then cw
      else
        let l : Int := visLen p.2
        if l > cw.getD p.1 0 then cw.set p.1 l else cw) cw p).getD k 0 = cw.getD k 0 := by
  simp only
  split
  · rfl
  · exact hstep_untouched cw p k hk

theorem rstep_mono (cw : List Int) (p : Nat × GoStr) :
    cw.getD p.1 0 ≤ ((fun (cw : List Int) (p : Nat × GoStr) =>
      if p.1 ≥ cw.length then cw
      else
        let l : Int := visLen p.2
        if l > cw.getD p.1 0 then cw.set p.1 l else cw) cw p).getD p.1 0 := by
  simp only
  split
  · exact le_refl _
  · exact hstep_mono cw p

theorem rstep_ge (cw : List Int) (p : Nat × GoStr) (hlen : p.1 < cw.length) :
    (visLen p.2 : Int) ≤ ((fun (cw : List Int) (p : Nat × GoStr) =>
      if p.1 ≥ cw.length then cw
      else
        let l : Int := visLen p.2
        if l > cw.getD p.1 0 then cw.set p.1 l else cw) cw p).getD p.1 0 := by
  simp only
  rw [if_neg (by omega)]
  exact hstep_ge cw p hlen

theorem rstep_le (cw : List Int) (p : Nat × GoStr) (M : Int)
    (hcw : ∀ i, cw.getD i 0 ≤ M) (hv : (visLen p.2 : Int) ≤ M) :
    ∀ i, ((fun (cw : List Int) (p : Nat × GoStr) =>
      if p.1 ≥ cw.length then cw
      else
        let l : Int := visLen p.2
        if l > cw.getD p.1 0 then cw.set p.1 l else cw) cw p).getD i 0 ≤ M := by
  intro i
  simp only
  split
  · exact hcw i
  · exact hstep_le cw p M hcw hv i

theorem rstep_len (cw : List Int) (p : Nat × GoStr) :
    ((fun (cw : List Int) (p : Nat × GoStr) =>
      if p.1 ≥ cw.length then cw
      else
        let l : Int := visLen p.2
        if l > cw.getD p.1 0 then cw.set p.1 l else cw) cw p).length = cw.length := by
  simp only
  split
  · rfl
  · exact hstep_len cw p



theorem map_zero_getD (X : List Int) (k : Nat) :
    (X.map (fun _ => (0 : Int))).getD k 0 = 0 := by
  simp only [List.getD_eq_getElem?_getD, List.getElem?_map]
  cases hx : X[k]? <;> simp [hx]

theorem snd_mem_of_mem_enum {α : Type} (l : List α) (p : Nat × α) (h : p ∈ l.enum) :
    p.2 ∈ l := by
  have : ∀ (n : Nat) (l : List α) (p : Nat × α), p ∈ List.enumFrom n l → p.2 ∈ l := by
    intro n l
    induction l generalizing n with
    | nil => intro p hp; simp [List.enumFrom] at hp
    | cons a tl ih =>
      intro p hp
      rw [List.enumFrom_cons] at hp
      rcases List.mem_cons.mp hp with hp | hp
      · subst hp; exact List.mem_cons_self _ _
      · exact List.mem_cons_of_mem _ (ih (n + 1) p hp)
  exact this 0 l p h

theorem getD_mem_enum {α : Type} [Inhabited α] (l : List α) (i : Nat) (hi : i < l.length) :
    (i, l.getD i default) ∈ l.enum := by
  refine List.mem_enum_iff_getElem?.mpr ?_
  show l[i]? = some (l.getD i default)
  rw [List.getD_eq_getElem l default hi]
  exact List.getElem?_eq_getElem hi

theorem rowsFold_mono (rows : List (List GoStr)) (init : List Int) (i : Nat) :
    init.getD i 0 ≤
      (rows.foldl
        (fun cw row =>
          row.enum.foldl
            (fun (cw : List Int) (p : Nat × GoStr) =>
              if p.1 ≥ cw.length then cw
              else
                let l : Int := visLen p.2
                if l > cw.getD p.1 0 then cw.set p.1 l else cw) cw) init).getD i 0 := by
  induction rows generalizing init with
  | nil => exact le_refl _
  | cons row rows ih =>
    rw [List.foldl_cons]
    refine le_trans ?_ (ih _)
    exact idxFold_mono _ (fun p => p.1) rstep_untouched rstep_mono row.enum init i

theorem rowsFold_le (M : Int) (rows : List (List GoStr)) (init : List Int)
    (hinit : ∀ i, init.getD i 0 ≤ M)
    (hrows : ∀ row ∈ rows, ∀ c ∈ row, (visLen c : Int) ≤ M) :
    ∀ i,
      (rows.foldl
        (fun cw row =>
          row.enum.foldl
            (fun (cw : List Int) (p : Nat × GoStr) =>
              if p.1 ≥ cw.length then cw
              else
                let l : Int := visLen p.2
                if l > cw.getD p.1 0 then cw.set p.1 l else cw) cw) init).getD i 0 ≤ M := by
  induction rows generalizing init with
  | nil => exact hinit
  | cons row rows ih =>
    rw [List.foldl_cons]
    refine ih _ ?_ (fun r hr => hrows r (List.mem_cons_of_mem _ hr))
    exact idxFold_le _ (fun p => (visLen p.2 : Int)) M
      (fun cw p hcw hv => rstep_le cw p M hcw hv) row.enum init hinit
      (fun p hp => hrows row (List.mem_cons_self _ _) p.2 (snd_mem_of_mem_enum row p hp))

theorem rowsFold_ge (rows : List (List GoStr)) (row : List GoStr)
    (hrow : row ∈ rows) (i : Nat) (hi : i < row.length) :
    ∀ (init : List Int), i < init.length →
    (visLen (row.getD i []) : Int) ≤
      (rows.foldl
        (fun cw row =>
          row.enum.foldl
            (fun (cw : List Int) (p : Nat × GoStr) =>
              if p.1 ≥ cw.length then cw
              else
                let l : Int := visLen p.2
                if l > cw.getD p.1 0 then cw.set p.1 l else cw) cw) init).getD i 0 := by
  induction rows with
  | nil => exact absurd hrow (List.not_mem_nil row)
  | cons row0 rows ih =>
    intro init hlen
    rw [List.foldl_cons]
    rcases List.mem_cons.mp hrow with hr | hr
    · subst hr
      refine le_trans ?_ (rowsFold_mono rows _ i)
      have hmem := getD_mem_enum row i hi
      have hge := idxFold_ge _ (fun p => p.1) (fun p => (visLen p.2 : Int))
        rstep_untouched rstep_mono
        (fun cw p hl => rstep_ge cw p hl)
        row.enum init (i, row.getD i default) hmem hlen rstep_len
      simpa using hge
    · refine ih hr _ ?_
      rw [foldl_length_invariant row0.enum _ init (fun cw p => rstep_len cw p)]
      exact hlen



theorem getD_replicate_zero (n k : Nat) : (List.replicate n (0 : Int)).getD k 0 = 0 := by
  simp only [List.getD_eq_getElem?_getD, List.getElem?_replicate]
  split <;> rfl

theorem getD_mem (l : List GoStr) (i : Nat) (hi : i < l.length) : l.getD i [] ∈ l := by
  rw [List.getD_eq_getElem l [] hi]
  exact List.getElem_mem _

/-- Lower and upper bounds of `calculateInitialColumnWidths` for uncapped
tables with all content within the global cap: every column is at least
as wide as each of its contents (and nonnegative). -/
theorem calcInit_bounds (u : Table) (i : Nat) (hi : i < u.Headers.length)
    (hnomw : ∀ j, u.maxWidths j = none)
    (hH50 : ∀ h ∈ u.Headers, (visLen h : Int) ≤ maxColumnWidth)
    (hR50 : ∀ row ∈ u.Rows, ∀ c ∈ row, (visLen c : Int) ≤ maxColumnWidth) :
    0 ≤ u.calculateInitialColumnWidths.columnWidths.getD i 0 ∧
    (visLen (u.Headers.getD i []) : Int) ≤
      u.calculateInitialColumnWidths.columnWidths.getD i 0 ∧
    ∀ row ∈ u.Rows, i < row.length →
      (visLen (row.getD i []) : Int) ≤
        u.calculateInitialColumnWidths.columnWidths.getD i 0 := by
  unfold Table.calculateInitialColumnWidths
  simp only
  rw [calcInit_map_zero u u.columnWidths]
  rw [calcInit_cap_pass]
  · simp only [hnomw]
    have hle50 : ∀ k,
        (u.Rows.foldl
          (fun cw row =>
            row.enum.foldl
              (fun (cw : List Int) (p : Nat × GoStr) =>
                if p.1 ≥ cw.length then cw
                else
                  let l : Int := visLen p.2
                  if l > cw.getD p.1 0 then cw.set p.1 l else cw) cw)
          (u.Headers.enum.foldl
            (fun (cw : List Int) (p : Nat × GoStr) =>
              let l : Int := visLen p.2
              if l > cw.getD p.1 0 then cw.set p.1 l else cw)
            (List.replicate u.Headers.length 0))).getD k 0 ≤ maxColumnWidth := by
      intro k
      refine rowsFold_le maxColumnWidth u.Rows _ ?_ hR50 k
      intro k2
      refine idxFold_le _ (fun p => (visLen p.2 : Int)) maxColumnWidth
        (fun cw p hcw hv => hstep_le cw p maxColumnWidth hcw hv) u.Headers.enum _ ?_ ?_ k2
      · intro k3
        rw [getD_replicate_zero]
        simp [maxColumnWidth]
      · intro p hp
        exact hH50 p.2 (snd_mem_of_mem_enum _ p hp)
    split
    · refine ⟨by simp [maxColumnWidth], ?_, ?_⟩
      · refine le_trans (hH50 _ (getD_mem u.Headers i hi)) ?_
        exact le_refl _
      · intro row hrow hilen
        exact le_trans (hR50 row hrow _ (getD_mem row i hilen)) (le_refl _)
    · refine ⟨?_, ?_, ?_⟩
      · refine le_trans ?_ (rowsFold_mono u.Rows _ i)
        have hmono := idxFold_mono _ (fun p : Nat × GoStr => p.1) hstep_untouched hstep_mono
          u.Headers.enum (List.replicate u.Headers.length 0) i
        rw [getD_replicate_zero] at hmono
        exact hmono
      · refine le_trans ?_ (rowsFold_mono u.Rows _ i)
        have hge := idxFold_ge _ (fun p : Nat × GoStr => p.1) (fun p => (visLen p.2 : Int))
          hstep_untouched hstep_mono (fun cw p hl => hstep_ge cw p hl)
          u.Headers.enum (List.replicate u.Headers.length 0)
          (i, u.Headers.getD i default) (getD_mem_enum u.Headers i hi)
          (by simpa using hi) (fun cw p => hstep_len cw p)
        simpa using hge
      · intro row hrow hilen
        refine rowsFold_ge u.Rows row hrow i hilen _ ?_
        rw [foldl_length_invariant _ _ _ (fun cw p => hstep_len cw p), List.length_replicate]
        exact hi
  · rw [foldl_length_invariant]
    · rw [foldl_length_invariant]
      · rw [List.length_replicate]
        exact hi
      · intro acc x
        exact hstep_len acc x
    · intro acc row
      rw [foldl_length_invariant]
      intro acc2 p
      exact rstep_len acc2 p



theorem spaces_length (k : Int) : (spaces k).length = k.toNat := by
  simp [spaces, goRepeat]

theorem spaces_all32 (k : Int) : ∀ b ∈ spaces k, b = 32 := by
  intro b hb
  simp only [spaces, goRepeat, List.mem_flatten, List.mem_replicate] at hb
  obtain ⟨l, ⟨_, hl⟩, hbl⟩ := hb
  subst hl
  simpa using hbl

theorem getStyledChar_plain (t : Table) (c : GoStr) (hb : t.borderless = false)
    (hd : t.dimBorder = false) : t.getStyledChar c = c := by
  simp [Table.getStyledChar, hb, hd]

theorem getStyledHLine_plain (t : Table) (w : Int) (hb : t.borderless = false)
    (hd : t.dimBorder = false) : t.getStyledHLine w = goRepeat HLine w := by
  simp [Table.getStyledHLine, hb, hd]

theorem getHighlightedText_plain (t : Table) (txt : GoStr) (i : Int)
    (ha : t.supportANSI = false) : t.getHighlightedText txt i = txt := by
  simp [Table.getHighlightedText, ha]

/-- A fitting printable cell text formats to an all-printable cell of
exactly `width + 2` bytes (any alignment). -/
theorem formatCell_props (t : Table) (txt : GoStr) (ci : Nat)
    (hp : ∀ b ∈ txt, 32 ≤ b ∧ b < 127)
    (hfit : (txt.length : Int) ≤ t.columnWidths.getD ci 0)
    (h0 : 0 ≤ t.columnWidths.getD ci 0) :
    (∀ b ∈ t.formatCellContent txt ci, 32 ≤ b ∧ b < 128) ∧
    ((t.formatCellContent txt ci).length : Int) = t.columnWidths.getD ci 0 + 2 := by
  have hesc : 27 ∉ txt := fun hm => by have := hp 27 hm; omega
  have hcount : utf8RuneCount (stripANSI txt) = txt.length := by
    rw [stripANSI_no_esc txt hesc]
    exact utf8RuneCount_ascii txt (fun b hb => by have := hp b hb; omega)
  simp only [Table.formatCellContent, hcount]
  split
  · rw [if_neg (show ¬ t.columnWidths.getD ci 0 - (txt.length : Int) < 0 by omega)]
    constructor
    · intro b hb
      simp only [List.append_assoc, List.mem_append, List.mem_singleton] at hb
      rcases hb with hb | hb | hb | hb
      · subst hb; omega
      · have := spaces_all32 _ b hb; omega
      · have := hp b hb; omega
      · subst hb; omega
    · simp only [List.length_append, List.length_singleton, spaces_length]
      push_cast
      omega
  · split
    · rw [if_neg (show ¬ t.columnWidths.getD ci 0 - (txt.length : Int) < 0 by omega)]
      constructor
      · intro b hb
        simp only [List.append_assoc, List.mem_append, List.mem_singleton] at hb
        rcases hb with hb | hb | hb | hb | hb
        · subst hb; omega
        · have := spaces_all32 _ b hb; omega
        · have := hp b hb; omega
        · have := spaces_all32 _ b hb; omega
        · subst hb; omega
      · simp only [List.length_append, List.length_singleton, spaces_length]
        push_cast
        omega
    · rw [if_neg (show ¬ t.columnWidths.getD ci 0 - (txt.length : Int) < 0 by omega)]
      constructor
      · intro b hb
        simp only [List.append_assoc, List.mem_append, List.mem_singleton] at hb
        rcases hb with hb | hb | hb | hb
        · subst hb; omega
        · have := hp b hb; omega
        · have := spaces_all32 _ b hb; omega
        · subst hb; omega
      · simp only [List.length_append, List.length_singleton, spaces_length]
        push_cast
        omega



/-- `Σ (w + 3)`: the width contribution of columns (content, padding and
one separator each). -/
def sumW (ws : List Int) : Int := ws.foldl (fun acc w => acc + (w + 3)) 0

theorem foldl_w3_shift (ws : List Int) : ∀ c : Int,
    ws.foldl (fun acc w => acc + (w + 3)) c = c + sumW ws := by
  induction ws with
  | nil => intro c; simp [sumW]
  | cons w ws ih =>
    intro c
    rw [List.foldl_cons]
    show ws.foldl _ (c + (w + 3)) = _
    rw [ih (c + (w + 3))]
    show _ = c + (w :: ws).foldl (fun acc w => acc + (w + 3)) 0
    rw [List.foldl_cons, ih (0 + (w + 3))]
    ring

theorem sumW_cons (w : Int) (ws : List Int) : sumW (w :: ws) = (w + 3) + sumW ws := by
  show (w :: ws).foldl _ 0 = _
  rw [List.foldl_cons, foldl_w3_shift]
  ring

theorem totalWidth_eq_sumW (cw : List Int) : totalWidth cw = 1 + sumW cw := by
  unfold totalWidth
  rw [show (fun (acc w : Int) => acc + (w + 2 + 1)) = (fun (acc w : Int) => acc + (w + 3))
    from by funext a w; ring]
  rw [foldl_w3_shift]

def isBoxChar (c : GoStr) : Prop := ∃ x, c = [226, 148, x] ∧ 128 ≤ x ∧ x ≤ 191

theorem count_box_append (c : GoStr) (hc : isBoxChar c) (z : GoStr) :
    utf8RuneCount (c ++ z) = 1 + utf8RuneCount z := by
  obtain ⟨x, hcx, hx⟩ := hc
  subst hcx
  exact count_box_cons x z hx

theorem box_bytes (c : GoStr) (hc : isBoxChar c) : ∀ b ∈ c, 32 ≤ b := by
  obtain ⟨x, hcx, hx⟩ := hc
  subst hcx
  intro b hb
  simp only [List.mem_cons, List.mem_singleton] at hb
  rcases hb with hb | hb | hb | hb
  · omega
  · omega
  · omega
  · simp at hb

theorem isBox_HLine : isBoxChar HLine := ⟨128, rfl, by omega, by omega⟩
theorem isBox_VLine : isBoxChar VLine := ⟨130, rfl, by omega, by omega⟩
theorem isBox_TopLeft : isBoxChar TopLeft := ⟨140, rfl, by omega, by omega⟩
theorem isBox_TopRight : isBoxChar TopRight := ⟨144, rfl, by omega, by omega⟩
theorem isBox_BottomLeft : isBoxChar BottomLeft := ⟨148, rfl, by omega, by omega⟩
theorem isBox_BottomRight : isBoxChar BottomRight := ⟨152, rfl, by omega, by omega⟩
theorem isBox_LeftT : isBoxChar LeftT := ⟨156, rfl, by omega, by omega⟩
theorem isBox_RightT : isBoxChar RightT := ⟨164, rfl, by omega, by omega⟩
theorem isBox_TopT : isBoxChar TopT := ⟨172, rfl, by omega, by omega⟩
theorem isBox_BottomT : isBoxChar BottomT := ⟨180, rfl, by omega, by omega⟩
theorem isBox_Cross : isBoxChar Cross := ⟨188, rfl, by omega, by omega⟩

theorem goRepeat_hline_bytes (w : Int) : ∀ b ∈ goRepeat HLine w, 32 ≤ b := by
  intro b hb
  simp only [goRepeat, List.mem_flatten, List.mem_replicate] at hb
  obtain ⟨l, ⟨_, hl⟩, hbl⟩ := hb
  subst hl
  exact box_bytes HLine isBox_HLine b hbl

/-- The interior of a border line (parametric in the junction char):
the count of the per-column dashes and interior junctions. -/
theorem border_flatten_count (n : Nat) (C : GoStr) (hC : isBoxChar C) :
    ∀ (ws : List Int) (k : Nat) (y : GoStr),
      k + ws.length = n →
      (∀ w ∈ ws, 0 ≤ w) →
      (utf8RuneCount
        (((List.enumFrom k ws).map
          (fun p => goRepeat HLine (p.2 + 2) ++
            (if p.1 < n - 1 then C else []))).flatten ++ y) : Int) =
      sumW ws - (if ws = [] then 0 else 1) + utf8RuneCount y := by
  intro ws
  induction ws with
  | nil =>
    intro k y _ _
    simp [sumW]
  | cons w ws ih =>
    intro k y hk hpos
    simp only [List.enumFrom_cons, List.map_cons, List.flatten_cons, List.append_assoc]
    rw [count_goRepeat_hline]
    have hw := hpos w (List.mem_cons_self _ _)
    by_cases hlast : ws = []
    · subst hlast
      rw [if_neg (by simp at hk; omega)]
      simp only [List.enumFrom_nil, List.map_nil, List.flatten_nil, List.nil_append,
        sumW_cons]
      rw [if_neg (by simp)]
      have h0 : sumW [] = 0 := rfl
      push_cast
      omega
    · rw [if_pos (by simp at hk; have := List.length_pos.mpr hlast; omega)]
      rw [count_box_append C hC]
      have hih := ih (k + 1) y (by simp at hk ⊢; omega)
        (fun x hx => hpos x (List.mem_cons_of_mem _ hx))
      rw [if_neg hlast] at hih
      rw [sumW_cons, if_neg (by simp)]
      push_cast at hih ⊢
      omega



theorem count_box_single (c : GoStr) (hc : isBoxChar c) : utf8RuneCount c = 1 := by
  have h := count_box_append c hc []
  simpa using h

theorem border_flatten_bytes (n : Nat) (C : GoStr) (hC : isBoxChar C) (ws : List Int)
    (k : Nat) :
    ∀ b ∈ ((List.enumFrom k ws).map
      (fun p => goRepeat HLine (p.2 + 2) ++ (if p.1 < n - 1 then C else []))).flatten,
      32 ≤ b := by
  intro b hb
  simp only [List.mem_flatten, List.mem_map] at hb
  obtain ⟨piece, ⟨p, hp, hfp⟩, hbp⟩ := hb
  subst hfp
  rcases List.mem_append.mp hbp with h | h
  · exact goRepeat_hline_bytes _ b h
  · split at h
    · exact box_bytes C hC b h
    · simp at h

theorem cells_flatten_count (t : Table) (txtf : Nat → GoStr)
    (hprops : ∀ ci, ci < t.columnWidths.length → (∀ b ∈ txtf ci, 32 ≤ b ∧ b < 127) ∧
      ((txtf ci).length : Int) ≤ t.columnWidths.getD ci 0)
    (h0 : ∀ ci, 0 ≤ t.columnWidths.getD ci 0) :
    ∀ (m k : Nat) (y : GoStr), k + m = t.columnWidths.length →
      (utf8RuneCount
        (((List.range' k m).map
          (fun ci => t.formatCellContent (txtf ci) ci ++ VLine)).flatten ++ y) : Int) =
      sumW (t.columnWidths.drop k) + utf8RuneCount y := by
  intro m
  induction m with
  | zero =>
    intro k y hk
    rw [List.drop_eq_nil_of_le (by omega)]
    simp [sumW]
  | succ m ih =>
    intro k y hk
    simp only [List.range'_succ, List.map_cons, List.flatten_cons, List.append_assoc]
    have hk' : k < t.columnWidths.length := by omega
    obtain ⟨hbytes, hlen⟩ := hprops k hk'
    obtain ⟨hfb, hflen⟩ := formatCell_props t (txtf k) k hbytes hlen (h0 k)
    rw [count_ascii_append _ _ (fun b hb => (hfb b hb).2)]
    rw [count_box_append VLine isBox_VLine]
    have hih := ih (k + 1) y (by omega)
    have hdk : t.columnWidths.drop k =
        t.columnWidths.getD k 0 :: t.columnWidths.drop (k + 1) := by
      rw [List.getD_eq_getElem _ _ hk']
      exact List.drop_eq_getElem_cons hk'
    rw [hdk, sumW_cons]
    push_cast at hih ⊢
    omega

theorem cells_flatten_bytes (t : Table) (txtf : Nat → GoStr)
    (hprops : ∀ ci, ci < t.columnWidths.length → (∀ b ∈ txtf ci, 32 ≤ b ∧ b < 127) ∧
      ((txtf ci).length : Int) ≤ t.columnWidths.getD ci 0)
    (h0 : ∀ ci, 0 ≤ t.columnWidths.getD ci 0) (m k : Nat)
    (hk : k + m = t.columnWidths.length) :
    ∀ b ∈ ((List.range' k m).map
      (fun ci => t.formatCellContent (txtf ci) ci ++ VLine)).flatten, 32 ≤ b := by
  intro b hb
  simp only [List.mem_flatten, List.mem_map] at hb
  obtain ⟨piece, ⟨ci, hci, hfp⟩, hbp⟩ := hb
  subst hfp
  have hcilt : ci < t.columnWidths.length := by
    have := List.mem_range'_1.mp hci
    omega
  obtain ⟨hbytes, hlen⟩ := hprops ci hcilt
  obtain ⟨hfb, _⟩ := formatCell_props t (txtf ci) ci hbytes hlen (h0 ci)
  rcases List.mem_append.mp hbp with h | h
  · exact (hfb b h).1
  · exact box_bytes VLine isBox_VLine b h

/-- A border line of a plain (non-dim, non-borderless) table has visible
width `totalWidth` and only bytes `≥ 32`. -/
theorem plain_border_props (t : Table) (hbb : t.borderless = false)
    (hd : t.dimBorder = false) (L C R : GoStr)
    (hL : isBoxChar L) (hCx : isBoxChar C) (hR : isBoxChar R)
    (hpos : ∀ w ∈ t.columnWidths, 0 ≤ w) (hne : t.columnWidths ≠ []) :
    ((utf8RuneCount (t.getStyledChar L ++
      (t.columnWidths.enum.map
        (fun p => t.getStyledHLine (p.2 + 2) ++
          (if p.1 < t.columnWidths.length - 1 then t.getStyledChar C else []))).flatten ++
      t.getStyledChar R) : Int) = totalWidth t.columnWidths) ∧
    ∀ b ∈ t.getStyledChar L ++
      (t.columnWidths.enum.map
        (fun p => t.getStyledHLine (p.2 + 2) ++
          (if p.1 < t.columnWidths.length - 1 then t.getStyledChar C else []))).flatten ++
      t.getStyledChar R, 32 ≤ b := by
  have hmap : t.columnWidths.enum.map
      (fun p => t.getStyledHLine (p.2 + 2) ++
        (if p.1 < t.columnWidths.length - 1 then t.getStyledChar C else [])) =
      t.columnWidths.enum.map
      (fun p => goRepeat HLine (p.2 + 2) ++
        (if p.1 < t.columnWidths.length - 1 then C else [])) :=
    List.map_congr_left (fun p _ => by
      rw [getStyledHLine_plain t _ hbb hd, getStyledChar_plain t C hbb hd])
  rw [getStyledChar_plain t L hbb hd, getStyledChar_plain t R hbb hd, hmap]
  have henum : t.columnWidths.enum = List.enumFrom 0 t.columnWidths := rfl
  rw [henum]
  have hcount := border_flatten_count t.columnWidths.length C hCx t.columnWidths 0 R
    (by omega) hpos
  rw [if_neg hne] at hcount
  constructor
  · rw [List.append_assoc]
    rw [count_box_append L hL]
    push_cast at hcount ⊢
    rw [hcount]
    rw [count_box_single R hR, totalWidth_eq_sumW]
    push_cast
    ring
  · intro b hb
    rw [List.append_assoc] at hb
    rcases List.mem_append.mp hb with h | h
    · exact box_bytes L hL b h
    · rcases List.mem_append.mp h with h | h
      · exact border_flatten_bytes t.columnWidths.length C hCx t.columnWidths 0 b h
      · exact box_bytes R hR b h

/-- A content line (header or data) of a plain table: visible width
`totalWidth`, bytes `≥ 32`. -/
theorem plain_cells_line_props (t : Table) (hbb : t.borderless = false)
    (hd : t.dimBorder = false) (txtf : Nat → GoStr)
    (hprops : ∀ ci, ci < t.columnWidths.length → (∀ b ∈ txtf ci, 32 ≤ b ∧ b < 127) ∧
      ((txtf ci).length : Int) ≤ t.columnWidths.getD ci 0)
    (h0 : ∀ ci, 0 ≤ t.columnWidths.getD ci 0) :
    ((utf8RuneCount (t.getStyledChar VLine ++
      ((List.range t.columnWidths.length).map
        (fun ci => t.formatCellContent (txtf ci) ci ++ t.getStyledChar VLine)).flatten) : Int) =
      totalWidth t.columnWidths) ∧
    ∀ b ∈ t.getStyledChar VLine ++
      ((List.range t.columnWidths.length).map
        (fun ci => t.formatCellContent (txtf ci) ci ++ t.getStyledChar VLine)).flatten,
      32 ≤ b := by
  have hmap : (List.range t.columnWidths.length).map
      (fun ci => t.formatCellContent (txtf ci) ci ++ t.getStyledChar VLine) =
      (List.range' 0 t.columnWidths.length).map
      (fun ci => t.formatCellContent (txtf ci) ci ++ VLine) := by
    rw [List.range_eq_range']
    exact List.map_congr_left (fun ci _ => by rw [getStyledChar_plain t VLine hbb hd])
  rw [hmap, getStyledChar_plain t VLine hbb hd]
  have hcount := cells_flatten_count t txtf hprops h0 t.columnWidths.length 0 [] (by omega)
  rw [List.append_nil] at hcount
  constructor
  · rw [count_box_append VLine isBox_VLine]
    push_cast at hcount ⊢
    rw [hcount]
    rw [totalWidth_eq_sumW]
    show 1 + (sumW t.columnWidths + (utf8RuneCount ([] : GoStr) : Int)) = _
    rw [show utf8RuneCount ([] : GoStr) = 0 from rfl]
    push_cast
    ring
  · intro b hb
    rcases List.mem_append.mp hb with h | h
    · exact box_bytes VLine isBox_VLine b h
    · exact cells_flatten_bytes t txtf hprops h0 t.columnWidths.length 0 (by omega) b h



/-- A cell whose visible content already fits its column is returned as a
single chunk. -/
theorem smartSplit_fits (t : Table) (fuel : Nat) (ci : Nat) (content : GoStr)
    (hesc : 27 ∉ content)
    (hfit : (utf8RuneCount content : Int) ≤ t.columnWidths.getD ci 0) :
    t.smartSplitCellContent fuel content ci = some [content] := by
  simp only [Table.smartSplitCellContent, extractWrappingANSI_no_esc content hesc,
    stripANSI_no_esc content hesc, List.nil_append, List.append_nil]
  rw [if_pos hfit]

theorem mapM_eq_some_of_forall {α β : Type} (l : List α) (F : α → Option β) (g : α → β)
    (h : ∀ a ∈ l, F a = some (g a)) : l.mapM F = some (l.map g) := by
  induction l with
  | nil => rfl
  | cons a l ih =>
    rw [List.mapM_cons, h a (List.mem_cons_self _ _),
      ih (fun x hx => h x (List.mem_cons_of_mem _ hx))]
    rfl

theorem mem_enum_eq {α : Type} [Inhabited α] (l : List α) (p : Nat × α) (hp : p ∈ l.enum) :
    p.1 < l.length ∧ p.2 = l.getD p.1 default := by
  rw [List.mem_enum_iff_getElem?] at hp
  have h1 : p.1 < l.length := (List.getElem?_eq_some.mp hp).1
  refine ⟨h1, ?_⟩
  rw [List.getD_eq_getElem l default h1]
  have := List.getElem?_eq_getElem h1
  rw [this] at hp
  exact (Option.some_inj.mp hp).symm

theorem enum_map_singleton {α : Type} (l : List α) :
    l.enum.map (fun p => [p.2]) = l.map (fun h => [h]) := by
  have h1 : l.enum.map (fun p => [p.2]) = (l.enum.map Prod.snd).map (fun h => [h]) := by
    rw [List.map_map]
    rfl
  rw [h1, List.enum_map_snd]

theorem getD_map_singleton {α : Type} [Inhabited α] (l : List α) (ci : Nat)
    (hci : ci < l.length) :
    (l.map (fun h => [h])).getD ci [] = [l.getD ci default] := by
  have h1 : ci < (l.map (fun h => [h])).length := by simpa using hci
  rw [List.getD_eq_getElem _ _ h1, List.getElem_map, List.getD_eq_getElem l default hci]

theorem splitOnByte_ne_nil (b : Nat) (s : GoStr) : splitOnByte b s ≠ [] := by
  match s with
  | [] => simp [splitOnByte]
  | c :: rest =>
    unfold splitOnByte
    split
    · simp
    · split <;> simp

theorem splitOnByte_append_byte (b : Nat) : ∀ (l rest : GoStr), b ∉ l →
    splitOnByte b (l ++ b :: rest) = l :: splitOnByte b rest := by
  intro l
  induction l with
  | nil =>
    intro rest _
    show splitOnByte b (b :: rest) = _
    conv_lhs => unfold splitOnByte
    rw [if_pos rfl]
  | cons c l ih =>
    intro rest hb
    have hcb : c ≠ b := fun h => hb (h ▸ List.mem_cons_self _ _)
    show splitOnByte b (c :: (l ++ b :: rest)) = _
    conv_lhs => unfold splitOnByte
    rw [if_neg hcb]
    rw [ih rest (fun hm => hb (List.mem_cons_of_mem _ hm))]

theorem joinNL_cons (l : GoStr) (ls : List GoStr) :
    joinNL (l :: ls) = l ++ 10 :: joinNL ls := by
  simp [joinNL]

theorem splitOnByte_joinNL (lines : List GoStr) (hnl : ∀ l ∈ lines, (10 : Nat) ∉ l) :
    (splitOnByte 10 (joinNL lines)).dropLast = lines := by
  induction lines with
  | nil => rfl
  | cons l ls ih =>
    rw [joinNL_cons]
    rw [splitOnByte_append_byte 10 l (joinNL ls) (hnl l (List.mem_cons_self _ _))]
    rw [List.dropLast_cons_of_ne_nil (splitOnByte_ne_nil 10 (joinNL ls))]
    rw [ih (fun x hx => hnl x (List.mem_cons_of_mem _ hx))]



/-- One emitted header text line of a plain table. -/
theorem plain_headerRowLine_props (tp : Table) (hbb : tp.borderless = false)
    (hd : tp.dimBorder = false) (ha : tp.supportANSI = false)
    (hlen : tp.Headers.length = tp.columnWidths.length)
    (headerLines : List (List GoStr)) (line : Nat)
    (hchunks : ∀ ci, ci < tp.columnWidths.length →
      (∀ b ∈ (headerLines.getD ci []).getD line [], 32 ≤ b ∧ b < 127) ∧
      (((headerLines.getD ci []).getD line []).length : Int) ≤ tp.columnWidths.getD ci 0)
    (h0 : ∀ ci, 0 ≤ tp.columnWidths.getD ci 0) :
    ((utf8RuneCount (tp.headerRowLine headerLines line) : Int) =
      totalWidth tp.columnWidths) ∧
    ∀ b ∈ tp.headerRowLine headerLines line, 32 ≤ b := by
  unfold Table.headerRowLine
  rw [hlen]
  refine plain_cells_line_props tp hbb hd
    (fun ci => tp.getHighlightedText ((headerLines.getD ci []).getD line []) (Int.ofNat ci))
    (fun ci hci => ?_) h0
  show (∀ b ∈ tp.getHighlightedText ((headerLines.getD ci []).getD line []) (Int.ofNat ci),
      32 ≤ b ∧ b < 127) ∧
    ((tp.getHighlightedText ((headerLines.getD ci []).getD line [])
        (Int.ofNat ci)).length : Int) ≤ tp.columnWidths.getD ci 0
  rw [getHighlightedText_plain tp _ _ ha]
  exact hchunks ci hci

/-- One emitted data text line of a plain table. -/
theorem plain_dataRowLine_props (tp : Table) (hbb : tp.borderless = false)
    (hd : tp.dimBorder = false)
    (rowLines : List (List GoStr)) (line : Nat)
    (hrl : rowLines.length = tp.columnWidths.length)
    (hchunks : ∀ ci, ci < tp.columnWidths.length →
      (∀ b ∈ (rowLines.getD ci []).getD line [], 32 ≤ b ∧ b < 127) ∧
      (((rowLines.getD ci []).getD line []).length : Int) ≤ tp.columnWidths.getD ci 0)
    (h0 : ∀ ci, 0 ≤ tp.columnWidths.getD ci 0) :
    ((utf8RuneCount (tp.dataRowLine rowLines line) : Int) = totalWidth tp.columnWidths) ∧
    ∀ b ∈ tp.dataRowLine rowLines line, 32 ≤ b := by
  unfold Table.dataRowLine
  rw [hrl]
  exact plain_cells_line_props tp hbb hd
    (fun ci => (rowLines.getD ci []).getD line []) hchunks h0

/-- The border lines of a plain table. -/
theorem plain_topBorder_props (tp : Table) (hbb : tp.borderless = false)
    (hd : tp.dimBorder = false) (hpos : ∀ w ∈ tp.columnWidths, 0 ≤ w)
    (hnec : tp.columnWidths ≠ []) :
    ((utf8RuneCount tp.topBorderLine : Int) = totalWidth tp.columnWidths) ∧
    ∀ b ∈ tp.topBorderLine, 32 ≤ b := by
  unfold Table.topBorderLine
  exact plain_border_props tp hbb hd TopLeft TopT TopRight
    isBox_TopLeft isBox_TopT isBox_TopRight hpos hnec

theorem plain_middleBorder_props (tp : Table) (hbb : tp.borderless = false)
    (hd : tp.dimBorder = false) (hpos : ∀ w ∈ tp.columnWidths, 0 ≤ w)
    (hnec : tp.columnWidths ≠ []) :
    ((utf8RuneCount tp.middleBorderLine : Int) = totalWidth tp.columnWidths) ∧
    ∀ b ∈ tp.middleBorderLine, 32 ≤ b := by
  unfold Table.middleBorderLine
  exact plain_border_props tp hbb hd LeftT Cross RightT
    isBox_LeftT isBox_Cross isBox_RightT hpos hnec

theorem plain_bottomBorder_props (tp : Table) (hbb : tp.borderless = false)
    (hd : tp.dimBorder = false) (hpos : ∀ w ∈ tp.columnWidths, 0 ≤ w)
    (hnec : tp.columnWidths ≠ []) :
    ((utf8RuneCount tp.bottomBorderLine : Int) = totalWidth tp.columnWidths) ∧
    ∀ b ∈ tp.bottomBorderLine, 32 ≤ b := by
  unfold Table.bottomBorderLine
  exact plain_border_props tp hbb hd BottomLeft BottomT BottomRight
    isBox_BottomLeft isBox_BottomT isBox_BottomRight hpos hnec

/-- A row block of a plain description-free table: it renders, and every
produced line has full width and printable bytes. -/
theorem rowBlock_props (tp : Table) (fuel : Nat) (hbb : tp.borderless = false)
    (hd : tp.dimBorder = false) (hdesc : ∀ ri, tp.Descriptions ri = none)
    (hpos : ∀ w ∈ tp.columnWidths, 0 ≤ w)
    (h0 : ∀ ci, 0 ≤ tp.columnWidths.getD ci 0)
    (hnec : tp.columnWidths ≠ [])
    (ri : Nat) (row : List GoStr)
    (hrowlen : row.length = tp.columnWidths.length)
    (hcells : ∀ i, i < row.length → (∀ b ∈ row.getD i [], 32 ≤ b ∧ b < 127) ∧
      (utf8RuneCount (row.getD i []) : Int) ≤ tp.columnWidths.getD i 0) :
    ∃ ls, tp.rowBlockLines fuel ri row = some ls ∧
      ∀ l ∈ ls, (∀ b ∈ l, 32 ≤ b) ∧
        (utf8RuneCount l : Int) = totalWidth tp.columnWidths := by
  have hm : row.enum.mapM (fun p => tp.smartSplitCellContent fuel p.2 p.1) =
      some (row.map (fun c => [c])) := by
    rw [← enum_map_singleton]
    refine mapM_eq_some_of_forall row.enum
      (fun p => tp.smartSplitCellContent fuel p.2 p.1) (fun p => [p.2]) ?_
    intro p hp
    obtain ⟨hplt, hpeq⟩ := mem_enum_eq row p hp
    have hc := hcells p.1 hplt
    show tp.smartSplitCellContent fuel p.2 p.1 = some [p.2]
    rw [hpeq]
    refine smartSplit_fits tp fuel p.1 _ ?_ hc.2
    intro hmem
    have := hc.1 27 hmem
    omega
  unfold Table.rowBlockLines
  rw [hm, hdesc (Int.ofNat ri)]
  refine ⟨_, rfl, ?_⟩
  intro l hl
  simp only [List.mem_append, List.mem_map, List.mem_range] at hl
  have hchunkprops : ∀ (line : Nat) (ci : Nat), ci < tp.columnWidths.length →
      (∀ b ∈ ((row.map (fun c => [c])).getD ci []).getD line [], 32 ≤ b ∧ b < 127) ∧
      ((((row.map (fun c => [c])).getD ci []).getD line []).length : Int) ≤
        tp.columnWidths.getD ci 0 := by
    intro line ci hci
    have hcirow : ci < row.length := by omega
    rw [getD_map_singleton row ci hcirow]
    match line with
    | 0 =>
      have hc := hcells ci hcirow
      have hlen : ((row.getD ci []).length : Int) ≤ tp.columnWidths.getD ci 0 := by
        have hcnt : utf8RuneCount (row.getD ci []) = (row.getD ci []).length :=
          utf8RuneCount_ascii _ (fun b hb => by have := hc.1 b hb; omega)
        rw [hcnt] at hc
        exact hc.2
      exact ⟨hc.1, hlen⟩
    | line + 1 =>
      refine ⟨by simp, ?_⟩
      simp only [List.getD]
      show ((([] : GoStr).length : Int)) ≤ _
      simp only [List.length_nil, Int.ofNat_zero]
      exact h0 ci
  rcases hl with ⟨line, _, hline⟩ | hl
  · subst hline
    obtain ⟨hcount, hbytes⟩ := plain_dataRowLine_props tp hbb hd (row.map (fun c => [c]))
      line (by simpa using hrowlen) (hchunkprops line) h0
    exact ⟨hbytes, hcount⟩
  · split at hl
    · simp only [List.mem_singleton] at hl
      subst hl
      obtain ⟨hcount, hbytes⟩ := plain_middleBorder_props tp hbb hd hpos hnec
      exact ⟨hbytes, hcount⟩
    · simp at hl

/-- The accumulation of row blocks. -/
theorem rowBlocks_foldlM (tp : Table) (fuel : Nat) (P : GoStr → Prop) :
    ∀ (l : List (Nat × List GoStr)),
    (∀ p ∈ l, ∃ ls, tp.rowBlockLines fuel p.1 p.2 = some ls ∧ ∀ x ∈ ls, P x) →
    ∀ (acc : List GoStr), (∀ x ∈ acc, P x) →
    ∃ rbs,
      l.foldlM (fun (acc : List GoStr) (p : Nat × List GoStr) => do
        let ls ← tp.rowBlockLines fuel p.1 p.2
        pure (acc ++ ls)) acc = some rbs ∧ ∀ x ∈ rbs, P x := by
  intro l
  induction l with
  | nil =>
    intro _ acc hacc
    exact ⟨acc, rfl, hacc⟩
  | cons p l ih =>
    intro hsteps acc hacc
    obtain ⟨ls, hls, hlsP⟩ := hsteps p (List.mem_cons_self _ _)
    rw [List.foldlM_cons, hls]
    refine ih (fun q hq => hsteps q (List.mem_cons_of_mem _ hq)) (acc ++ ls) ?_
    intro x hx
    rcases List.mem_append.mp hx with hx | hx
    · exact hacc x hx
    · exact hlsP x hx



/-- C2 (amended): for a plain-text table — no ANSI support, default
borders, no row count, no descriptions, no per-column caps, printable
ASCII headers and cells each at most 50 characters, rows as wide as the
header row — every line of the string returned by `Render` has the same
visible length, namely `totalWidth` of the computed column widths.
Without these restrictions the claim fails: an overlong comma segment is
emitted wider than its column (see the counterexample). -/
theorem claim_uniform_line_width_amended (t : Table) (fuel : Nat)
    (hrc : t.rowCountEnabled = false)
    (ha : t.supportANSI = false)
    (hbb : t.borderless = false)
    (hdesc : ∀ ri, t.Descriptions ri = none)
    (hnomw : ∀ j, t.maxWidths j = none)
    (hne : t.Headers ≠ [])
    (hH : ∀ h ∈ t.Headers, (∀ b ∈ h, 32 ≤ b ∧ b < 127) ∧ (h.length : Int) ≤ maxColumnWidth)
    (hRows : ∀ row ∈ t.Rows, row.length = t.Headers.length ∧
      ∀ c ∈ row, (∀ b ∈ c, 32 ≤ b ∧ b < 127) ∧ (c.length : Int) ≤ maxColumnWidth) :
    ∀ r ∈ t.Render fuel, ∀ l ∈ (splitOnByte 10 r.2).dropLast,
      (visLen l : Int) = totalWidth r.1.columnWidths := by
  intro r hr
  rw [Option.mem_def] at hr
  unfold Table.Render at hr
  rw [hrc] at hr
  simp only [Bool.false_eq_true, if_false, Option.map_eq_some'] at hr
  obtain ⟨r0, hbody, hr0⟩ := hr
  have hfst := renderBodyLines_fst t fuel r0 hbody
  -- the prepared table
  have ht1 : t.renderPrepare =
      ({ t with dimBorder := false, highlightHeaders := false } :
        Table).calculateInitialColumnWidths := by
    unfold Table.renderPrepare
    rw [ha]
    show ({ t with
        dimBorder := false
        highlightHeaders := false
        supportANSI := false
        Headers := t.Headers.map stripANSI
        Rows := t.Rows.map (fun row => row.map stripANSI)
        Descriptions := fun ri => (t.Descriptions ri).map (fun ds => ds.map stripANSI)
        DescriptionTitles := fun ri =>
          match t.Descriptions ri with
          | some _ => (t.DescriptionTitles ri).map (fun ts => ts.map stripANSI)
          | none => t.DescriptionTitles ri } : Table).calculateInitialColumnWidths = _
    apply congrArg Table.calculateInitialColumnWidths
    have hHs : t.Headers.map stripANSI = t.Headers := by
      have h1 : t.Headers.map stripANSI = t.Headers.map id :=
        List.map_congr_left (fun h hh =>
          stripANSI_no_esc h (fun hm => by have := (hH h hh).1 27 hm; omega))
      simpa using h1
    have hRs : t.Rows.map (fun row => row.map stripANSI) = t.Rows := by
      have h1 : t.Rows.map (fun row => row.map stripANSI) = t.Rows.map id :=
        List.map_congr_left (fun row hrow => by
          have h2 : row.map stripANSI = row.map id :=
            List.map_congr_left (fun c hc =>
              stripANSI_no_esc c (fun hm => by
                have := ((hRows row hrow).2 c hc).1 27 hm; omega))
          simpa using h2)
      simpa using h1
    have hDs : (fun ri => (t.Descriptions ri).map (fun ds => ds.map stripANSI)) =
        t.Descriptions := by
      funext ri
      rw [hdesc ri]
      rfl
    have hDTs : (fun ri =>
        match t.Descriptions ri with
        | some _ => (t.DescriptionTitles ri).map (fun ts => ts.map stripANSI)
        | none => t.DescriptionTitles ri) = t.DescriptionTitles := by
      funext ri
      rw [hdesc ri]
    rw [hHs, hRs, hDs, hDTs]
  -- facts about the prepared table
  have hU_bb : t.renderPrepare.borderless = false := by rw [ht1]; exact hbb
  have hU_d : t.renderPrepare.dimBorder = false := by rw [ht1]; rfl
  have hU_a : t.renderPrepare.supportANSI = false := by rw [ht1]; exact ha
  have hU_desc : ∀ ri, t.renderPrepare.Descriptions ri = none := by
    intro ri; rw [ht1]; exact hdesc ri
  have hU_H : t.renderPrepare.Headers = t.Headers := by rw [ht1]; rfl
  have hU_R : t.renderPrepare.Rows = t.Rows := by rw [ht1]; rfl
  have hcwlen : t.renderPrepare.columnWidths.length = t.Headers.length := by
    rw [ht1]
    exact calcInit_length { t with dimBorder := false, highlightHeaders := false }
  have hbounds : ∀ i, i < t.Headers.length →
      0 ≤ t.renderPrepare.columnWidths.getD i 0 ∧
      (visLen (t.Headers.getD i []) : Int) ≤ t.renderPrepare.columnWidths.getD i 0 ∧
      (∀ row ∈ t.Rows, i < row.length →
        (visLen (row.getD i []) : Int) ≤ t.renderPrepare.columnWidths.getD i 0) := by
    intro i hi
    rw [ht1]
    refine calcInit_bounds { t with dimBorder := false, highlightHeaders := false } i hi
      (fun j => hnomw j) ?_ ?_
    · intro h hh
      rw [visLen_ascii h (fun b hb => by have := (hH h hh).1 b hb; omega)]
      exact (hH h hh).2
    · intro row hrow c hc
      rw [visLen_ascii c (fun b hb => by have := ((hRows row hrow).2 c hc).1 b hb; omega)]
      exact ((hRows row hrow).2 c hc).2
  have h0 : ∀ ci, 0 ≤ t.renderPrepare.columnWidths.getD ci 0 := by
    intro ci
    by_cases hci : ci < t.Headers.length
    · exact (hbounds ci hci).1
    · rw [List.getD_eq_default]
      omega
  have hpos : ∀ w ∈ t.renderPrepare.columnWidths, 0 ≤ w := by
    intro w hw
    obtain ⟨i, hi, hwi⟩ := List.mem_iff_getElem.mp hw
    have hi' : i < t.Headers.length := by omega
    have := (hbounds i hi').1
    rw [List.getD_eq_getElem _ _ hi] at this
    rw [← hwi]
    exact this
  have hnec : t.renderPrepare.columnWidths ≠ [] := by
    intro hnil
    have := congrArg List.length hnil
    rw [hcwlen] at this
    simp at this
    exact hne this
  -- decompose the body
  unfold Table.renderBodyLines at hbody
  simp only [bind, Option.bind_eq_some, pure, Option.some_inj] at hbody
  obtain ⟨hl0, hA, rb, hB, hpair⟩ := hbody
  -- header wrapping: every header fits, one chunk each
  have hAval : t.renderPrepare.Headers.enum.mapM
      (fun p => t.renderPrepare.smartSplitCellContent fuel p.2 p.1) =
      some (t.renderPrepare.Headers.map (fun h => [h])) := by
    rw [← enum_map_singleton]
    refine mapM_eq_some_of_forall t.renderPrepare.Headers.enum
      (fun p => t.renderPrepare.smartSplitCellContent fuel p.2 p.1) (fun p => [p.2]) ?_
    intro p hp
    obtain ⟨hplt, hpeq⟩ := mem_enum_eq t.renderPrepare.Headers p hp
    show t.renderPrepare.smartSplitCellContent fuel p.2 p.1 = some [p.2]
    rw [hpeq]
    rw [hU_H] at hplt ⊢
    have hhd : t.Headers.getD p.1 default ∈ t.Headers := getD_mem t.Headers p.1 hplt
    have hprops := hH _ hhd
    refine smartSplit_fits t.renderPrepare fuel p.1 _ ?_ ?_
    · intro hmem
      have := hprops.1 27 hmem
      omega
    · have hb2 := (hbounds p.1 hplt).2.1
      unfold visLen at hb2
      rw [stripANSI_no_esc _ (fun hm => by have := hprops.1 27 hm; omega)] at hb2
      exact hb2
  rw [hAval] at hA
  have hl0eq : hl0 = t.renderPrepare.Headers.map (fun h => [h]) := (Option.some_inj.mp hA).symm
  -- chunk properties for header lines
  have hHchunks : ∀ (line ci : Nat), ci < t.renderPrepare.columnWidths.length →
      (∀ b ∈ (hl0.getD ci []).getD line [], 32 ≤ b ∧ b < 127) ∧
      (((hl0.getD ci []).getD line []).length : Int) ≤
        t.renderPrepare.columnWidths.getD ci 0 := by
    intro line ci hci
    rw [hl0eq, hU_H]
    have hcih : ci < t.Headers.length := by omega
    rw [getD_map_singleton t.Headers ci hcih]
    match line with
    | 0 =>
      have hhd : t.Headers.getD ci default ∈ t.Headers := getD_mem t.Headers ci hcih
      have hprops := hH _ hhd
      refine ⟨hprops.1, ?_⟩
      have hb2 := (hbounds ci hcih).2.1
      rw [visLen_ascii _ (fun b hb => by have := hprops.1 b hb; omega)] at hb2
      exact hb2
    | line + 1 =>
      refine ⟨by simp, ?_⟩
      show ((([] : GoStr)).length : Int) ≤ _
      simp only [List.length_nil, Int.ofNat_zero]
      exact h0 ci
  -- the row blocks
  have hsteps : ∀ p ∈ t.renderPrepare.Rows.enum, ∃ ls,
      t.renderPrepare.rowBlockLines fuel p.1 p.2 = some ls ∧
      ∀ x ∈ ls, (∀ b ∈ x, 32 ≤ b) ∧
        (utf8RuneCount x : Int) = totalWidth t.renderPrepare.columnWidths := by
    intro p hp
    obtain ⟨hplt, hpeq⟩ := mem_enum_eq t.renderPrepare.Rows p hp
    have hprow : p.2 ∈ t.Rows := by
      rw [← hU_R]
      exact snd_mem_of_mem_enum _ p hp
    obtain ⟨hrlen, hrcells⟩ := hRows p.2 hprow
    refine rowBlock_props t.renderPrepare fuel hU_bb hU_d hU_desc hpos h0 hnec p.1 p.2
      (by rw [hrlen, ← hcwlen]) ?_
    intro i hi
    have hci : p.2.getD i [] ∈ p.2 := getD_mem p.2 i hi
    have hcprops := hrcells _ hci
    refine ⟨hcprops.1, ?_⟩
    have hi' : i < t.Headers.length := by omega
    have := (hbounds i hi').2.2 p.2 hprow hi
    unfold visLen at this
    rw [stripANSI_no_esc _ (fun hm => by have := hcprops.1 27 hm; omega)] at this
    exact this
  obtain ⟨rbs, hrbs, hrbsP⟩ := rowBlocks_foldlM t.renderPrepare fuel
    (fun x => (∀ b ∈ x, 32 ≤ b) ∧
      (utf8RuneCount x : Int) = totalWidth t.renderPrepare.columnWidths)
    t.renderPrepare.Rows.enum hsteps [] (by simp)
  have hB2 : List.foldlM (fun (acc : List GoStr) (p : Nat × List GoStr) => do
      let ls ← t.renderPrepare.rowBlockLines fuel p.1 p.2
      pure (acc ++ ls)) [] t.renderPrepare.Rows.enum = some rb := hB
  rw [hrbs] at hB2
  have hrbeq : rb = rbs := (Option.some_inj.mp hB2).symm
  -- every emitted line is printable and full-width
  have hlinesP : ∀ l ∈ r0.2, (∀ b ∈ l, 32 ≤ b) ∧
      (utf8RuneCount l : Int) = totalWidth t.renderPrepare.columnWidths := by
    intro l hl
    rw [← hpair] at hl
    simp only [hU_desc] at hl
    simp only [List.mem_append, List.mem_singleton, List.mem_map, List.mem_range] at hl
    rcases hl with ((((hl | hl) | hl) | hl) | hl)
    · subst hl
      obtain ⟨hc, hb⟩ := plain_topBorder_props t.renderPrepare hU_bb hU_d hpos hnec
      exact ⟨hb, hc⟩
    · obtain ⟨line, _, hline⟩ := hl
      subst hline
      obtain ⟨hc, hb⟩ := plain_headerRowLine_props t.renderPrepare hU_bb hU_d hU_a
        (by rw [hU_H, ← hcwlen]) hl0 line (fun ci hci => hHchunks line ci hci) h0
      exact ⟨hb, hc⟩
    · subst hl
      obtain ⟨hc, hb⟩ := plain_middleBorder_props t.renderPrepare hU_bb hU_d hpos hnec
      exact ⟨hb, hc⟩
    · rw [hrbeq] at hl
      exact hrbsP l hl
    · subst hl
      obtain ⟨hc, hb⟩ := plain_bottomBorder_props t.renderPrepare hU_bb hU_d hpos hnec
      exact ⟨hb, hc⟩
  -- back to the rendered string
  intro l hl
  have hr2 : r.2 = joinNL r0.2 := by rw [← hr0]
  have hr1 : r.1 = r0.1 := by rw [← hr0]
  rw [hr2] at hl
  rw [hr1]
  rw [splitOnByte_joinNL r0.2
    (fun x hx hmem => by have := (hlinesP x hx).1 10 hmem; omega)] at hl
  obtain ⟨hbytes, hcount⟩ := hlinesP l hl
  rw [hfst]
  unfold visLen
  rw [stripANSI_no_esc l (fun hm => by have := hbytes 27 hm; omega)]
  exact hcount



/-- A one-column plain table with header `"CVE"` and one row `"a"`. -/
def widthWitnessDemo : Table := (NewTable [[67, 86, 69]] 80 false).AddRow [[97]]

/-- Witness for the amended C2 on `widthWitnessDemo`. -/
theorem claim_uniform_line_width_amended_witness :
    (∀ h ∈ widthWitnessDemo.Headers,
      (∀ b ∈ h, 32 ≤ b ∧ b < 127) ∧ (h.length : Int) ≤ maxColumnWidth) ∧
    ∀ r ∈ widthWitnessDemo.Render 50, ∀ l ∈ (splitOnByte 10 r.2).dropLast,
      (visLen l : Int) = totalWidth r.1.columnWidths :=
  ⟨by decide,
   claim_uniform_line_width_amended widthWitnessDemo 50 rfl rfl rfl (fun ri => rfl)
     (fun j => rfl) (by decide) (by decide) (by decide)⟩

/-- A column capped at width 5 holding `"aaaaaaaaaa,b"`: the comma
strategy emits the 10-character segment `"aaaaaaaaaa"` unsplit. -/
def widthDemo : Table :=
  ((NewTable [[72]] 80 false).SetMaxWidth 0 5).AddRow
    [[97, 97, 97, 97, 97, 97, 97, 97, 97, 97, 44, 98]]

/-- C2 (counterexample): the claim is false in general.  On `widthDemo`
the rendered lines have visible widths `[9, 9, 9, 14, 9, 9]`: the data
line carrying the overlong comma segment is wider than every border
line. -/
theorem claim_uniform_line_width_counterexample :
    (widthDemo.Render 100).map
      (fun r => (splitOnByte 10 r.2).dropLast.map (fun l => visLen l)) =
      some [9, 9, 9, 14, 9, 9] ∧ (9 : Nat) ≠ 14 :=
  ⟨by decide, by decide⟩

end table
